import Mathlib

/-!
# Agent coordination: classifier, phase scheduler, aggregator, coordinator

A shallow embedding of `src/real-world-example.js` (class `AgentCoordinator`),
`src/agent-workflow-demo.js` (class `AgentWorkflowDemo`) and
`src/agent-testing-framework.js` (class `AgentTestingFramework`).

Conventions of the embedding.

* A JavaScript number is represented by its exact value, a rational (`ℚ`). The definitions
  under the plain names of the source read every arithmetic operation as the exact
  operation, so that the literal `0.7` is `7/10`: they serve what is stated in exact
  arithmetic. The definitions in the namespaces `Double` are the same functions with every
  literal and every operation rounded to the nearest binary64 number (`F64.round`), which
  is what the code computes. `NaN` and the infinities are `none` where a division can
  yield them; negative zero is not represented.
* `console.log` is not modelled.
* `new Date()` reads a virtual clock (`World.now`, in milliseconds) that advances only
  while a `delay(ms)` timer is pending.
* `Math.random()` reads the next element of a stream (`Rng`).
* The `Map` object `results.outputs`, which `executePhase` and `executeAgent` receive by
  reference as `previousOutputs`, lives in the state (`World.outputs`).
* `World.trace` is a ghost log of what the scheduler did; program code cannot read it.
* The methods that stand for the actual work of a worker (`getAgentExecutionTime`,
  `generateAgentOutput`, `generateAgentMetrics`) are reached through `this`; the embedding
  takes them as a record `Methods`, whose instance `AgentWorkflowDemo.simulated` is the
  code of the source. An overriding method may throw, which is how a failing worker is
  expressed.
* `AgentTestingFramework` calls methods on `this` that no file of the repository defines.
  Those that `testSpecialization` and `calculateEffectiveness` call
  (`measureDomainAccuracy`, `identifyStrengths` and the like) are taken as a record
  `AgentTestingFramework.Supplied`, so that what these functions compute from the values
  measured can be stated. Those that `generateTestingReport` calls are optional in the
  record `AgentTestingFramework.ReportMethods`; calling one that is not defined throws,
  and `ReportMethods.ofRepository` is the class as the repository has it.
-/

set_option autoImplicit false

/-! ## Values -/

/-- JavaScript values that occur as phase inputs and as fields of worker outputs. -/
inductive JsVal where
  | undefined
  | bool (b : Bool)
  | num (q : ℚ)
  | str (s : String)
  | strs (items : List String)
  | obj (fields : List (String × ℚ))
  | record (fields : List (String × JsVal))
  deriving Inhabited

/-- A thrown JavaScript value. -/
abbrev JsError := String

/-! ## Binary64 arithmetic

A JavaScript number is an IEEE 754 binary64 number; an arithmetic operation returns the
binary64 number nearest to the exact result, the one with the even significand when two
are equally near. A finite binary64 number is represented by its exact value. -/

namespace F64

/-- The power of two with exponent `e`. -/
def twoPow (e : Int) : ℚ :=
  if 0 ≤ e then ((2 ^ e.toNat : Nat) : ℚ) else 1 / ((2 ^ (-e).toNat : Nat) : ℚ)

/-- Number of halvings that bring `n` below 2, at most `fuel` of them. -/
def halvings : Nat → Nat → Nat
  | 0, _ => 0
  | fuel + 1, n => if n < 2 then 0 else halvings fuel (n / 2) + 1

/-- Floor of the binary logarithm of a positive natural number. -/
def log2 (n : Nat) : Nat := halvings n n

/-- The integer `e` with `2 ^ e ≤ |q| < 2 ^ (e + 1)`, for `q` other than zero: the quotient
of a numerator of `log2 num + 1` bits by a denominator of `log2 den + 1` bits has the
exponent `log2 num - log2 den` or one less. -/
def exponent (q : ℚ) : Int :=
  let estimate : Int := (log2 q.num.natAbs : Int) - (log2 q.den : Int)
  if twoPow estimate ≤ |q| then estimate else estimate - 1

/-- Nearest integer, the even one of two equally near. -/
def roundHalfEven (q : ℚ) : Int :=
  let below := ⌊q⌋
  if q - below < 1 / 2 then below
  else if 1 / 2 < q - below then below + 1
  else if below % 2 = 0 then below else below + 1

/-- Spacing of the binary64 numbers around `q`: significands have 53 bits, and below
`2 ^ (-1022)` the spacing stays `2 ^ (-1074)`. -/
def ulp (q : ℚ) : ℚ := twoPow (max (exponent q) (-1022) - 52)

/-- The binary64 number nearest to `q`, ties to even. Results of magnitude `2 ^ 1024` and
more, which JavaScript turns into an infinity, are not represented. -/
def round (q : ℚ) : ℚ := if q = 0 then 0 else roundHalfEven (q / ulp q) * ulp q

/-- The value of a decimal literal of the source. -/
def lit (q : ℚ) : ℚ := round q

/-- JavaScript `a + b`. -/
def add (a b : ℚ) : ℚ := round (a + b)

/-- JavaScript `a - b`. -/
def sub (a b : ℚ) : ℚ := round (a - b)

/-- JavaScript `a * b`. -/
def mul (a b : ℚ) : ℚ := round (a * b)

/-- JavaScript `a / b`; `none` stands for what a zero divisor yields, `NaN` or an
infinity. -/
def div (a b : ℚ) : Option ℚ := if b = 0 then none else some (round (a / b))

end F64

/-! ## real-world-example.js -/

/-- The `projectContext` object read by `AgentCoordinator`. -/
structure ProjectContext where
  name : String
  type : String
  complexity : ℚ
  domains : List String
  files : Nat
  linesOfCode : Nat
  criticalSystems : Bool

namespace AgentCoordinator

/-- Source: `AgentCoordinator.shouldTriggerWaveMode`, real-world-example.js 311-319. -/
def shouldTriggerWaveMode (projectContext : ProjectContext) : Bool :=
  decide (projectContext.complexity ≥ 0.7) &&
  decide (projectContext.files > 20) &&
  decide (projectContext.domains.length > 2)

end AgentCoordinator

/-- The `projectContext` built by the constructor of `RealWorldAgentApplication`,
real-world-example.js 6-14. -/
def RealWorldAgentApplication.projectContext : ProjectContext where
  name := "E-commerce Platform Migration"
  type := "legacy_modernization"
  complexity := 0.9
  domains := ["authentication", "payments", "inventory", "analytics"]
  files := 45
  linesOfCode := 12000
  criticalSystems := true

/-! ## agent-workflow-demo.js: data -/

/-- Output object of one worker. The aggregator reads only `recommendations`; the other
properties are kept as a list of named values. -/
structure AgentOutput where
  recommendations : Option (List String)
  fields : List (String × JsVal)
  deriving Inhabited

/-- Object returned by `generateAgentMetrics`. -/
structure AgentMetrics where
  execution_time : Int
  accuracy_score : ℚ
  completeness_score : ℚ
  resource_usage : Int
  deriving Inhabited

/-- The `agentResult` object built by `executeAgent`. -/
structure AgentResult where
  agent : String
  input : JsVal
  startTime : Nat
  output : AgentOutput
  metrics : AgentMetrics
  endTime : Nat
  duration : Int
  deriving Inhabited

/-- The `aggregated` object built by `aggregateAgentResults`; `priority_matrix` is always
the empty object. -/
structure Aggregated where
  agent_count : Nat
  total_duration : Int
  combined_recommendations : List String
  priority_matrix : List (String × String)
  deriving DecidableEq, Inhabited

/-- Contents of a JavaScript `Map` from output keys to aggregated outputs, in insertion
order. -/
abbrev Outputs := List (String × Aggregated)

/-- JavaScript `Map.prototype.set`: an existing key keeps its position and takes the new
value, a new key is appended. -/
def Outputs.set : Outputs → String → Aggregated → Outputs
  | [], key, value => [(key, value)]
  | (k, v) :: rest, key, value =>
    if k = key then (k, value) :: rest else (k, v) :: Outputs.set rest key value

/-- JavaScript `Map.prototype.get`. -/
def Outputs.get : Outputs → String → Option Aggregated
  | [], _ => none
  | (k, v) :: rest, key => if k = key then some v else Outputs.get rest key

/-- JavaScript `Map.prototype.keys`. -/
def Outputs.keys (m : Outputs) : List String := m.map Prod.fst

/-- One element of `workflow.phases`. `parallel` is `none` when the property is absent. -/
structure Phase where
  phase : String
  agents : List String
  input : JsVal
  output : String
  parallel : Option Bool := none

/-- Truthiness of `phase.parallel`. -/
def Phase.parallelTruthy (phase : Phase) : Bool := phase.parallel == some true

/-- The `workflow` object handed to `executeWorkflow`. -/
structure Workflow where
  name : String
  phases : List Phase

/-- The `phaseResult` object built by `executePhase`. -/
structure PhaseResult where
  phase : String
  agents : List String
  startTime : Nat
  agentResults : List AgentResult
  coordination : String
  endTime : Nat
  duration : Int
  output : Aggregated
  deriving Inhabited

/-- Object returned by `calculateWorkflowMetrics`. A quotient is `none` when JavaScript
yields `NaN`, that is when the divisor is zero. -/
structure WorkflowMetrics where
  total_duration : Int
  phase_count : Nat
  agent_executions : Nat
  average_phase_duration : Option ℚ
  efficiency_score : Option ℚ
  quality_score : Option ℚ
  deriving Inhabited

/-- The `results` object returned by `executeWorkflow`; `outputs` is the contents of the
`Map` at the time of return, and `metrics` is `none` while it is still the empty object. -/
structure WorkflowResult where
  workflowName : String
  startTime : Nat
  phases : List PhaseResult
  outputs : Outputs
  metrics : Option WorkflowMetrics
  endTime : Nat
  duration : Int
  deriving Inhabited

/-! ## agent-workflow-demo.js: state -/

/-- Stream read by `Math.random()`. -/
structure Rng where
  stream : Nat → ℚ
  drawn : Nat

/-- JavaScript `Math.random()`: the next element of the stream. -/
def Rng.next (g : Rng) : ℚ × Rng := (g.stream g.drawn, { g with drawn := g.drawn + 1 })

/-- Ghost record of a scheduling step. -/
inductive Event where
  | invoked (agent : String) (input : JsVal)
  | worked (agent : String) (input : JsVal) (seen : Outputs)

/-- Name of the agent whose `executeAgent` call an event records starting. -/
def Event.invokedAgent : Event → Option String
  | .invoked agent _ => some agent
  | .worked _ _ _ => none

/-- Name of the agent whose output generation an event records. -/
def Event.workedAgent : Event → Option String
  | .invoked _ _ => none
  | .worked agent _ _ => some agent

/-- Contents of the `Map` handed over at the step an event records, if it hands it over. -/
def Event.seen : Event → Option Outputs
  | .invoked _ _ => none
  | .worked _ _ seen => some seen

/-- The event records a step made with this phase input and, for a step that hands over
the `Map`, with these contents of the `Map`. -/
def Event.Carries (input : JsVal) (previousOutputs : Outputs) : Event → Prop
  | .invoked _ i => i = input
  | .worked _ i seen => i = input ∧ seen = previousOutputs

/-- The state a workflow runs in. -/
structure World where
  now : Nat
  rng : Rng
  outputs : Outputs
  trace : List Event

/-- The methods of the class that stand for the work of a worker, with what each can
reach: its arguments, the `Map` passed by reference, and `Math.random`. -/
structure Methods where
  getAgentExecutionTime : String → Nat
  generateAgentOutput :
    String → JsVal → Outputs → Rng → Except JsError AgentOutput × Outputs × Rng
  generateAgentMetrics : String → Rng → Except JsError AgentMetrics × Rng

/-- A worker leaves the `Map` it is handed as it found it. -/
def Methods.ReadOnly (m : Methods) : Prop :=
  ∀ agentName input previousOutputs g,
    (m.generateAgentOutput agentName input previousOutputs g).2.1 = previousOutputs

/-- No method throws. -/
def Methods.NeverThrows (m : Methods) : Prop :=
  (∀ agentName input previousOutputs g,
    ∃ output, (m.generateAgentOutput agentName input previousOutputs g).1 = .ok output) ∧
  (∀ agentName g, ∃ metrics, (m.generateAgentMetrics agentName g).1 = .ok metrics)

/-! ## agent-workflow-demo.js: the simulated worker -/

namespace AgentWorkflowDemo

/-- Source: `getAgentExecutionTime`, agent-workflow-demo.js 365-379. Agent names are the
names of agents; a name that every JavaScript object inherits (`constructor`, `toString`),
for which the lookup in `baseTimes` finds the inherited member, is outside the model. -/
def getAgentExecutionTime (agentName : String) : Nat :=
  if agentName = "code-reviewer" then 2000
  else if agentName = "architecture-analyst" then 3000
  else if agentName = "security-auditor" then 2500
  else if agentName = "performance-optimizer" then 3500
  else if agentName = "agent-orchestrator" then 1000
  else if agentName = "test-engineer" then 4000
  else if agentName = "documentation-writer" then 2000
  else if agentName = "security-hardening" then 3000
  else 2000

/-- Source: `generateAgentOutput`, agent-workflow-demo.js 272-307. The object literal
`baseOutputs` is built on every call, so one `Math.random()` is drawn whatever the agent;
`previousOutputs` is not touched. A name that every JavaScript object inherits
(`constructor`, `toString`), for which the lookup in `baseOutputs` finds the inherited
member, is outside the model. -/
def generateAgentOutput (agentName : String) (_input : JsVal) (previousOutputs : Outputs)
    (g : Rng) : Except JsError AgentOutput × Outputs × Rng :=
  let (r, g1) := g.next
  let output : AgentOutput :=
    if agentName = "code-reviewer" then
      { recommendations :=
          some ["Improve error handling", "Add input validation", "Enhance documentation"]
        fields :=
          [("issues_found", .num ((Rat.floor (r * 10) : ℚ) + 5)),
           ("severity_breakdown",
             .obj [("critical", 2), ("high", 4), ("medium", 6), ("low", 3)])] }
    else if agentName = "architecture-analyst" then
      { recommendations := some ["Implement CQRS", "Add circuit breakers", "Extract services"]
        fields :=
          [("patterns_identified", .strs ["Repository", "Factory", "Observer"]),
           ("anti_patterns", .strs ["God Object", "Tight Coupling"]),
           ("scalability_score", .num 0.7)] }
    else if agentName = "security-auditor" then
      { recommendations :=
          some ["Fix authentication", "Implement encryption", "Add audit logging"]
        fields :=
          [("vulnerabilities",
             .obj [("critical", 3), ("high", 7), ("medium", 12), ("low", 5)]),
           ("compliance_score", .num 0.65),
           ("threat_level", .str "medium")] }
    else if agentName = "performance-optimizer" then
      { recommendations :=
          some ["Add database indexes", "Implement Redis cache", "Optimize algorithms"]
        fields :=
          [("bottlenecks_identified", .num 4),
           ("performance_gain_potential", .str "60-80%"),
           ("optimization_priorities",
             .strs ["Database queries", "Caching", "Algorithm efficiency"])] }
    else if agentName = "agent-orchestrator" then
      { recommendations := none
        fields :=
          [("coordination_strategy", .str "wave_orchestration"),
           ("agent_selection",
             .strs ["security-auditor", "performance-optimizer", "architecture-analyst"]),
           ("execution_plan", .str "sequential_with_parallel_validation"),
           ("estimated_completion", .str "2-3 hours")] }
    else
      { recommendations := none
        fields :=
          [("status", .str "completed"), ("output", .str "Agent execution successful")] }
  (.ok output, previousOutputs, g1)

/-- Source: `generateAgentMetrics`, agent-workflow-demo.js 309-316. -/
def generateAgentMetrics (_agentName : String) (g : Rng) : Except JsError AgentMetrics × Rng :=
  let (r1, g1) := g.next
  let (r2, g2) := g1.next
  let (r3, g3) := g2.next
  let (r4, g4) := g3.next
  (.ok { execution_time := Rat.floor (r1 * 120) + 30
         accuracy_score := 0.8 + r2 * 0.15
         completeness_score := 0.85 + r3 * 0.1
         resource_usage := Rat.floor (r4 * 100) + 50 }, g4)

/-- The worker methods as the source defines them. -/
def simulated : Methods where
  getAgentExecutionTime := getAgentExecutionTime
  generateAgentOutput := generateAgentOutput
  generateAgentMetrics := generateAgentMetrics

/-! ## agent-workflow-demo.js: aggregator -/

/-- Source: `aggregateAgentResults`, agent-workflow-demo.js 318-334. -/
def aggregateAgentResults (agentResults : List AgentResult) : Aggregated :=
  let aggregated : Aggregated :=
    { agent_count := agentResults.length
      total_duration := agentResults.foldl (fun sum r => sum + r.duration) 0
      combined_recommendations := []
      priority_matrix := [] }
  agentResults.foldl
    (fun aggregated result =>
      match result.output.recommendations with
      | some recommendations =>
        { aggregated with
          combined_recommendations := aggregated.combined_recommendations ++ recommendations }
      | none => aggregated)
    aggregated

/-! ## agent-workflow-demo.js: worker invocation -/

/-- Source: `executeAgent`, agent-workflow-demo.js 252-256, up to the `await`: returns the
time the timer is set for. -/
def executeAgent.begin (m : Methods) (agentName : String) (input : JsVal) (w : World) :
    Nat × World :=
  (m.getAgentExecutionTime agentName,
    { w with trace := w.trace ++ [Event.invoked agentName input] })

/-- Source: `executeAgent`, agent-workflow-demo.js 258-269, the part that runs once the
timer has fired. The object literal evaluates `new Date()`, `generateAgentOutput` and
`generateAgentMetrics` in that order. -/
def executeAgent.resume (m : Methods) (agentName : String) (input : JsVal) (w : World) :
    Except JsError AgentResult × World :=
  let startTime := w.now
  let w1 := { w with trace := w.trace ++ [Event.worked agentName input w.outputs] }
  match m.generateAgentOutput agentName input w1.outputs w1.rng with
  | (.error e, o, g) => (.error e, { w1 with outputs := o, rng := g })
  | (.ok output, o, g) =>
    match m.generateAgentMetrics agentName g with
    | (.error e, g2) => (.error e, { w1 with outputs := o, rng := g2 })
    | (.ok metrics, g2) =>
      let w2 := { w1 with outputs := o, rng := g2 }
      let endTime := w2.now
      (.ok { agent := agentName
             input := input
             startTime := startTime
             output := output
             metrics := metrics
             endTime := endTime
             duration := (endTime : Int) - (startTime : Int) }, w2)

/-- Source: `executeAgent`, agent-workflow-demo.js 251-270, awaited on its own: the timer
fires `executionTime` milliseconds after it was set. -/
def executeAgent (m : Methods) (agentName : String) (input : JsVal) (w : World) :
    Except JsError AgentResult × World :=
  let (executionTime, w1) := executeAgent.begin m agentName input w
  executeAgent.resume m agentName input { w1 with now := w1.now + executionTime }

/-! ## agent-workflow-demo.js: phase scheduler -/

/-- A worker whose timer is pending: its position in `phase.agents`, its name, and the time
its timer fires. -/
structure Pending where
  index : Nat
  agent : String
  due : Nat
  deriving DecidableEq

/-- Source: `executePhase`, the sequential branch, agent-workflow-demo.js 238-241.
`agentResults` is `phaseResult.agentResults`. -/
def executePhase.sequential (m : Methods) (input : JsVal) :
    List String → List AgentResult → World → Except JsError (List AgentResult) × World
  | [], agentResults, w => (.ok agentResults, w)
  | agent :: rest, agentResults, w =>
    match executeAgent m agent input w with
    | (.error e, w1) => (.error e, w1)
    | (.ok agentResult, w1) =>
      executePhase.sequential m input rest (agentResults ++ [agentResult]) w1

/-- Source: `phase.agents.map(agent => this.executeAgent(...))`, agent-workflow-demo.js
232-234: every call runs up to its `await`, in declaration order, and leaves a timer. -/
def executePhase.fanOut (m : Methods) (input : JsVal) (start : Nat) :
    List String → Nat → World → List Pending × World
  | [], _, w => ([], w)
  | agent :: rest, index, w =>
    let (executionTime, w1) := executeAgent.begin m agent input w
    let (pending, w2) := executePhase.fanOut m input start rest (index + 1) w1
    ({ index := index, agent := agent, due := start + executionTime } :: pending, w2)

/-- Timers fire in order of due time, and in order of registration when due together. -/
def executePhase.completionOrder (pending : List Pending) : List Pending :=
  pending.insertionSort (fun a b => a.due ≤ b.due)

/-- The timers fire one after the other; each resumes its `executeAgent` call, whose
promise settles with a value kept under the position of the call. The first rejection
rejects the promise of `Promise.all`, and with it `executePhase`; the timers still pending
are not followed, since the caller has the error by then. -/
def executePhase.settle (m : Methods) (input : JsVal) :
    List Pending → List (Nat × AgentResult) → World →
      Except JsError (List (Nat × AgentResult)) × World
  | [], settled, w => (.ok settled, w)
  | p :: rest, settled, w =>
    match executeAgent.resume m p.agent input { w with now := max w.now p.due } with
    | (.error e, w1) => (.error e, w1)
    | (.ok agentResult, w1) =>
      executePhase.settle m input rest (settled ++ [(p.index, agentResult)]) w1

/-- Value of position `index` among the settled promises. -/
def executePhase.valueAt (settled : List (Nat × AgentResult)) (index : Nat) :
    Option AgentResult :=
  (settled.find? (fun entry => entry.1 == index)).map Prod.snd

/-- Source: `await Promise.all(agentPromises)`, agent-workflow-demo.js 235: the values of
the promises, in the order of the array of promises. -/
def executePhase.promiseAll (count : Nat) (settled : List (Nat × AgentResult)) :
    List AgentResult :=
  (List.range count).filterMap (executePhase.valueAt settled)

/-- Source: `executePhase`, the parallel branch, agent-workflow-demo.js 232-235. -/
def executePhase.parallel (m : Methods) (input : JsVal) (agents : List String) (w : World) :
    Except JsError (List AgentResult) × World :=
  let (pending, w1) := executePhase.fanOut m input w.now agents 0 w
  match executePhase.settle m input (executePhase.completionOrder pending) [] w1 with
  | (.error e, w2) => (.error e, w2)
  | (.ok settled, w2) => (.ok (executePhase.promiseAll agents.length settled), w2)

/-- Source: `executePhase`, agent-workflow-demo.js 221-249. `previousOutputs` is the `Map`
whose contents are `w.outputs`. -/
def executePhase (m : Methods) (phase : Phase) (w : World) :
    Except JsError PhaseResult × World :=
  let startTime := w.now
  let coordination := if phase.parallelTruthy then "parallel" else "sequential"
  let run :=
    if phase.parallelTruthy then executePhase.parallel m phase.input phase.agents w
    else executePhase.sequential m phase.input phase.agents [] w
  match run with
  | (.error e, w1) => (.error e, w1)
  | (.ok agentResults, w1) =>
    let endTime := w1.now
    (.ok { phase := phase.phase
           agents := phase.agents
           startTime := startTime
           agentResults := agentResults
           coordination := coordination
           endTime := endTime
           duration := (endTime : Int) - (startTime : Int)
           output := aggregateAgentResults agentResults }, w1)

/-! ## agent-workflow-demo.js: metrics -/

/-- JavaScript `a / b` where `a` is zero whenever `b` is: `NaN` for a zero divisor. -/
def jsDiv (a b : ℚ) : Option ℚ := if b = 0 then none else some (a / b)

/-- Source: `calculateEfficiencyScore`, agent-workflow-demo.js 347-354. -/
def calculateEfficiencyScore (results : WorkflowResult) : Option ℚ :=
  let parallelPhases := (results.phases.filter (fun p => p.coordination = "parallel")).length
  let totalPhases := results.phases.length
  (jsDiv parallelPhases totalPhases).map
    (fun parallelizationRatio => 0.6 + parallelizationRatio * 0.4)

/-- Source: `calculateQualityScore`, agent-workflow-demo.js 356-363. -/
def calculateQualityScore (results : WorkflowResult) : Option ℚ :=
  let allAgentResults := results.phases.flatMap (fun p => p.agentResults)
  let avgAccuracy :=
    jsDiv (allAgentResults.foldl (fun sum r => sum + r.metrics.accuracy_score) 0)
      allAgentResults.length
  let avgCompleteness :=
    jsDiv (allAgentResults.foldl (fun sum r => sum + r.metrics.completeness_score) 0)
      allAgentResults.length
  match avgAccuracy, avgCompleteness with
  | some accuracy, some completeness => some (accuracy * 0.6 + completeness * 0.4)
  | _, _ => none

/-- Source: `calculateWorkflowMetrics`, agent-workflow-demo.js 336-345. -/
def calculateWorkflowMetrics (results : WorkflowResult) : WorkflowMetrics where
  total_duration := results.duration
  phase_count := results.phases.length
  agent_executions := results.phases.foldl (fun sum p => sum + p.agentResults.length) 0
  average_phase_duration :=
    jsDiv (results.phases.foldl (fun sum p => sum + (p.duration : ℚ)) 0) results.phases.length
  efficiency_score := calculateEfficiencyScore results
  quality_score := calculateQualityScore results

/-! ## agent-workflow-demo.js: coordinator -/

/-- Source: `executeWorkflow`, the loop over `workflow.phases`, agent-workflow-demo.js
204-212. `phases` is `results.phases`. Returns the error thrown, if any, together with
`results.phases` and the state as they are when the loop is left. -/
def executeWorkflow.loop (m : Methods) :
    List Phase → List PhaseResult → World → Option JsError × List PhaseResult × World
  | [], phases, w => (none, phases, w)
  | phase :: rest, phases, w =>
    match executePhase m phase w with
    | (.error e, w1) => (some e, phases, w1)
    | (.ok phaseResult, w1) =>
      executeWorkflow.loop m rest (phases ++ [phaseResult])
        { w1 with outputs := w1.outputs.set phase.output phaseResult.output }

/-- Source: `executeWorkflow`, agent-workflow-demo.js 193-219. The `Map` is created empty;
nothing catches an error thrown inside the loop. -/
def executeWorkflow (m : Methods) (workflow : Workflow) (w : World) :
    Except JsError WorkflowResult × World :=
  let startTime := w.now
  match executeWorkflow.loop m workflow.phases [] { w with outputs := [] } with
  | (some e, _, w1) => (.error e, w1)
  | (none, phases, w1) =>
    let endTime := w1.now
    let results : WorkflowResult :=
      { workflowName := workflow.name
        startTime := startTime
        phases := phases
        outputs := w1.outputs
        metrics := none
        endTime := endTime
        duration := (endTime : Int) - (startTime : Int) }
    (.ok { results with metrics := some (calculateWorkflowMetrics results) }, w1)

/-- Contents of the `Map` once the loop of `executeWorkflow` has committed the first `k`
phases of the workflow; `none` when an error has left the loop before that. -/
def executeWorkflow.outputsAfter (m : Methods) (workflow : Workflow) (w : World) (k : Nat) :
    Option Outputs :=
  match executeWorkflow.loop m (workflow.phases.take k) [] { w with outputs := [] } with
  | (none, _, w1) => some w1.outputs
  | (some _, _, _) => none

/-! ## agent-workflow-demo.js: the predefined workflows -/

/-- Source: the `workflow` literal of `newFeatureWorkflow`, agent-workflow-demo.js 23-57. -/
def newFeatureWorkflow.workflow (featureSpec : JsVal) : Workflow where
  name := "new_feature_development"
  phases :=
    [{ phase := "analysis", agents := ["architecture-analyst"], input := featureSpec,
       output := "architecture_plan" },
     { phase := "security_review", agents := ["security-auditor"],
       input := .str "architecture_plan", output := "security_requirements" },
     { phase := "implementation", agents := ["code-reviewer", "test-engineer"],
       input := .strs ["architecture_plan", "security_requirements"],
       output := "implemented_feature" },
     { phase := "optimization", agents := ["performance-optimizer"],
       input := .str "implemented_feature", output := "optimized_feature" },
     { phase := "documentation", agents := ["documentation-writer"],
       input := .str "optimized_feature", output := "documented_feature" }]

/-- Source: `newFeatureWorkflow`, agent-workflow-demo.js 20-60. -/
def newFeatureWorkflow (m : Methods) (featureSpec : JsVal) (w : World) :
    Except JsError WorkflowResult × World :=
  executeWorkflow m (newFeatureWorkflow.workflow featureSpec) w

/-- Source: the `workflow` literal of `securityAuditWorkflow`, agent-workflow-demo.js
66-98. -/
def securityAuditWorkflow.workflow (systemComponents : JsVal) : Workflow where
  name := "security_audit"
  phases :=
    [{ phase := "reconnaissance", agents := ["architecture-analyst"],
       input := systemComponents, output := "system_mapping", parallel := some false },
     { phase := "vulnerability_assessment", agents := ["security-auditor"],
       input := .str "system_mapping", output := "vulnerability_report",
       parallel := some false },
     { phase := "remediation_planning", agents := ["security-hardening", "architecture-analyst"],
       input := .str "vulnerability_report", output := "remediation_plan",
       parallel := some true },
     { phase := "validation", agents := ["test-engineer", "security-auditor"],
       input := .str "remediation_plan", output := "security_validation",
       parallel := some true }]

/-- Source: `securityAuditWorkflow`, agent-workflow-demo.js 63-101. -/
def securityAuditWorkflow (m : Methods) (systemComponents : JsVal) (w : World) :
    Except JsError WorkflowResult × World :=
  executeWorkflow m (securityAuditWorkflow.workflow systemComponents) w

/-- Source: the `workflow` literal of `performanceOptimizationWorkflow`,
agent-workflow-demo.js 107-146. -/
def performanceOptimizationWorkflow.workflow (performanceIssues : JsVal) : Workflow where
  name := "performance_optimization"
  phases :=
    [{ phase := "profiling", agents := ["performance-optimizer", "architecture-analyst"],
       input := performanceIssues, output := "performance_profile", parallel := some true },
     { phase := "optimization_design", agents := ["performance-optimizer"],
       input := .str "performance_profile", output := "optimization_plan",
       parallel := some false },
     { phase := "implementation", agents := ["performance-optimizer", "code-reviewer"],
       input := .str "optimization_plan", output := "optimized_code",
       parallel := some false },
     { phase := "testing", agents := ["test-engineer"],
       input := .str "optimized_code", output := "performance_tests",
       parallel := some false },
     { phase := "validation", agents := ["performance-optimizer"],
       input := .strs ["optimized_code", "performance_tests"],
       output := "validated_optimization", parallel := some false }]

/-- Source: `performanceOptimizationWorkflow`, agent-workflow-demo.js 104-149. -/
def performanceOptimizationWorkflow (m : Methods) (performanceIssues : JsVal) (w : World) :
    Except JsError WorkflowResult × World :=
  executeWorkflow m (performanceOptimizationWorkflow.workflow performanceIssues) w

/-- Source: the `workflow` literal of `codeQualityWorkflow`, agent-workflow-demo.js
155-187. -/
def codeQualityWorkflow.workflow (codebaseAnalysis : JsVal) : Workflow where
  name := "code_quality_improvement"
  phases :=
    [{ phase := "comprehensive_analysis",
       agents := ["code-reviewer", "architecture-analyst", "security-auditor"],
       input := codebaseAnalysis, output := "quality_assessment", parallel := some true },
     { phase := "improvement_planning", agents := ["agent-orchestrator"],
       input := .str "quality_assessment", output := "improvement_roadmap",
       parallel := some false },
     { phase := "implementation",
       agents := ["code-reviewer", "security-hardening", "performance-optimizer"],
       input := .str "improvement_roadmap", output := "improved_codebase",
       parallel := some false },
     { phase := "validation", agents := ["test-engineer", "code-reviewer"],
       input := .str "improved_codebase", output := "quality_validation",
       parallel := some true }]

/-- Source: `codeQualityWorkflow`, agent-workflow-demo.js 152-190. -/
def codeQualityWorkflow (m : Methods) (codebaseAnalysis : JsVal) (w : World) :
    Except JsError WorkflowResult × World :=
  executeWorkflow m (codeQualityWorkflow.workflow codebaseAnalysis) w

/-! ## Concrete inputs -/

/-- A worker class whose `generateAgentOutput` throws `error` for the agent `failing` and is
that of the source for every other agent. -/
def failingFor (failing : String) (error : JsError) : Methods where
  getAgentExecutionTime := getAgentExecutionTime
  generateAgentOutput := fun agentName input previousOutputs g =>
    if agentName = failing then (.error error, previousOutputs, g)
    else generateAgentOutput agentName input previousOutputs g
  generateAgentMetrics := generateAgentMetrics

/-- A state to start from: clock at zero, `Math.random()` always `0`, nothing logged. -/
def demoWorld : World where
  now := 0
  rng := { stream := fun _ => 0, drawn := 0 }
  outputs := []
  trace := []

/-- Source: `systemComponents` of `demonstrateAgentWorkflows`, agent-workflow-demo.js
406-410. -/
def systemComponents : JsVal :=
  .record
    [("components", .strs ["auth-service", "payment-service", "user-service", "database"]),
     ("risk_level", .str "high"),
     ("compliance_requirements", .strs ["PCI DSS", "GDPR"])]

/-- Source: `featureSpec` of `demonstrateAgentWorkflows`, agent-workflow-demo.js 394-399. -/
def featureSpec : JsVal :=
  .record
    [("name", .str "user_authentication_system"),
     ("requirements",
       .strs ["Multi-factor auth", "Session management", "Password policies"]),
     ("complexity", .str "high"),
     ("security_critical", .bool true)]

/-- The first three phases of `newFeatureWorkflow`; the second runs `security-auditor`. -/
def threePhaseWorkflow : Workflow where
  name := "three_phases"
  phases := (newFeatureWorkflow.workflow featureSpec).phases.take 3

/-- The second phase of `newFeatureWorkflow`. -/
def securityReviewPhase : Phase where
  phase := "security_review"
  agents := ["security-auditor"]
  input := .str "architecture_plan"
  output := "security_requirements"

/-- A parallel phase whose workers finish in the reverse of their declaration order:
their timers are 4000, 3500 and 2500 milliseconds. -/
def reversedPhase : Phase where
  phase := "reversed"
  agents := ["test-engineer", "performance-optimizer", "security-auditor"]
  input := .str "x"
  output := "reversed_output"
  parallel := some true

/-- What `executePhase` returns for `reversedPhase`. -/
def reversedPhaseResult : PhaseResult :=
  match (executePhase simulated reversedPhase demoWorld).1 with
  | .ok phaseResult => phaseResult
  | .error _ => default

/-- What `securityAuditWorkflow` returns for `systemComponents`. -/
def securityAuditResult : WorkflowResult :=
  match (securityAuditWorkflow simulated systemComponents demoWorld).1 with
  | .ok results => results
  | .error _ => default

/-- The `Map` of the security audit workflow once its first two phases are committed. -/
def securityAuditOutputsAfterTwo : Outputs :=
  (executeWorkflow.outputsAfter simulated (securityAuditWorkflow.workflow systemComponents)
    demoWorld 2).getD []

/-- Two phases that declare the same output key. -/
def sharedKeyWorkflow : Workflow where
  name := "shared_key"
  phases :=
    [{ phase := "first", agents := ["code-reviewer"], input := .str "x", output := "report" },
     { phase := "second", agents := ["security-auditor"], input := .str "report",
       output := "report" }]

/-- A sequential phase whose second worker is `security-auditor`. -/
def auditSecondPhase : Phase where
  phase := "audit_second"
  agents := ["code-reviewer", "security-auditor", "test-engineer"]
  input := .str "x"
  output := "audit_second_output"
  parallel := some false

end AgentWorkflowDemo

/-! ## agent-workflow-demo.js: the aggregated object as a JavaScript object -/

/-- The properties of the `aggregated` object, in the order of the object literal at
agent-workflow-demo.js 320-325. -/
def Aggregated.properties (a : Aggregated) : List (String × JsVal) :=
  [("agent_count", .num a.agent_count),
   ("total_duration", .num a.total_duration),
   ("combined_recommendations", .strs a.combined_recommendations),
   ("priority_matrix", .record (a.priority_matrix.map (fun entry => (entry.1, .str entry.2))))]

/-- The property names of the `aggregated` object. -/
def Aggregated.keys (a : Aggregated) : List String := a.properties.map Prod.fst

/-! ## agent-testing-framework.js -/

namespace AgentTestingFramework

/-- The object returned by `testSpecialization`. -/
structure Specialization where
  domainAccuracy : ℚ
  falsePositiveRate : ℚ
  comprehensiveness : ℚ
  score : ℚ
  deriving DecidableEq, Inhabited

/-- The object returned by `testCoordination`. -/
structure Coordination where
  communicationClarity : ℚ
  resultIntegration : ℚ
  conflictResolution : ℚ
  score : ℚ
  deriving DecidableEq, Inhabited

/-- The object returned by `testOutputQuality`. -/
structure OutputQuality where
  accuracy : ℚ
  completeness : ℚ
  actionability : ℚ
  clarity : ℚ
  score : ℚ
  deriving DecidableEq, Inhabited

/-- The `testResults` object that `validateAgent` fills in. -/
structure TestResults where
  specialization : Specialization
  coordination : Coordination
  quality : OutputQuality
  deriving DecidableEq, Inhabited

/-- The object returned by `calculateEffectiveness`. -/
structure Effectiveness where
  overallScore : ℚ
  grade : String
  strengths : JsVal
  improvements : JsVal
  deriving Inhabited

/-- The methods that `testSpecialization` and `calculateEffectiveness` call on `this` and
that no file of the repository defines; they are taken as supplied from outside. -/
structure Supplied where
  measureDomainAccuracy : String → JsVal → ℚ
  measureFalsePositives : String → JsVal → ℚ
  measureComprehensiveness : String → JsVal → ℚ
  identifyStrengths : TestResults → JsVal
  identifyImprovements : TestResults → JsVal

/-- Source: `scoreToGrade`, agent-testing-framework.js 254-260. -/
def scoreToGrade (score : ℚ) : String :=
  if score ≥ 0.9 then "A"
  else if score ≥ 0.8 then "B"
  else if score ≥ 0.7 then "C"
  else if score ≥ 0.6 then "D"
  else "F"

/-- Source: `testSpecialization`, agent-testing-framework.js 190-202. -/
def testSpecialization (s : Supplied) (agentName : String) (testSuite : JsVal) :
    Specialization :=
  let domainAccuracy := s.measureDomainAccuracy agentName testSuite
  let falsePositiveRate := s.measureFalsePositives agentName testSuite
  let comprehensiveness := s.measureComprehensiveness agentName testSuite
  { domainAccuracy := domainAccuracy
    falsePositiveRate := falsePositiveRate
    comprehensiveness := comprehensiveness
    score := domainAccuracy * 0.4 + (1 - falsePositiveRate) * 0.3 + comprehensiveness * 0.3 }

/-- Supplied methods that measure the same three values for every agent and report no
strengths and no improvements. -/
def constantSupplied (domainAccuracy falsePositiveRate comprehensiveness : ℚ) : Supplied where
  measureDomainAccuracy := fun _ _ => domainAccuracy
  measureFalsePositives := fun _ _ => falsePositiveRate
  measureComprehensiveness := fun _ _ => comprehensiveness
  identifyStrengths := fun _ => .strs []
  identifyImprovements := fun _ => .strs []

end AgentTestingFramework

/-! ## More concrete inputs -/

namespace AgentWorkflowDemo

/-- A workflow that declares no phase. -/
def emptyWorkflow : Workflow where
  name := "empty"
  phases := []

/-- What `newFeatureWorkflow` returns for `featureSpec`. -/
def newFeatureResult : WorkflowResult :=
  match (newFeatureWorkflow simulated featureSpec demoWorld).1 with
  | .ok results => results
  | .error _ => default

/-- What `executeAgent` returns for the agent `architecture-analyst`, whose output carries
`scalability_score`. -/
def analystResult : AgentResult :=
  match (executeAgent simulated "architecture-analyst" (.str "x") demoWorld).1 with
  | .ok agentResult => agentResult
  | .error _ => default

/-- What `executeAgent` returns for the agent `test-engineer`, whose output is the default
object with the properties `status` and `output`. -/
def testEngineerResult : AgentResult :=
  match (executeAgent simulated "test-engineer" (.str "x") demoWorld).1 with
  | .ok agentResult => agentResult
  | .error _ => default

/-- The second phase of `securityAuditWorkflow`, whose input is the output key of the
first. -/
def vulnerabilityAssessmentPhase : Phase where
  phase := "vulnerability_assessment"
  agents := ["security-auditor"]
  input := .str "system_mapping"
  output := "vulnerability_report"
  parallel := some false

/-- The state in which `securityAuditWorkflow` starts its second phase: the first phase
is committed under `system_mapping`. -/
def afterReconnaissance : World :=
  (executeWorkflow.loop simulated
    ((securityAuditWorkflow.workflow systemComponents).phases.take 1) []
    { demoWorld with outputs := [] }).2.2

/-- What `executePhase` returns for `vulnerabilityAssessmentPhase` in that state. -/
def vulnerabilityAssessmentResult : PhaseResult :=
  match (executePhase simulated vulnerabilityAssessmentPhase afterReconnaissance).1 with
  | .ok phaseResult => phaseResult
  | .error _ => default

/-- The agent result `analystResult` with another `scalability_score`. -/
def analystResultScoring (score : ℚ) : AgentResult :=
  { analystResult with
    output := { analystResult.output with fields := [("scalability_score", .num score)] } }

/-- An agent result with the given scores and nothing else of note. -/
def scoredResult (accuracy completeness : ℚ) : AgentResult :=
  { (default : AgentResult) with
    metrics :=
      { (default : AgentMetrics) with
        accuracy_score := accuracy
        completeness_score := completeness } }

/-- A phase result with the given coordination label and agent results. -/
def phaseResultOf (coordination : String) (agentResults : List AgentResult) : PhaseResult :=
  { (default : PhaseResult) with coordination := coordination, agentResults := agentResults }

/-- A workflow result of two phases: one agent with accuracy 1 in the first, three agents
with accuracy 0 in the second; every completeness is 0. -/
def pooledExample : WorkflowResult :=
  { (default : WorkflowResult) with
    phases :=
      [phaseResultOf "sequential" [scoredResult 1 0],
       phaseResultOf "parallel" [scoredResult 0 0, scoredResult 0 0, scoredResult 0 0]] }

end AgentWorkflowDemo

/-! ## real-world-example.js: wave orchestration -/

namespace AgentCoordinator

/-- Object returned by `AgentCoordinator.generateAgentMetrics`. -/
structure AnalysisMetrics where
  accuracy : ℚ
  completeness : ℚ
  confidence : ℚ
  execution_efficiency : ℚ
  deriving Inhabited

/-- The `analysisResult` object built by `delegateToAgent`. -/
structure AnalysisResult where
  agent : String
  task : String
  findings : JsVal
  recommendations : List String
  metrics : AnalysisMetrics
  executionTime : Int
  deriving Inhabited

/-- The `taskSpec` object handed to `delegateToAgent`; `previousWave` and `previousWaves`
are `none` when the property is absent. -/
structure TaskSpec where
  task : String
  context : ProjectContext
  previousWave : Option AnalysisResult := none
  previousWaves : Option (List AnalysisResult) := none
  focus : String

/-- Ghost record of one call of `delegateToAgent`. -/
structure Delegation where
  agentName : String
  taskSpec : TaskSpec

/-- The state the coordinator runs in: the virtual clock, `Math.random`, and the ghost log
of the calls of `delegateToAgent`. -/
structure CoordinatorWorld where
  now : Nat
  rng : Rng
  delegated : List Delegation

/-- The object returned by `executeWaveOrchestration`. -/
structure WaveResult where
  orchestrationType : String
  waves : List AnalysisResult
  integration : JsVal
  deriving Inhabited

/-- What `coordinateAnalysis` returns: the result of the wave orchestration, or whatever
standard delegation returns. -/
inductive Coordinated where
  | wave (result : WaveResult)
  | standard (result : JsVal)

/-- Source: `generateAgentFindings`, real-world-example.js 394-421. -/
def generateAgentFindings (agentName : String) (_taskSpec : TaskSpec) : JsVal :=
  if agentName = "architecture-analyst" then
    .record
      [("architecture_type", .str "legacy_monolith"),
       ("design_patterns", .strs ["MVC", "ActiveRecord"]),
       ("anti_patterns", .strs ["God Object", "Tight Coupling"]),
       ("technical_debt_score", .num 0.8),
       ("maintainability_score", .num 0.4)]
  else if agentName = "security-auditor" then
    .record
      [("critical_vulnerabilities", .num 12),
       ("high_vulnerabilities", .num 23),
       ("compliance_status", .str "non_compliant"),
       ("threat_level", .str "high"),
       ("authentication_issues", .num 5)]
  else if agentName = "performance-optimizer" then
    .record
      [("bottlenecks_found", .num 8),
       ("avg_response_time", .str "2.8s"),
       ("optimization_potential", .str "70%"),
       ("scalability_score", .num 0.3),
       ("resource_efficiency", .num 0.4)]
  else .record [("status", .str "analysis_complete")]

/-- Source: `generateAgentRecommendations`, real-world-example.js 423-446. -/
def generateAgentRecommendations (agentName : String) (_taskSpec : TaskSpec) : List String :=
  if agentName = "architecture-analyst" then
    ["Implement strangler fig pattern for gradual migration",
     "Extract bounded contexts into microservices",
     "Implement API gateway for service coordination",
     "Add comprehensive monitoring and observability"]
  else if agentName = "security-auditor" then
    ["Immediate: Fix critical authentication vulnerabilities",
     "Implement modern encryption for data at rest and in transit",
     "Add comprehensive audit logging and monitoring",
     "Achieve PCI DSS Level 1 compliance"]
  else if agentName = "performance-optimizer" then
    ["Implement Redis caching layer for 40% performance gain",
     "Optimize database queries to reduce response time by 60%",
     "Add CDN for static assets and images",
     "Implement async processing for heavy operations"]
  else ["Complete analysis and provide recommendations"]

/-- Source: `AgentCoordinator.generateAgentMetrics`, real-world-example.js 448-455. -/
def generateAgentMetrics (_agentName : String) (g : Rng) : AnalysisMetrics × Rng :=
  let (r1, g1) := g.next
  let (r2, g2) := g1.next
  let (r3, g3) := g2.next
  let (r4, g4) := g3.next
  ({ accuracy := 0.88 + r1 * 0.1
     completeness := 0.85 + r2 * 0.12
     confidence := 0.90 + r3 * 0.08
     execution_efficiency := 0.82 + r4 * 0.15 }, g4)

/-- Source: `delegateToAgent`, real-world-example.js 375-392. The object literal is
evaluated property by property, then the timer of `executionTime` milliseconds is awaited. -/
def delegateToAgent (agentName : String) (taskSpec : TaskSpec) (w : CoordinatorWorld) :
    AnalysisResult × CoordinatorWorld :=
  let (metrics, g1) := generateAgentMetrics agentName w.rng
  let (r, g2) := g1.next
  let analysisResult : AnalysisResult :=
    { agent := agentName
      task := taskSpec.task
      findings := generateAgentFindings agentName taskSpec
      recommendations := generateAgentRecommendations agentName taskSpec
      metrics := metrics
      executionTime := Rat.floor (r * 3000) + 2000 }
  (analysisResult,
    { now := w.now + analysisResult.executionTime.toNat
      rng := g2
      delegated := w.delegated ++ [{ agentName := agentName, taskSpec := taskSpec }] })

/-- Source: `createPriorityMatrix`, real-world-example.js 444-451. -/
def createPriorityMatrix (_waveResults : List AnalysisResult) : JsVal :=
  .record
    [("immediate", .strs ["Security vulnerability fixes", "Performance optimization"]),
     ("short_term", .strs ["Authentication modernization", "Database optimization"]),
     ("medium_term", .strs ["Microservices extraction", "DevOps pipeline"]),
     ("long_term", .strs ["Cloud migration", "Advanced analytics"])]

/-- Source: `createActionableRoadmap`, real-world-example.js 453-461. -/
def createActionableRoadmap (_waveResults : List AnalysisResult) : JsVal :=
  .record
    [("phase_1", .str "Security hardening and immediate performance fixes"),
     ("phase_2", .str "Authentication and payment system modernization"),
     ("phase_3", .str "Architecture modernization and service extraction"),
     ("phase_4", .str "Advanced features and optimization"),
     ("success_criteria", .str "PCI compliance, <1s response time, 99.9% uptime")]

/-- Source: `integrateWaveResults`, real-world-example.js 434-442. -/
def integrateWaveResults (waveResults : List AnalysisResult) : JsVal :=
  .record
    [("overall_assessment", .str "comprehensive_modernization_required"),
     ("priority_matrix", createPriorityMatrix waveResults),
     ("integration_score", .num 0.92),
     ("actionable_roadmap", createActionableRoadmap waveResults)]

/-- Source: `executeWaveOrchestration`, real-world-example.js 321-352. -/
def executeWaveOrchestration (projectContext : ProjectContext) (w : CoordinatorWorld) :
    WaveResult × CoordinatorWorld :=
  let (wave1, w1) :=
    delegateToAgent "architecture-analyst"
      { task := "comprehensive_architecture_analysis"
        context := projectContext
        focus := "system_design_and_patterns" } w
  let (wave2, w2) :=
    delegateToAgent "security-auditor"
      { task := "security_vulnerability_assessment"
        context := projectContext
        previousWave := some wave1
        focus := "vulnerability_assessment_and_compliance" } w1
  let (wave3, w3) :=
    delegateToAgent "performance-optimizer"
      { task := "performance_bottleneck_analysis"
        context := projectContext
        previousWaves := some [wave1, wave2]
        focus := "performance_optimization_and_scalability" } w2
  ({ orchestrationType := "wave"
     waves := [wave1, wave2, wave3]
     integration := integrateWaveResults [wave1, wave2, wave3] }, w3)

/-- Source: `coordinateAnalysis`, real-world-example.js 295-309. The method
`executeStandardDelegation` is called on `this` and defined in no file of the repository;
it is taken as supplied from outside. -/
def coordinateAnalysis
    (executeStandardDelegation : ProjectContext → CoordinatorWorld → JsVal × CoordinatorWorld)
    (projectContext : ProjectContext) (w : CoordinatorWorld) : Coordinated × CoordinatorWorld :=
  let shouldUseWaves := shouldTriggerWaveMode projectContext
  if shouldUseWaves then
    let (result, w1) := executeWaveOrchestration projectContext w
    (.wave result, w1)
  else
    let (result, w1) := executeStandardDelegation projectContext w
    (.standard result, w1)

end AgentCoordinator

/-! ## agent-testing-framework.js: the orchestrator suite, validation and the report -/

namespace AgentTestingFramework

/-- The `complexTask` object of `testAgentOrchestratorAgent`. -/
structure ComplexTask where
  type : String
  files : List String
  domains : List String
  complexity : ℚ
  timeline : String

/-- One element of `expectedOrchestration.phases`. -/
structure ExpectedPhase where
  phase : Nat
  agents : List String
  focus : String
  deriving DecidableEq

/-- The `expectedOrchestration` object of `testAgentOrchestratorAgent`. -/
structure ExpectedOrchestration where
  strategy : String
  phases : List ExpectedPhase
  coordination : String
  integration : String
  deriving DecidableEq

/-- The object returned by `testAgentOrchestratorAgent`. -/
structure OrchestratorSuite where
  complexTask : ComplexTask
  expectedOrchestration : ExpectedOrchestration
  agentType : String
  metrics : List String

/-- Source: `testAgentOrchestratorAgent`, agent-testing-framework.js 137-163. -/
def testAgentOrchestratorAgent : OrchestratorSuite where
  complexTask :=
    { type := "enterprise_system_review"
      files := ["auth.js", "payments.js", "database.js", "api.js"]
      domains := ["security", "performance", "architecture", "quality"]
      complexity := 0.8
      timeline := "comprehensive" }
  expectedOrchestration :=
    { strategy := "wave_orchestration"
      phases :=
        [{ phase := 1, agents := ["architecture-analyst"], focus := "system_design" },
         { phase := 2, agents := ["security-auditor"], focus := "vulnerability_assessment" },
         { phase := 3, agents := ["performance-optimizer"],
           focus := "optimization_opportunities" }]
      coordination := "sequential_with_knowledge_transfer"
      integration := "comprehensive_report_with_prioritized_recommendations" }
  agentType := "agent-orchestrator"
  metrics :=
    ["coordination_effectiveness", "agent_selection_accuracy", "integration_quality"]

/-- The three signals of the complex task as a project context: `files` is the number of
files the task lists and `domains` are the domains it lists. -/
def ComplexTask.toProjectContext (task : ComplexTask) : ProjectContext where
  name := task.type
  type := task.type
  complexity := task.complexity
  domains := task.domains
  files := task.files.length
  linesOfCode := 0
  criticalSystems := false

/-- The `validationResults` object built by `validateAgent`; `performance` stays the empty
object and is left out. -/
structure ValidationResults where
  agentName : String
  timestamp : Nat
  testResults : TestResults
  effectiveness : Effectiveness
  deriving Inhabited

/-- The methods that `generateTestingReport` calls on `this`; a method is `none` when the
class does not define it. -/
structure ReportMethods where
  identifySystemWideImprovements : Option (List ValidationResults → JsVal)
  generateImprovementRecommendations : Option (List ValidationResults → JsVal)

/-- The class as the repository has it: no file defines `identifySystemWideImprovements` or
`generateImprovementRecommendations`, and the class extends no other. -/
def ReportMethods.ofRepository : ReportMethods where
  identifySystemWideImprovements := none
  generateImprovementRecommendations := none

/-- JavaScript `this.name(argument)`: calling a property that is `undefined` throws a
`TypeError`. -/
def callMethod {α β : Type} (name : String) (method : Option (α → β)) (argument : α) :
    Except JsError β :=
  match method with
  | none => .error ("TypeError: this." ++ name ++ " is not a function")
  | some f => .ok (f argument)

/-- The `summary` object of the report. `averageScore` is `none` when JavaScript yields
`NaN`. -/
structure Summary where
  totalAgents : Nat
  averageScore : Option ℚ
  topPerformer : ValidationResults
  areasForImprovement : JsVal

/-- The `report` object returned by `generateTestingReport`. -/
structure Report where
  summary : Summary
  agentPerformance : List ValidationResults
  recommendations : JsVal

/-- JavaScript `Array.prototype.reduce` without an initial value: the first element starts
the accumulation, and an empty array throws a `TypeError`. -/
def reduceNoInit {α : Type} (f : α → α → α) : List α → Except JsError α
  | [] => .error "TypeError: Reduce of empty array with no initial value"
  | first :: rest => .ok (rest.foldl f first)

/-- Source: `generateTestingReport`, agent-testing-framework.js 286-299. The properties of
the object literal are evaluated in order: `totalAgents`, `averageScore`, `topPerformer`,
whose `reduce` throws on the empty array, `areasForImprovement`, whose method call throws
when the method is not defined, then `agentPerformance` and `recommendations`. -/
def generateTestingReport (methods : ReportMethods) (allResults : List ValidationResults) :
    Except JsError Report :=
  let totalAgents := allResults.length
  let averageScore :=
    F64.div (allResults.foldl (fun sum r => F64.add sum r.effectiveness.overallScore) 0)
      allResults.length
  match reduceNoInit
      (fun max r =>
        if r.effectiveness.overallScore > max.effectiveness.overallScore then r else max)
      allResults with
  | .error e => .error e
  | .ok topPerformer =>
    match callMethod "identifySystemWideImprovements" methods.identifySystemWideImprovements
        allResults with
    | .error e => .error e
    | .ok areasForImprovement =>
      match callMethod "generateImprovementRecommendations"
          methods.generateImprovementRecommendations allResults with
      | .error e => .error e
      | .ok recommendations =>
        .ok
          { summary :=
              { totalAgents := totalAgents
                averageScore := averageScore
                topPerformer := topPerformer
                areasForImprovement := areasForImprovement }
            agentPerformance := allResults
            recommendations := recommendations }

/-- A validation result with the given name and overall score and nothing else of note. -/
def validationScoring (agentName : String) (overallScore : ℚ) : ValidationResults :=
  { (default : ValidationResults) with
    agentName := agentName
    effectiveness := { (default : Effectiveness) with overallScore := overallScore } }

end AgentTestingFramework

/-! ## agent-testing-framework.js in binary64 arithmetic -/

namespace AgentTestingFramework.Double

/-- Source: `scoreToGrade`, agent-testing-framework.js 254-260. -/
def scoreToGrade (score : ℚ) : String :=
  if score ≥ F64.lit 0.9 then "A"
  else if score ≥ F64.lit 0.8 then "B"
  else if score ≥ F64.lit 0.7 then "C"
  else if score ≥ F64.lit 0.6 then "D"
  else "F"

/-- Source: `testSpecialization`, agent-testing-framework.js 190-202. -/
def testSpecialization (s : Supplied) (agentName : String) (testSuite : JsVal) :
    Specialization :=
  let domainAccuracy := s.measureDomainAccuracy agentName testSuite
  let falsePositiveRate := s.measureFalsePositives agentName testSuite
  let comprehensiveness := s.measureComprehensiveness agentName testSuite
  { domainAccuracy := domainAccuracy
    falsePositiveRate := falsePositiveRate
    comprehensiveness := comprehensiveness
    score :=
      F64.add
        (F64.add (F64.mul domainAccuracy (F64.lit 0.4))
          (F64.mul (F64.sub 1 falsePositiveRate) (F64.lit 0.3)))
        (F64.mul comprehensiveness (F64.lit 0.3)) }

/-- Source: `testCoordination`, agent-testing-framework.js 204-216. -/
def testCoordination (_agentName : String) : Coordination :=
  let communicationClarity : ℚ := F64.lit 0.85
  let resultIntegration : ℚ := F64.lit 0.90
  let conflictResolution : ℚ := F64.lit 0.80
  { communicationClarity := communicationClarity
    resultIntegration := resultIntegration
    conflictResolution := conflictResolution
    score :=
      F64.add
        (F64.add (F64.mul communicationClarity (F64.lit 0.4))
          (F64.mul resultIntegration (F64.lit 0.4)))
        (F64.mul conflictResolution (F64.lit 0.2)) }

/-- Source: `testOutputQuality`, agent-testing-framework.js 218-232. -/
def testOutputQuality (_agentName : String) (_testSuite : JsVal) : OutputQuality :=
  let accuracy : ℚ := F64.lit 0.88
  let completeness : ℚ := F64.lit 0.92
  let actionability : ℚ := F64.lit 0.85
  let clarity : ℚ := F64.lit 0.90
  { accuracy := accuracy
    completeness := completeness
    actionability := actionability
    clarity := clarity
    score :=
      F64.add
        (F64.add
          (F64.add (F64.mul accuracy (F64.lit 0.3)) (F64.mul completeness (F64.lit 0.3)))
          (F64.mul actionability (F64.lit 0.25)))
        (F64.mul clarity (F64.lit 0.15)) }

/-- Source: `calculateEffectiveness`, agent-testing-framework.js 234-252. -/
def calculateEffectiveness (s : Supplied) (testResults : TestResults) : Effectiveness :=
  let weightSpecialization : ℚ := F64.lit 0.4
  let weightCoordination : ℚ := F64.lit 0.3
  let weightQuality : ℚ := F64.lit 0.3
  let overallScore :=
    F64.add
      (F64.add (F64.mul testResults.specialization.score weightSpecialization)
        (F64.mul testResults.coordination.score weightCoordination))
      (F64.mul testResults.quality.score weightQuality)
  { overallScore := overallScore
    grade := scoreToGrade overallScore
    strengths := s.identifyStrengths testResults
    improvements := s.identifyImprovements testResults }

/-- Source: `validateAgent`, agent-testing-framework.js 166-188; `now` is what `new Date()`
reads. -/
def validateAgent (s : Supplied) (agentName : String) (testSuite : JsVal) (now : Nat) :
    ValidationResults :=
  let specialization := testSpecialization s agentName testSuite
  let coordination := testCoordination agentName
  let quality := testOutputQuality agentName testSuite
  let testResults : TestResults :=
    { specialization := specialization, coordination := coordination, quality := quality }
  { agentName := agentName
    timestamp := now
    testResults := testResults
    effectiveness := calculateEffectiveness s testResults }

/-- Test results whose three sub-scores are all `score`. -/
def uniformResults (score : ℚ) : TestResults :=
  { specialization := { (default : Specialization) with score := score }
    coordination := { (default : Coordination) with score := score }
    quality := { (default : OutputQuality) with score := score } }

end AgentTestingFramework.Double

/-! ## Workflows and workers for the timing claims -/

namespace AgentWorkflowDemo

/-- The workers of the source with one fixed execution time for every agent. -/
def fixedLatency (latency : Nat) : Methods where
  getAgentExecutionTime := fun _ => latency
  generateAgentOutput := generateAgentOutput
  generateAgentMetrics := generateAgentMetrics

/-- Three sequential phases of one worker each. -/
def threeSequential (a b c : String) : Workflow where
  name := "three_sequential"
  phases :=
    [{ phase := "first", agents := [a], input := .str "x", output := "first_output",
       parallel := some false },
     { phase := "second", agents := [b], input := .str "first_output",
       output := "second_output", parallel := some false },
     { phase := "third", agents := [c], input := .str "second_output",
       output := "third_output", parallel := some false }]

/-- One parallel phase of the same three workers. -/
def oneParallel (a b c : String) : Workflow where
  name := "one_parallel"
  phases :=
    [{ phase := "all", agents := [a, b, c], input := .str "x", output := "all_output",
       parallel := some true }]

/-- What `executeWorkflow` returns for three sequential phases of the agents of
`reversedPhase`, every worker taking 2000 milliseconds. -/
def threeSequentialResult : WorkflowResult :=
  match (executeWorkflow (fixedLatency 2000)
      (threeSequential "test-engineer" "performance-optimizer" "security-auditor")
      demoWorld).1 with
  | .ok results => results
  | .error _ => default

/-- What `executeWorkflow` returns for one parallel phase of the same three workers. -/
def oneParallelResult : WorkflowResult :=
  match (executeWorkflow (fixedLatency 2000)
      (oneParallel "test-engineer" "performance-optimizer" "security-auditor")
      demoWorld).1 with
  | .ok results => results
  | .error _ => default

/-- What `executePhase` returns for the sequential phase `auditSecondPhase`. -/
def auditSecondPhaseResult : PhaseResult :=
  match (executePhase simulated auditSecondPhase demoWorld).1 with
  | .ok phaseResult => phaseResult
  | .error _ => default

/-- The workflow result `pooledExample` with other times, durations, inputs and outputs
recorded. -/
def pooledExampleLater : WorkflowResult :=
  { pooledExample with
    startTime := 5000
    endTime := 9000
    duration := 4000
    phases :=
      pooledExample.phases.map (fun p =>
        { p with
          startTime := 5000
          endTime := 7000
          duration := 2000
          agentResults :=
            p.agentResults.map (fun r =>
              { r with
                input := .str "other"
                startTime := 6000
                endTime := 6500
                duration := 500
                output := { recommendations := some ["other"], fields := [] } }) }) }

end AgentWorkflowDemo

/-! ## Workers that succeed and workers that fail -/

/-- The worker `agentName` succeeds: once its timer has fired, its `executeAgent` call
returns an agent result, whatever the input and the state. -/
def Methods.SucceedsFor (m : Methods) (agentName : String) : Prop :=
  ∀ input w, ∃ agentResult,
    (AgentWorkflowDemo.executeAgent.resume m agentName input w).1 = .ok agentResult

/-- The worker `agentName` fails with `e`: once its timer has fired, its `executeAgent`
call throws `e`, whatever the input and the state. -/
def Methods.ThrowsFor (m : Methods) (agentName : String) (e : JsError) : Prop :=
  ∀ input w, (AgentWorkflowDemo.executeAgent.resume m agentName input w).1 = .error e

/-! ## agent-workflow-demo.js: the metrics in binary64 arithmetic -/

namespace AgentWorkflowDemo.Double

/-- Source: `calculateEfficiencyScore`, agent-workflow-demo.js 347-354. -/
def calculateEfficiencyScore (results : WorkflowResult) : Option ℚ :=
  let parallelPhases := (results.phases.filter (fun p => p.coordination = "parallel")).length
  let totalPhases := results.phases.length
  (F64.div parallelPhases totalPhases).map
    (fun parallelizationRatio =>
      F64.add (F64.lit 0.6) (F64.mul parallelizationRatio (F64.lit 0.4)))

/-- Source: `calculateQualityScore`, agent-workflow-demo.js 356-363. -/
def calculateQualityScore (results : WorkflowResult) : Option ℚ :=
  let allAgentResults := results.phases.flatMap (fun p => p.agentResults)
  let avgAccuracy :=
    F64.div (allAgentResults.foldl (fun sum r => F64.add sum r.metrics.accuracy_score) 0)
      allAgentResults.length
  let avgCompleteness :=
    F64.div (allAgentResults.foldl (fun sum r => F64.add sum r.metrics.completeness_score) 0)
      allAgentResults.length
  match avgAccuracy, avgCompleteness with
  | some accuracy, some completeness =>
    some (F64.add (F64.mul accuracy (F64.lit 0.6)) (F64.mul completeness (F64.lit 0.4)))
  | _, _ => none

/-- Source: `calculateWorkflowMetrics`, agent-workflow-demo.js 336-345. -/
def calculateWorkflowMetrics (results : WorkflowResult) : WorkflowMetrics where
  total_duration := results.duration
  phase_count := results.phases.length
  agent_executions := results.phases.foldl (fun sum p => sum + p.agentResults.length) 0
  average_phase_duration :=
    F64.div (results.phases.foldl (fun sum p => F64.add sum (p.duration : ℚ)) 0)
      results.phases.length
  efficiency_score := calculateEfficiencyScore results
  quality_score := calculateQualityScore results

/-- Source: `executeWorkflow`, agent-workflow-demo.js 193-219. The `Map` is created empty;
nothing catches an error thrown inside the loop. -/
def executeWorkflow (m : Methods) (workflow : Workflow) (w : World) :
    Except JsError WorkflowResult × World :=
  let startTime := w.now
  match executeWorkflow.loop m workflow.phases [] { w with outputs := [] } with
  | (some e, _, w1) => (.error e, w1)
  | (none, phases, w1) =>
    let endTime := w1.now
    let results : WorkflowResult :=
      { workflowName := workflow.name
        startTime := startTime
        phases := phases
        outputs := w1.outputs
        metrics := none
        endTime := endTime
        duration := (endTime : Int) - (startTime : Int) }
    (.ok { results with metrics := some (calculateWorkflowMetrics results) }, w1)

/-- Source: `newFeatureWorkflow`, agent-workflow-demo.js 20-60. -/
def newFeatureWorkflow (m : Methods) (featureSpec : JsVal) (w : World) :
    Except JsError WorkflowResult × World :=
  executeWorkflow m (AgentWorkflowDemo.newFeatureWorkflow.workflow featureSpec) w

/-- Source: `securityAuditWorkflow`, agent-workflow-demo.js 63-101. -/
def securityAuditWorkflow (m : Methods) (systemComponents : JsVal) (w : World) :
    Except JsError WorkflowResult × World :=
  executeWorkflow m (AgentWorkflowDemo.securityAuditWorkflow.workflow systemComponents) w

/-- Source: `performanceOptimizationWorkflow`, agent-workflow-demo.js 104-149. -/
def performanceOptimizationWorkflow (m : Methods) (performanceIssues : JsVal) (w : World) :
    Except JsError WorkflowResult × World :=
  executeWorkflow m
    (AgentWorkflowDemo.performanceOptimizationWorkflow.workflow performanceIssues) w

/-- Source: `codeQualityWorkflow`, agent-workflow-demo.js 152-190. -/
def codeQualityWorkflow (m : Methods) (codebaseAnalysis : JsVal) (w : World) :
    Except JsError WorkflowResult × World :=
  executeWorkflow m (AgentWorkflowDemo.codeQualityWorkflow.workflow codebaseAnalysis) w

/-- Source: `performanceIssues` of `demonstrateAgentWorkflows`, agent-workflow-demo.js
416-420. -/
def performanceIssues : JsVal :=
  .record
    [("bottlenecks", .strs ["database_queries", "algorithm_complexity", "memory_usage"]),
     ("current_performance", .str "poor"),
     ("target_improvement", .str "80%")]

end AgentWorkflowDemo.Double

/-! ## Worker invocation: what one call does -/

namespace AgentWorkflowDemo

theorem executeAgent.resume_now (m : Methods) (agentName : String) (input : JsVal) (w : World) :
    (executeAgent.resume m agentName input w).2.now = w.now := by
  simp only [executeAgent.resume]
  split
  · rfl
  · split <;> rfl

theorem executeAgent.resume_trace (m : Methods) (agentName : String) (input : JsVal)
    (w : World) :
    (executeAgent.resume m agentName input w).2.trace
      = w.trace ++ [Event.worked agentName input w.outputs] := by
  simp only [executeAgent.resume]
  split
  · rfl
  · split <;> rfl

theorem executeAgent.resume_outputs (m : Methods) (hm : m.ReadOnly) (agentName : String)
    (input : JsVal) (w : World) :
    (executeAgent.resume m agentName input w).2.outputs = w.outputs := by
  have h := hm agentName input w.outputs w.rng
  simp only [executeAgent.resume]
  split
  · next e o g heq => rw [heq] at h; exact h
  · next output o g heq =>
    rw [heq] at h
    split <;> exact h

theorem executeAgent.resume_ok (m : Methods) (agentName : String) (input : JsVal)
    (w w1 : World) (r : AgentResult)
    (h : executeAgent.resume m agentName input w = (.ok r, w1)) :
    r.agent = agentName ∧ r.input = input := by
  simp only [executeAgent.resume] at h
  split at h
  · simp at h
  · split at h
    · simp at h
    · simp only [Prod.mk.injEq, Except.ok.injEq] at h
      rw [← h.1]
      exact ⟨rfl, rfl⟩

theorem executeAgent_ok (m : Methods) (agentName : String) (input : JsVal)
    (w w1 : World) (r : AgentResult) (h : executeAgent m agentName input w = (.ok r, w1)) :
    r.agent = agentName ∧ r.input = input :=
  executeAgent.resume_ok m agentName input _ w1 r h

theorem executeAgent_trace (m : Methods) (agentName : String) (input : JsVal) (w : World) :
    (executeAgent m agentName input w).2.trace
      = w.trace ++ [Event.invoked agentName input, Event.worked agentName input w.outputs] := by
  simp [executeAgent, executeAgent.begin, executeAgent.resume_trace]

theorem executeAgent_outputs (m : Methods) (hm : m.ReadOnly) (agentName : String)
    (input : JsVal) (w : World) :
    (executeAgent m agentName input w).2.outputs = w.outputs := by
  simp [executeAgent, executeAgent.begin, executeAgent.resume_outputs m hm]

/-! ## The sequential branch -/

theorem executePhase.sequential_ok (m : Methods) (input : JsVal) :
    ∀ (agents : List String) (acc : List AgentResult) (w w1 : World) (rs : List AgentResult),
      executePhase.sequential m input agents acc w = (.ok rs, w1) →
        ∃ new, rs = acc ++ new ∧ new.map (fun r => r.agent) = agents := by
  intro agents
  induction agents with
  | nil =>
    intro acc w w1 rs h
    simp only [executePhase.sequential, Prod.mk.injEq, Except.ok.injEq] at h
    exact ⟨[], by simp [h.1], rfl⟩
  | cons agent rest ih =>
    intro acc w w1 rs h
    simp only [executePhase.sequential] at h
    split at h
    · simp at h
    · next agentResult w2 heq =>
      obtain ⟨new, hrs, hmap⟩ := ih _ _ _ _ h
      refine ⟨agentResult :: new, by simp [hrs], ?_⟩
      simp [hmap, (executeAgent_ok m agent input w w2 agentResult heq).1]

theorem executePhase.sequential_outputs (m : Methods) (hm : m.ReadOnly) (input : JsVal) :
    ∀ (agents : List String) (acc : List AgentResult) (w : World),
      (executePhase.sequential m input agents acc w).2.outputs = w.outputs := by
  intro agents
  induction agents with
  | nil => intro acc w; rfl
  | cons agent rest ih =>
    intro acc w
    have h := executeAgent_outputs m hm agent input w
    simp only [executePhase.sequential]
    split
    · next e w2 heq => rw [heq] at h; exact h
    · next agentResult w2 heq =>
      rw [heq] at h
      rw [ih, h]

end AgentWorkflowDemo

/-! ## The parallel branch -/

namespace AgentWorkflowDemo

theorem executePhase.fanOut_pending (m : Methods) (input : JsVal) (start : Nat) :
    ∀ (agents : List String) (index : Nat) (w : World),
      (executePhase.fanOut m input start agents index w).1.map (fun p => (p.index, p.agent))
        = agents.enumFrom index := by
  intro agents
  induction agents with
  | nil => intro index w; rfl
  | cons agent rest ih =>
    intro index w
    simp only [executePhase.fanOut, List.map_cons, List.enumFrom_cons]
    rw [ih]

theorem executePhase.fanOut_outputs (m : Methods) (input : JsVal) (start : Nat) :
    ∀ (agents : List String) (index : Nat) (w : World),
      (executePhase.fanOut m input start agents index w).2.outputs = w.outputs := by
  intro agents
  induction agents with
  | nil => intro index w; rfl
  | cons agent rest ih =>
    intro index w
    simp only [executePhase.fanOut]
    rw [ih]
    rfl

theorem executePhase.fanOut_trace (m : Methods) (input : JsVal) (start : Nat) :
    ∀ (agents : List String) (index : Nat) (w : World),
      (executePhase.fanOut m input start agents index w).2.trace
        = w.trace ++ agents.map (fun agent => Event.invoked agent input) := by
  intro agents
  induction agents with
  | nil => intro index w; simp [executePhase.fanOut]
  | cons agent rest ih =>
    intro index w
    simp only [executePhase.fanOut]
    rw [ih]
    simp [executeAgent.begin]

theorem executePhase.settle_ok (m : Methods) (input : JsVal) :
    ∀ (pending : List Pending) (acc : List (Nat × AgentResult)) (w w1 : World)
      (settled : List (Nat × AgentResult)),
      executePhase.settle m input pending acc w = (.ok settled, w1) →
        ∃ new, settled = acc ++ new ∧
          new.map (fun entry => (entry.1, entry.2.agent))
            = pending.map (fun p => (p.index, p.agent)) := by
  intro pending
  induction pending with
  | nil =>
    intro acc w w1 settled h
    simp only [executePhase.settle, Prod.mk.injEq, Except.ok.injEq] at h
    exact ⟨[], by simp [h.1], rfl⟩
  | cons p rest ih =>
    intro acc w w1 settled h
    simp only [executePhase.settle] at h
    split at h
    · simp at h
    · next agentResult w2 heq =>
      obtain ⟨new, hs, hmap⟩ := ih _ _ _ _ h
      refine ⟨(p.index, agentResult) :: new, by simp [hs], ?_⟩
      simp [hmap, (executeAgent.resume_ok m p.agent input _ w2 agentResult heq).1]

theorem executePhase.settle_outputs (m : Methods) (hm : m.ReadOnly) (input : JsVal) :
    ∀ (pending : List Pending) (acc : List (Nat × AgentResult)) (w : World),
      (executePhase.settle m input pending acc w).2.outputs = w.outputs := by
  intro pending
  induction pending with
  | nil => intro acc w; rfl
  | cons p rest ih =>
    intro acc w
    have h := executeAgent.resume_outputs m hm p.agent input { w with now := max w.now p.due }
    simp only [executePhase.settle]
    split
    · next e w2 heq => rw [heq] at h; exact h
    · next agentResult w2 heq =>
      rw [heq] at h
      rw [ih, h]

/-- Reading the settled values back by position restores declaration order, whatever the
order in which they settled. -/
theorem executePhase.promiseAll_agents (agents : List String)
    (settled : List (Nat × AgentResult))
    (h : (settled.map (fun entry => (entry.1, entry.2.agent))).Perm agents.enum) :
    (executePhase.promiseAll agents.length settled).map (fun r => r.agent) = agents := by
  have hval : ∀ i (hi : i < agents.length),
      ∃ r, executePhase.valueAt settled i = some r ∧ r.agent = agents[i] := by
    intro i hi
    have hmem : (i, agents[i]) ∈ settled.map (fun entry => (entry.1, entry.2.agent)) := by
      rw [h.mem_iff]
      exact List.mk_mem_enum_iff_getElem?.2 (by simp [hi])
    obtain ⟨entry, hentry, heq⟩ := List.mem_map.1 hmem
    have hsome : (settled.find? (fun e => e.1 == i)).isSome := by
      rw [List.find?_isSome]
      refine ⟨entry, hentry, ?_⟩
      simp only [Prod.mk.injEq] at heq
      simp [heq.1]
    obtain ⟨found, hfound⟩ := Option.isSome_iff_exists.1 hsome
    have hkey : found.1 = i := by
      have := List.find?_some hfound
      simpa using this
    have hin : (found.1, found.2.agent) ∈ agents.enum := by
      rw [← h.mem_iff]
      exact List.mem_map.2 ⟨found, List.mem_of_find?_eq_some hfound, rfl⟩
    have hget := List.mk_mem_enum_iff_getElem?.1 hin
    rw [hkey] at hget
    refine ⟨found.2, by simp [executePhase.valueAt, hfound], ?_⟩
    rw [List.getElem?_eq_getElem hi] at hget
    exact (Option.some.inj hget).symm
  have hmap : executePhase.promiseAll agents.length settled
      = (List.range agents.length).map
          (fun i => (executePhase.valueAt settled i).getD default) := by
    unfold executePhase.promiseAll
    rw [← List.filterMap_eq_map]
    apply List.filterMap_congr
    intro i hi
    obtain ⟨r, hr, _⟩ := hval i (List.mem_range.1 hi)
    simp [hr]
  rw [hmap]
  apply List.ext_getElem
  · simp
  · intro i h1 h2
    obtain ⟨r, hr, hagent⟩ := hval i h2
    simp [hr, hagent]

end AgentWorkflowDemo

/-! ## The `Map` of outputs -/

theorem Outputs.get_set_self (o : Outputs) (key : String) (value : Aggregated) :
    (o.set key value).get key = some value := by
  induction o with
  | nil => simp [Outputs.set, Outputs.get]
  | cons entry rest ih =>
    obtain ⟨k, v⟩ := entry
    by_cases h : k = key
    · simp [Outputs.set, Outputs.get, h]
    · simp [Outputs.set, Outputs.get, h, ih]

theorem Outputs.get_set_of_ne (o : Outputs) (key other : String) (value : Aggregated)
    (h : other ≠ key) : (o.set key value).get other = o.get other := by
  induction o with
  | nil =>
    have h2 : ¬ key = other := fun h3 => h h3.symm
    simp [Outputs.set, Outputs.get, h2]
  | cons entry rest ih =>
    obtain ⟨k, v⟩ := entry
    by_cases hk : k = key
    · subst hk
      have h2 : ¬ k = other := fun h3 => h h3.symm
      simp [Outputs.set, Outputs.get, h2]
    · by_cases ho : k = other
      · subst ho
        simp [Outputs.set, Outputs.get, hk]
      · simp [Outputs.set, Outputs.get, hk, ho, ih]

theorem Outputs.keys_set (o : Outputs) (key : String) (value : Aggregated) :
    (o.set key value).keys = if key ∈ o.keys then o.keys else o.keys ++ [key] := by
  induction o with
  | nil => simp [Outputs.set, Outputs.keys]
  | cons entry rest ih =>
    obtain ⟨k, v⟩ := entry
    by_cases hk : k = key
    · simp [Outputs.set, Outputs.keys, hk]
    · have hk2 : ¬ key = k := fun h => hk h.symm
      simp only [Outputs.keys] at ih
      by_cases hmem : key ∈ List.map Prod.fst rest
      · simp [Outputs.set, Outputs.keys, hk, hk2, hmem, ih]
      · simp [Outputs.set, Outputs.keys, hk, hk2, hmem, ih]

theorem Outputs.keys_subset_set (o : Outputs) (key : String) (value : Aggregated) :
    o.keys ⊆ (o.set key value).keys := by
  rw [Outputs.keys_set]
  split
  · exact List.Subset.refl _
  · exact List.subset_append_left _ _

theorem Outputs.mem_keys_set (o : Outputs) (key other : String) (value : Aggregated)
    (h : other ∈ (o.set key value).keys) : other ∈ o.keys ∨ other = key := by
  rw [Outputs.keys_set] at h
  split at h
  · exact Or.inl h
  · simpa using h

theorem Outputs.get_eq_none_of_not_mem (o : Outputs) (key : String) (h : key ∉ o.keys) :
    o.get key = none := by
  induction o with
  | nil => rfl
  | cons entry rest ih =>
    obtain ⟨k, v⟩ := entry
    simp only [Outputs.keys, List.map_cons, List.mem_cons, not_or] at h
    have hk : ¬ k = key := fun h2 => h.1 h2.symm
    simp only [Outputs.get, hk, if_false]
    exact ih h.2

theorem Outputs.mem_keys_of_get (o : Outputs) (key : String) (value : Aggregated)
    (h : o.get key = some value) : key ∈ o.keys := by
  by_contra hne
  rw [Outputs.get_eq_none_of_not_mem o key hne] at h
  simp at h

/-! ## The phase scheduler as a whole -/

namespace AgentWorkflowDemo

theorem executePhase.parallel_outputs (m : Methods) (hm : m.ReadOnly) (input : JsVal)
    (agents : List String) (w : World) :
    (executePhase.parallel m input agents w).2.outputs = w.outputs := by
  have h := executePhase.settle_outputs m hm input
    (executePhase.completionOrder (executePhase.fanOut m input w.now agents 0 w).1) []
    (executePhase.fanOut m input w.now agents 0 w).2
  rw [executePhase.fanOut_outputs] at h
  simp only [executePhase.parallel]
  split
  · next e w2 heq => rw [heq] at h; exact h
  · next settled w2 heq => rw [heq] at h; exact h

theorem executePhase.parallel_ok (m : Methods) (input : JsVal) (agents : List String)
    (w w1 : World) (rs : List AgentResult)
    (h : executePhase.parallel m input agents w = (.ok rs, w1)) :
    rs.map (fun r => r.agent) = agents := by
  simp only [executePhase.parallel] at h
  split at h
  · simp at h
  · next settled w2 heq =>
    simp only [Prod.mk.injEq, Except.ok.injEq] at h
    rw [← h.1]
    obtain ⟨new, hs, hmap⟩ := executePhase.settle_ok m input _ _ _ _ _ heq
    apply executePhase.promiseAll_agents
    rw [hs, List.nil_append, hmap]
    have hperm : (executePhase.completionOrder
        (executePhase.fanOut m input w.now agents 0 w).1).Perm
        (executePhase.fanOut m input w.now agents 0 w).1 :=
      List.perm_insertionSort _ _
    have := hperm.map (fun p => (p.index, p.agent))
    rw [executePhase.fanOut_pending] at this
    exact this

theorem executePhase_outputs (m : Methods) (hm : m.ReadOnly) (phase : Phase) (w : World) :
    (executePhase m phase w).2.outputs = w.outputs := by
  have hp := executePhase.parallel_outputs m hm phase.input phase.agents w
  have hs := executePhase.sequential_outputs m hm phase.input phase.agents [] w
  simp only [executePhase]
  split
  · next e w1 heq =>
    split at heq
    · rw [heq] at hp; exact hp
    · rw [heq] at hs; exact hs
  · next rs w1 heq =>
    split at heq
    · rw [heq] at hp; exact hp
    · rw [heq] at hs; exact hs

theorem executePhase_ok (m : Methods) (phase : Phase) (w w1 : World) (phaseResult : PhaseResult)
    (h : executePhase m phase w = (.ok phaseResult, w1)) :
    phaseResult.phase = phase.phase ∧ phaseResult.agents = phase.agents ∧
    phaseResult.agentResults.map (fun r => r.agent) = phase.agents ∧
    phaseResult.output = aggregateAgentResults phaseResult.agentResults := by
  simp only [executePhase] at h
  split at h
  · simp at h
  · next rs w2 heq =>
    simp only [Prod.mk.injEq, Except.ok.injEq] at h
    rw [← h.1]
    refine ⟨rfl, rfl, ?_, rfl⟩
    split at heq
    · exact executePhase.parallel_ok m _ _ _ _ _ heq
    · obtain ⟨new, hrs, hmap⟩ := executePhase.sequential_ok m _ _ _ _ _ _ heq
      simpa [hrs] using hmap

end AgentWorkflowDemo

/-! ## What the scheduler logs -/

theorem Event.invokedAgent_map_invoked (input : JsVal) (agents : List String) :
    (agents.map (fun agent => Event.invoked agent input)).filterMap Event.invokedAgent
      = agents := by
  induction agents with
  | nil => rfl
  | cons a rest ih =>
    simp only [List.map_cons, List.filterMap_cons, Event.invokedAgent]
    rw [ih]

theorem Event.workedAgent_map_invoked (input : JsVal) (agents : List String) :
    (agents.map (fun agent => Event.invoked agent input)).filterMap Event.workedAgent
      = [] := by
  induction agents with
  | nil => rfl
  | cons a rest ih =>
    simp only [List.map_cons, List.filterMap_cons, Event.workedAgent]
    rw [ih]

namespace AgentWorkflowDemo

theorem executePhase.sequential_trace (m : Methods) (input : JsVal) :
    ∀ (agents : List String) (acc : List AgentResult) (w : World),
      ∃ evs, (executePhase.sequential m input agents acc w).2.trace = w.trace ++ evs ∧
        (m.ReadOnly → ∀ ev ∈ evs, ev.Carries input w.outputs) ∧
        (∀ rs, (executePhase.sequential m input agents acc w).1 = .ok rs →
          evs.filterMap Event.invokedAgent = agents ∧
          evs.filterMap Event.workedAgent = agents) := by
  intro agents
  induction agents with
  | nil =>
    intro acc w
    exact ⟨[], by simp [executePhase.sequential], by simp, by simp⟩
  | cons agent rest ih =>
    intro acc w
    have ht := executeAgent_trace m agent input w
    have ho := fun hm => executeAgent_outputs m hm agent input w
    simp only [executePhase.sequential]
    split
    · next e w2 heq =>
      rw [heq] at ht
      refine ⟨_, ht, ?_, by simp⟩
      intro _ ev hev
      simp only [List.mem_cons, List.mem_singleton, List.not_mem_nil, or_false] at hev
      rcases hev with rfl | rfl <;> simp [Event.Carries]
    · next agentResult w2 heq =>
      rw [heq] at ht ho
      obtain ⟨evs, h1, h2, h3⟩ := ih (acc ++ [agentResult]) w2
      refine ⟨[Event.invoked agent input, Event.worked agent input w.outputs] ++ evs,
        ?_, ?_, ?_⟩
      · rw [h1, ht]; simp
      · intro hm ev hev
        simp only [List.cons_append, List.nil_append, List.mem_cons] at hev
        rcases hev with rfl | rfl | hev
        · simp [Event.Carries]
        · simp [Event.Carries]
        · have := h2 hm ev hev
          rw [ho hm] at this
          exact this
      · intro rs hrs
        obtain ⟨h4, h5⟩ := h3 rs hrs
        simp [Event.invokedAgent, Event.workedAgent, h4, h5]

theorem executePhase.settle_trace (m : Methods) (input : JsVal) :
    ∀ (pending : List Pending) (acc : List (Nat × AgentResult)) (w : World),
      ∃ evs, (executePhase.settle m input pending acc w).2.trace = w.trace ++ evs ∧
        evs.filterMap Event.invokedAgent = [] ∧
        (m.ReadOnly → ∀ ev ∈ evs, ev.Carries input w.outputs) ∧
        (∀ settled, (executePhase.settle m input pending acc w).1 = .ok settled →
          evs.filterMap Event.workedAgent = pending.map (fun p => p.agent)) := by
  intro pending
  induction pending with
  | nil =>
    intro acc w
    exact ⟨[], by simp [executePhase.settle], rfl, by simp, by simp⟩
  | cons p rest ih =>
    intro acc w
    have ht := executeAgent.resume_trace m p.agent input { w with now := max w.now p.due }
    have ho := fun hm =>
      executeAgent.resume_outputs m hm p.agent input { w with now := max w.now p.due }
    simp only [executePhase.settle]
    split
    · next e w2 heq =>
      rw [heq] at ht
      refine ⟨_, ht, by simp [Event.invokedAgent], ?_, by simp⟩
      intro _ ev hev
      simp only [List.mem_singleton] at hev
      subst hev
      simp [Event.Carries]
    · next agentResult w2 heq =>
      rw [heq] at ht ho
      obtain ⟨evs, h1, h2, h3, h4⟩ := ih (acc ++ [(p.index, agentResult)]) w2
      refine ⟨[Event.worked p.agent input w.outputs] ++ evs, ?_, ?_, ?_, ?_⟩
      · rw [h1, ht]; simp
      · simp [Event.invokedAgent, h2]
      · intro hm ev hev
        simp only [List.cons_append, List.nil_append, List.mem_cons] at hev
        rcases hev with rfl | hev
        · simp [Event.Carries]
        · have := h3 hm ev hev
          rw [ho hm] at this
          exact this
      · intro settled hs
        simp [Event.workedAgent, h4 settled hs]

theorem executePhase.parallel_trace (m : Methods) (input : JsVal) (agents : List String)
    (w : World) :
    ∃ evs, (executePhase.parallel m input agents w).2.trace = w.trace ++ evs ∧
      (m.ReadOnly → ∀ ev ∈ evs, ev.Carries input w.outputs) ∧
      (∀ rs, (executePhase.parallel m input agents w).1 = .ok rs →
        evs.filterMap Event.invokedAgent = agents ∧
        (evs.filterMap Event.workedAgent).Perm agents) := by
  obtain ⟨evs, h1, h2, h3, h4⟩ := executePhase.settle_trace m input
    (executePhase.completionOrder (executePhase.fanOut m input w.now agents 0 w).1) []
    (executePhase.fanOut m input w.now agents 0 w).2
  rw [executePhase.fanOut_trace] at h1
  rw [executePhase.fanOut_outputs] at h3
  have hinv := Event.invokedAgent_map_invoked input agents
  have hwork := Event.workedAgent_map_invoked input agents
  have hperm : ((executePhase.completionOrder
      (executePhase.fanOut m input w.now agents 0 w).1).map (fun p => p.agent)).Perm agents := by
    have hp : (executePhase.completionOrder
        (executePhase.fanOut m input w.now agents 0 w).1).Perm
        (executePhase.fanOut m input w.now agents 0 w).1 :=
      List.perm_insertionSort _ _
    have h5 := (hp.map (fun p => (p.index, p.agent))).map Prod.snd
    rw [executePhase.fanOut_pending] at h5
    simp only [List.map_map] at h5
    have h6 : (List.enumFrom 0 agents).map Prod.snd = agents := List.enumFrom_map_snd 0 agents
    rw [h6] at h5
    exact h5
  refine ⟨agents.map (fun agent => Event.invoked agent input) ++ evs, ?_, ?_, ?_⟩
  · simp only [executePhase.parallel]
    split
    · next e w2 heq => rw [heq] at h1; simpa [List.append_assoc] using h1
    · next settled w2 heq => rw [heq] at h1; simpa [List.append_assoc] using h1
  · intro hm ev hev
    rcases List.mem_append.1 hev with hev | hev
    · obtain ⟨a, _, rfl⟩ := List.mem_map.1 hev
      simp [Event.Carries]
    · exact h3 hm ev hev
  · intro rs hrs
    simp only [executePhase.parallel] at hrs
    split at hrs
    · simp at hrs
    · next settled w2 heq =>
      have h7 := h4 settled (by rw [heq])
      rw [List.filterMap_append, List.filterMap_append, hinv, hwork, h2, h7]
      simpa using hperm

end AgentWorkflowDemo

namespace AgentWorkflowDemo

theorem executePhase_trace (m : Methods) (phase : Phase) (w : World) :
    ∃ evs, (executePhase m phase w).2.trace = w.trace ++ evs ∧
      (m.ReadOnly → ∀ ev ∈ evs, ev.Carries phase.input w.outputs) ∧
      (∀ phaseResult, (executePhase m phase w).1 = .ok phaseResult →
        evs.filterMap Event.invokedAgent = phase.agents ∧
        (evs.filterMap Event.workedAgent).Perm phase.agents) := by
  obtain ⟨ep, hp1, hp2, hp3⟩ := executePhase.parallel_trace m phase.input phase.agents w
  obtain ⟨es, hs1, hs2, hs3⟩ := executePhase.sequential_trace m phase.input phase.agents [] w
  by_cases hpar : phase.parallelTruthy = true
  · refine ⟨ep, ?_, hp2, ?_⟩
    · simp only [executePhase, hpar, if_true]
      split
      · next e w1 heq => rw [heq] at hp1; exact hp1
      · next rs w1 heq => rw [heq] at hp1; exact hp1
    · intro phaseResult h
      simp only [executePhase, hpar, if_true] at h
      split at h
      · simp at h
      · next rs w1 heq => exact hp3 rs (by rw [heq])
  · have hpar : phase.parallelTruthy = false := by simpa using hpar
    refine ⟨es, ?_, hs2, ?_⟩
    · simp only [executePhase, hpar, Bool.false_eq_true, if_false]
      split
      · next e w1 heq => rw [heq] at hs1; exact hs1
      · next rs w1 heq => rw [heq] at hs1; exact hs1
    · intro phaseResult h
      simp only [executePhase, hpar, Bool.false_eq_true, if_false] at h
      split at h
      · simp at h
      · next rs w1 heq =>
        obtain ⟨h1, h2⟩ := hs3 rs (by rw [heq])
        exact ⟨h1, by rw [h2]⟩

/-! ## The coordinator loop -/

theorem executePhase.sequential_append (m : Methods) (input : JsVal) :
    ∀ (xs ys : List String) (acc : List AgentResult) (w : World),
      executePhase.sequential m input (xs ++ ys) acc w =
        match executePhase.sequential m input xs acc w with
        | (.ok rs, w1) => executePhase.sequential m input ys rs w1
        | (.error e, w1) => (.error e, w1) := by
  intro xs
  induction xs with
  | nil => intro ys acc w; rfl
  | cons agent rest ih =>
    intro ys acc w
    simp only [List.cons_append, executePhase.sequential]
    split
    · rfl
    · exact ih _ _ _

theorem executeWorkflow.loop_append (m : Methods) :
    ∀ (xs ys : List Phase) (acc : List PhaseResult) (w : World),
      executeWorkflow.loop m (xs ++ ys) acc w =
        match executeWorkflow.loop m xs acc w with
        | (none, acc1, w1) => executeWorkflow.loop m ys acc1 w1
        | (some e, acc1, w1) => (some e, acc1, w1) := by
  intro xs
  induction xs with
  | nil => intro ys acc w; rfl
  | cons phase rest ih =>
    intro ys acc w
    simp only [List.cons_append, executeWorkflow.loop]
    split
    · rfl
    · exact ih _ _ _

theorem executeWorkflow.phase_names_of_forall₂ (R : Phase → PhaseResult → Prop)
    (declared : List Phase) (rs : List PhaseResult) (hall : List.Forall₂ R declared rs)
    (hR : ∀ phase phaseResult, R phase phaseResult → phaseResult.phase = phase.phase) :
    rs.map (fun p => p.phase) = declared.map (fun p => p.phase) := by
  induction hall with
  | nil => rfl
  | cons hd _ ih => simp [hR _ _ hd, ih]

theorem executeWorkflow.loop_ok (m : Methods) :
    ∀ (phases : List Phase) (acc : List PhaseResult) (w w1 : World) (rs : List PhaseResult),
      executeWorkflow.loop m phases acc w = (none, rs, w1) →
        ∃ new, rs = acc ++ new ∧
          List.Forall₂
            (fun phase phaseResult =>
              phaseResult.phase = phase.phase ∧ phaseResult.agents = phase.agents ∧
              phaseResult.agentResults.map (fun r => r.agent) = phase.agents ∧
              phaseResult.output = aggregateAgentResults phaseResult.agentResults)
            phases new := by
  intro phases
  induction phases with
  | nil =>
    intro acc w w1 rs h
    simp only [executeWorkflow.loop, Prod.mk.injEq, true_and] at h
    exact ⟨[], by simp [h.1], List.Forall₂.nil⟩
  | cons phase rest ih =>
    intro acc w w1 rs h
    simp only [executeWorkflow.loop] at h
    split at h
    · simp at h
    · next phaseResult w2 heq =>
      obtain ⟨new, hrs, hall⟩ := ih _ _ _ _ h
      exact ⟨phaseResult :: new, by simp [hrs],
        List.Forall₂.cons (executePhase_ok m phase w w2 phaseResult heq) hall⟩

theorem executeWorkflow.loop_get_of_not_mem (m : Methods) (hm : m.ReadOnly) (key : String) :
    ∀ (phases : List Phase) (acc : List PhaseResult) (w : World),
      key ∉ phases.map (fun phase => phase.output) →
        (executeWorkflow.loop m phases acc w).2.2.outputs.get key = w.outputs.get key := by
  intro phases
  induction phases with
  | nil => intro acc w _; rfl
  | cons phase rest ih =>
    intro acc w hkey
    simp only [List.map_cons, List.mem_cons, not_or] at hkey
    have ho := executePhase_outputs m hm phase w
    simp only [executeWorkflow.loop]
    split
    · next e w1 heq => rw [heq] at ho; simp only; rw [ho]
    · next phaseResult w1 heq =>
      rw [heq] at ho
      rw [ih _ _ hkey.2]
      simp only
      rw [Outputs.get_set_of_ne _ _ _ _ hkey.1, ho]

theorem executeWorkflow.loop_keys_subset (m : Methods) (hm : m.ReadOnly) :
    ∀ (phases : List Phase) (acc : List PhaseResult) (w : World),
      w.outputs.keys ⊆ (executeWorkflow.loop m phases acc w).2.2.outputs.keys := by
  intro phases
  induction phases with
  | nil => intro acc w; exact List.Subset.refl _
  | cons phase rest ih =>
    intro acc w
    have ho := executePhase_outputs m hm phase w
    simp only [executeWorkflow.loop]
    split
    · next e w1 heq => rw [heq] at ho; simp only; rw [ho]; exact List.Subset.refl _
    · next phaseResult w1 heq =>
      rw [heq] at ho
      refine List.Subset.trans ?_ (ih _ _)
      simp only
      rw [ho]
      exact Outputs.keys_subset_set _ _ _

theorem executeWorkflow.loop_keys_bound (m : Methods) (hm : m.ReadOnly) :
    ∀ (phases : List Phase) (acc : List PhaseResult) (w : World) (key : String),
      key ∈ (executeWorkflow.loop m phases acc w).2.2.outputs.keys →
        key ∈ w.outputs.keys ∨ key ∈ phases.map (fun phase => phase.output) := by
  intro phases
  induction phases with
  | nil => intro acc w key h; exact Or.inl h
  | cons phase rest ih =>
    intro acc w key h
    have ho := executePhase_outputs m hm phase w
    simp only [executeWorkflow.loop] at h
    split at h
    · next e w1 heq => rw [heq] at ho; simp only at h; rw [ho] at h; exact Or.inl h
    · next phaseResult w1 heq =>
      rw [heq] at ho
      rcases ih _ _ key h with h1 | h1
      · simp only at h1
        rw [ho] at h1
        rcases Outputs.mem_keys_set _ _ _ _ h1 with h2 | h2
        · exact Or.inl h2
        · exact Or.inr (by simp [h2])
      · exact Or.inr (by simp [h1])

theorem executeWorkflow.loop_commit (m : Methods) (hm : m.ReadOnly) :
    ∀ (phases : List Phase) (acc : List PhaseResult) (w w1 : World) (rs : List PhaseResult),
      (phases.map (fun phase => phase.output)).Nodup →
      executeWorkflow.loop m phases acc w = (none, rs, w1) →
        ∃ new, rs = acc ++ new ∧
          List.Forall₂
            (fun phase phaseResult =>
              w1.outputs.get phase.output = some phaseResult.output ∧
              phaseResult.output = aggregateAgentResults phaseResult.agentResults)
            phases new := by
  intro phases
  induction phases with
  | nil =>
    intro acc w w1 rs _ h
    simp only [executeWorkflow.loop, Prod.mk.injEq, true_and] at h
    exact ⟨[], by simp [h.1], List.Forall₂.nil⟩
  | cons phase rest ih =>
    intro acc w w1 rs hnd h
    simp only [List.map_cons, List.nodup_cons] at hnd
    have hframe := fun acc2 w2 =>
      executeWorkflow.loop_get_of_not_mem m hm phase.output rest acc2 w2 hnd.1
    simp only [executeWorkflow.loop] at h
    split at h
    · simp at h
    · next phaseResult w2 heq =>
      obtain ⟨new, hrs, hall⟩ := ih _ _ _ _ hnd.2 h
      refine ⟨phaseResult :: new, by simp [hrs],
        List.Forall₂.cons ⟨?_, (executePhase_ok m phase w w2 phaseResult heq).2.2.2⟩ hall⟩
      have := hframe (acc ++ [phaseResult])
        { w2 with outputs := w2.outputs.set phase.output phaseResult.output }
      rw [h] at this
      simp only at this
      rw [this, Outputs.get_set_self]

theorem executeWorkflow.loop_trace (m : Methods) :
    ∀ (phases : List Phase) (acc : List PhaseResult) (w w1 : World) (rs : List PhaseResult),
      executeWorkflow.loop m phases acc w = (none, rs, w1) →
        ∃ evs, w1.trace = w.trace ++ evs ∧
          evs.filterMap Event.invokedAgent = phases.flatMap (fun phase => phase.agents) := by
  intro phases
  induction phases with
  | nil =>
    intro acc w w1 rs h
    simp only [executeWorkflow.loop, Prod.mk.injEq, true_and] at h
    exact ⟨[], by simp [h.2], rfl⟩
  | cons phase rest ih =>
    intro acc w w1 rs h
    obtain ⟨e1, ht, _, hok⟩ := executePhase_trace m phase w
    simp only [executeWorkflow.loop] at h
    split at h
    · simp at h
    · next phaseResult w2 heq =>
      rw [heq] at ht hok
      obtain ⟨e2, ht2, hinv⟩ := ih _ _ _ _ h
      refine ⟨e1 ++ e2, ?_, ?_⟩
      · rw [ht2]; simp only; rw [ht, List.append_assoc]
      · rw [List.filterMap_append, (hok phaseResult rfl).1, hinv]
        simp

end AgentWorkflowDemo

/-! ## Workers that never throw -/

namespace AgentWorkflowDemo

theorem simulated_readOnly : simulated.ReadOnly := by
  intro agentName input previousOutputs g
  rfl

theorem simulated_neverThrows : simulated.NeverThrows :=
  ⟨fun _ _ _ _ => ⟨_, rfl⟩, fun _ _ => ⟨_, rfl⟩⟩

theorem failingFor_readOnly (failing : String) (error : JsError) :
    (failingFor failing error).ReadOnly := by
  intro agentName input previousOutputs g
  simp only [failingFor]
  split <;> rfl

theorem executeAgent.resume_total (m : Methods) (hs : m.NeverThrows) (agentName : String)
    (input : JsVal) (w : World) :
    ∃ r, (executeAgent.resume m agentName input w).1 = .ok r := by
  obtain ⟨output, ho⟩ := hs.1 agentName input w.outputs w.rng
  simp only [executeAgent.resume]
  split
  · next e o g heq => rw [heq] at ho; simp at ho
  · next out o g heq =>
    obtain ⟨metrics, hmet⟩ := hs.2 agentName g
    split
    · next e g2 heq2 => rw [heq2] at hmet; simp at hmet
    · exact ⟨_, rfl⟩

theorem executePhase.sequential_total (m : Methods) (hs : m.NeverThrows) (input : JsVal) :
    ∀ (agents : List String) (acc : List AgentResult) (w : World),
      ∃ rs, (executePhase.sequential m input agents acc w).1 = .ok rs := by
  intro agents
  induction agents with
  | nil => intro acc w; exact ⟨acc, rfl⟩
  | cons agent rest ih =>
    intro acc w
    obtain ⟨r, hr⟩ := executeAgent.resume_total m hs agent input
      { (executeAgent.begin m agent input w).2 with
        now := (executeAgent.begin m agent input w).2.now
          + (executeAgent.begin m agent input w).1 }
    simp only [executePhase.sequential]
    split
    · next e w1 heq =>
      simp only [executeAgent] at heq
      rw [heq] at hr
      simp at hr
    · exact ih _ _

theorem executePhase.settle_total (m : Methods) (hs : m.NeverThrows) (input : JsVal) :
    ∀ (pending : List Pending) (acc : List (Nat × AgentResult)) (w : World),
      ∃ settled, (executePhase.settle m input pending acc w).1 = .ok settled := by
  intro pending
  induction pending with
  | nil => intro acc w; exact ⟨acc, rfl⟩
  | cons p rest ih =>
    intro acc w
    obtain ⟨r, hr⟩ := executeAgent.resume_total m hs p.agent input
      { w with now := max w.now p.due }
    simp only [executePhase.settle]
    split
    · next e w1 heq => rw [heq] at hr; simp at hr
    · exact ih _ _

theorem executePhase_total (m : Methods) (hs : m.NeverThrows) (phase : Phase) (w : World) :
    ∃ phaseResult, (executePhase m phase w).1 = .ok phaseResult := by
  obtain ⟨rs, hrs⟩ := executePhase.sequential_total m hs phase.input phase.agents [] w
  obtain ⟨settled, hset⟩ := executePhase.settle_total m hs phase.input
    (executePhase.completionOrder (executePhase.fanOut m phase.input w.now phase.agents 0 w).1)
    [] (executePhase.fanOut m phase.input w.now phase.agents 0 w).2
  simp only [executePhase]
  split
  · next e w1 heq =>
    split at heq
    · simp only [executePhase.parallel] at heq
      split at heq
      · next e2 w2 heq2 => rw [heq2] at hset; simp at hset
      · simp at heq
    · rw [heq] at hrs
      simp at hrs
  · exact ⟨_, rfl⟩

theorem executeWorkflow.loop_total (m : Methods) (hs : m.NeverThrows) :
    ∀ (phases : List Phase) (acc : List PhaseResult) (w : World),
      (executeWorkflow.loop m phases acc w).1 = none := by
  intro phases
  induction phases with
  | nil => intro acc w; rfl
  | cons phase rest ih =>
    intro acc w
    obtain ⟨phaseResult, hp⟩ := executePhase_total m hs phase w
    simp only [executeWorkflow.loop]
    split
    · next e w1 heq => rw [heq] at hp; simp at hp
    · exact ih _ _

theorem executeWorkflow_total (m : Methods) (hs : m.NeverThrows) (workflow : Workflow)
    (w : World) : ∃ results, (executeWorkflow m workflow w).1 = .ok results := by
  have h := executeWorkflow.loop_total m hs workflow.phases [] { w with outputs := [] }
  simp only [executeWorkflow]
  split
  · next e rs w1 heq => rw [heq] at h; simp at h
  · exact ⟨_, rfl⟩

/-! ## The `Map` between two phases -/

theorem executeWorkflow.outputsAfter_step (m : Methods) (workflow : Workflow) (w : World)
    (k : Nat) (after : Outputs)
    (ha : executeWorkflow.outputsAfter m workflow w (k + 1) = some after) :
    ∃ acc1 w1,
      executeWorkflow.loop m (workflow.phases.take k) [] { w with outputs := [] }
        = (none, acc1, w1) ∧
      executeWorkflow.outputsAfter m workflow w k = some w1.outputs ∧
      after = (executeWorkflow.loop m (workflow.phases[k]?).toList acc1 w1).2.2.outputs := by
  simp only [executeWorkflow.outputsAfter, List.take_succ, executeWorkflow.loop_append] at ha
  generalize hrun :
    executeWorkflow.loop m (workflow.phases.take k) [] { w with outputs := [] } = run at ha
  obtain ⟨err, acc1, w1⟩ := run
  cases err with
  | some e => simp at ha
  | none =>
    refine ⟨acc1, w1, rfl, ?_, ?_⟩
    · simp [executeWorkflow.outputsAfter, hrun]
    · simp only at ha
      split at ha
      · next rs w2 heq =>
        simp only [Option.some.injEq] at ha
        rw [heq, ← ha]
      · simp at ha

theorem executeWorkflow.outputsAfter_length (m : Methods) (workflow : Workflow) (w : World)
    (results : WorkflowResult) (h : (executeWorkflow m workflow w).1 = .ok results) :
    executeWorkflow.outputsAfter m workflow w workflow.phases.length = some results.outputs := by
  simp only [executeWorkflow] at h
  simp only [executeWorkflow.outputsAfter, List.take_length]
  split at h
  · simp at h
  · next rs w1 heq =>
    simp only [Except.ok.injEq] at h
    rw [heq, ← h]

end AgentWorkflowDemo

/-! ## The aggregator -/

namespace AgentWorkflowDemo

theorem aggregateAgentResults.foldl_recommendations (agentResults : List AgentResult) :
    ∀ aggregated : Aggregated,
      (agentResults.foldl
        (fun aggregated result =>
          match result.output.recommendations with
          | some recommendations =>
            { aggregated with
              combined_recommendations :=
                aggregated.combined_recommendations ++ recommendations }
          | none => aggregated)
        aggregated).combined_recommendations
        = aggregated.combined_recommendations
          ++ agentResults.flatMap (fun r => r.output.recommendations.getD []) := by
  induction agentResults with
  | nil => intro aggregated; simp
  | cons result rest ih =>
    intro aggregated
    rw [List.foldl_cons, ih]
    cases hrec : result.output.recommendations with
    | none => simp [hrec]
    | some recommendations => simp [hrec]

end AgentWorkflowDemo

/-! ## The complexity classifier -/

/-- C1: `shouldTriggerWaveMode` is true exactly when complexity is at least 0.7, files
exceed 20 and there are more than 2 domains; it is true for (0.9, 30, 5) and for the
context of the application itself (0.9, 45 files, 4 domains), and false as soon as one
threshold fails (files = 20, two domains, or complexity below 0.7). -/
theorem AgentCoordinator.shouldTriggerWaveMode_iff_thresholds :
    (∀ ctx : ProjectContext,
      AgentCoordinator.shouldTriggerWaveMode ctx = true ↔
        ctx.complexity ≥ 7 / 10 ∧ ctx.files > 20 ∧ ctx.domains.length > 2) ∧
    (∀ (name type : String) (linesOfCode : Nat) (criticalSystems : Bool),
      AgentCoordinator.shouldTriggerWaveMode
        ⟨name, type, 9 / 10, ["a", "b", "c", "d", "e"], 30, linesOfCode, criticalSystems⟩
        = true) ∧
    AgentCoordinator.shouldTriggerWaveMode RealWorldAgentApplication.projectContext = true ∧
    (∀ (name type : String) (complexity : ℚ) (domains : List String) (linesOfCode : Nat)
        (criticalSystems : Bool),
      AgentCoordinator.shouldTriggerWaveMode
        ⟨name, type, complexity, domains, 20, linesOfCode, criticalSystems⟩ = false) ∧
    (∀ (name type : String) (complexity : ℚ) (d₁ d₂ : String) (files linesOfCode : Nat)
        (criticalSystems : Bool),
      AgentCoordinator.shouldTriggerWaveMode
        ⟨name, type, complexity, [d₁, d₂], files, linesOfCode, criticalSystems⟩ = false) ∧
    (∀ (name type : String) (domains : List String) (files linesOfCode : Nat)
        (criticalSystems : Bool),
      AgentCoordinator.shouldTriggerWaveMode
        ⟨name, type, 69 / 100, domains, files, linesOfCode, criticalSystems⟩ = false) := by
  have key : ∀ ctx : ProjectContext,
      AgentCoordinator.shouldTriggerWaveMode ctx = true ↔
        ctx.complexity ≥ 7 / 10 ∧ ctx.files > 20 ∧ ctx.domains.length > 2 := by
    intro ctx
    have h : (0.7 : ℚ) = 7 / 10 := by norm_num
    simp [AgentCoordinator.shouldTriggerWaveMode, h, and_assoc]
  have no : ∀ ctx : ProjectContext,
      ¬ (ctx.complexity ≥ 7 / 10 ∧ ctx.files > 20 ∧ ctx.domains.length > 2) →
        AgentCoordinator.shouldTriggerWaveMode ctx = false := by
    intro ctx h
    cases hb : AgentCoordinator.shouldTriggerWaveMode ctx
    · rfl
    · exact absurd ((key ctx).1 hb) h
  refine ⟨key, ?_, ?_, ?_, ?_, ?_⟩
  · intro name type linesOfCode criticalSystems
    rw [key]
    norm_num
  · rw [key]
    norm_num [RealWorldAgentApplication.projectContext]
  · intro name type complexity domains linesOfCode criticalSystems
    apply no
    simp
  · intro name type complexity d₁ d₂ files linesOfCode criticalSystems
    apply no
    simp
  · intro name type domains files linesOfCode criticalSystems
    apply no
    norm_num

/-! ## The coordinator, the scheduler and the aggregator -/

namespace AgentWorkflowDemo

/-- Counterexample to C2 as stated: in a three-phase workflow whose second phase has a
failing worker, `executeWorkflow` throws the error of the worker; it returns no result. -/
theorem executeWorkflow_failure_escapes :
    (executeWorkflow (failingFor "security-auditor" "audit failed") threePhaseWorkflow
      demoWorld).1 = .error "audit failed" ∧
    ¬ ∃ results,
      (executeWorkflow (failingFor "security-auditor" "audit failed") threePhaseWorkflow
        demoWorld).1 = .ok results := by
  have h : (executeWorkflow (failingFor "security-auditor" "audit failed") threePhaseWorkflow
      demoWorld).1 = .error "audit failed" := rfl
  refine ⟨h, ?_⟩
  rintro ⟨results, hr⟩
  rw [h] at hr
  cases hr

theorem executePhase.sequential_of_succeedsFor (m : Methods) (input : JsVal) :
    ∀ (agents : List String) (acc : List AgentResult) (w : World),
      (∀ agent ∈ agents, m.SucceedsFor agent) →
        ∃ rs, (executePhase.sequential m input agents acc w).1 = .ok rs := by
  intro agents
  induction agents with
  | nil => intro acc w _; exact ⟨acc, rfl⟩
  | cons agent rest ih =>
    intro acc w hs
    obtain ⟨r, hr⟩ := hs agent (List.mem_cons_self _ _) input
      { (executeAgent.begin m agent input w).2 with
        now := (executeAgent.begin m agent input w).2.now
          + (executeAgent.begin m agent input w).1 }
    simp only [executePhase.sequential]
    split
    · next e w1 heq =>
      simp only [executeAgent] at heq
      rw [heq] at hr
      simp at hr
    · exact ih _ _ (fun a ha => hs a (List.mem_cons_of_mem _ ha))

theorem executePhase.settle_of_succeedsFor (m : Methods) (input : JsVal) :
    ∀ (pending : List Pending) (acc : List (Nat × AgentResult)) (w : World),
      (∀ p ∈ pending, m.SucceedsFor p.agent) →
        ∃ settled, (executePhase.settle m input pending acc w).1 = .ok settled := by
  intro pending
  induction pending with
  | nil => intro acc w _; exact ⟨acc, rfl⟩
  | cons p rest ih =>
    intro acc w hs
    obtain ⟨r, hr⟩ := hs p (List.mem_cons_self _ _) input { w with now := max w.now p.due }
    simp only [executePhase.settle]
    split
    · next e w1 heq => rw [heq] at hr; simp at hr
    · exact ih _ _ (fun q hq => hs q (List.mem_cons_of_mem _ hq))

theorem executePhase.sequential_of_throwsFor (m : Methods) (input : JsVal) (e : JsError) :
    ∀ (agents : List String) (acc : List AgentResult) (w : World),
      (∃ bad ∈ agents, m.ThrowsFor bad e) →
      (∀ agent ∈ agents, m.SucceedsFor agent ∨ m.ThrowsFor agent e) →
        (executePhase.sequential m input agents acc w).1 = .error e := by
  intro agents
  induction agents with
  | nil =>
    intro acc w hbad _
    obtain ⟨bad, hmem, _⟩ := hbad
    cases hmem
  | cons agent rest ih =>
    intro acc w hbad hall
    simp only [executePhase.sequential]
    rcases hall agent (List.mem_cons_self _ _) with hs | ht
    · obtain ⟨r, hr⟩ := hs input
        { (executeAgent.begin m agent input w).2 with
          now := (executeAgent.begin m agent input w).2.now
            + (executeAgent.begin m agent input w).1 }
      split
      · next e2 w1 heq =>
        simp only [executeAgent] at heq
        rw [heq] at hr
        simp at hr
      · apply ih _ _ _ (fun a ha => hall a (List.mem_cons_of_mem _ ha))
        obtain ⟨bad, hmem, hthrow⟩ := hbad
        rcases List.mem_cons.1 hmem with h1 | h1
        · subst h1
          obtain ⟨output, ho⟩ := hs input w
          rw [hthrow input w] at ho
          cases ho
        · exact ⟨bad, h1, hthrow⟩
    · have hr := ht input
        { (executeAgent.begin m agent input w).2 with
          now := (executeAgent.begin m agent input w).2.now
            + (executeAgent.begin m agent input w).1 }
      split
      · next e2 w1 heq =>
        simp only [executeAgent] at heq
        rw [heq] at hr
        have he : e2 = e := by simpa using hr
        rw [he]
      · next r w1 heq =>
        simp only [executeAgent] at heq
        rw [heq] at hr
        simp at hr

theorem executePhase.settle_of_throwsFor (m : Methods) (input : JsVal) (e : JsError) :
    ∀ (pending : List Pending) (acc : List (Nat × AgentResult)) (w : World),
      (∃ p ∈ pending, m.ThrowsFor p.agent e) →
      (∀ p ∈ pending, m.SucceedsFor p.agent ∨ m.ThrowsFor p.agent e) →
        (executePhase.settle m input pending acc w).1 = .error e := by
  intro pending
  induction pending with
  | nil =>
    intro acc w hbad _
    obtain ⟨bad, hmem, _⟩ := hbad
    cases hmem
  | cons p rest ih =>
    intro acc w hbad hall
    simp only [executePhase.settle]
    rcases hall p (List.mem_cons_self _ _) with hs | ht
    · obtain ⟨r, hr⟩ := hs input { w with now := max w.now p.due }
      split
      · next e2 w1 heq => rw [heq] at hr; simp at hr
      · apply ih _ _ _ (fun q hq => hall q (List.mem_cons_of_mem _ hq))
        obtain ⟨bad, hmem, hthrow⟩ := hbad
        rcases List.mem_cons.1 hmem with h1 | h1
        · subst h1
          obtain ⟨output, ho⟩ := hs input w
          rw [hthrow input w] at ho
          cases ho
        · exact ⟨bad, h1, hthrow⟩
    · have hr := ht input { w with now := max w.now p.due }
      split
      · next e2 w1 heq =>
        rw [heq] at hr
        have he : e2 = e := by simpa using hr
        rw [he]
      · next r w1 heq => rw [heq] at hr; simp at hr

theorem executePhase.fanOut_agents (m : Methods) (input : JsVal) (start : Nat)
    (agents : List String) (index : Nat) (w : World) :
    (executePhase.fanOut m input start agents index w).1.map (fun p => p.agent) = agents := by
  have h := congrArg (List.map Prod.snd)
    (executePhase.fanOut_pending m input start agents index w)
  simpa [List.map_map, Function.comp_def, List.enumFrom_map_snd] using h

theorem executePhase.mem_completionOrder_fanOut (m : Methods) (input : JsVal) (start : Nat)
    (agents : List String) (index : Nat) (w : World) :
    (∀ p ∈ executePhase.completionOrder (executePhase.fanOut m input start agents index w).1,
      p.agent ∈ agents) ∧
    (∀ agent ∈ agents,
      ∃ p ∈ executePhase.completionOrder (executePhase.fanOut m input start agents index w).1,
        p.agent = agent) := by
  have hmap := executePhase.fanOut_agents m input start agents index w
  have hperm : ∀ p,
      p ∈ executePhase.completionOrder (executePhase.fanOut m input start agents index w).1
        ↔ p ∈ (executePhase.fanOut m input start agents index w).1 :=
    fun p => (List.perm_insertionSort _ _).mem_iff
  constructor
  · intro p hp
    rw [← hmap]
    exact List.mem_map.2 ⟨p, (hperm p).1 hp, rfl⟩
  · intro agent ha
    rw [← hmap] at ha
    obtain ⟨p, hp, hpa⟩ := List.mem_map.1 ha
    exact ⟨p, (hperm p).2 hp, hpa⟩

theorem executePhase_of_succeedsFor (m : Methods) (phase : Phase) (w : World)
    (hs : ∀ agent ∈ phase.agents, m.SucceedsFor agent) :
    ∃ phaseResult, (executePhase m phase w).1 = .ok phaseResult := by
  obtain ⟨rs, hrs⟩ := executePhase.sequential_of_succeedsFor m phase.input phase.agents [] w hs
  obtain ⟨hmem, _⟩ :=
    executePhase.mem_completionOrder_fanOut m phase.input w.now phase.agents 0 w
  obtain ⟨settled, hset⟩ := executePhase.settle_of_succeedsFor m phase.input
    (executePhase.completionOrder (executePhase.fanOut m phase.input w.now phase.agents 0 w).1)
    [] (executePhase.fanOut m phase.input w.now phase.agents 0 w).2
    (fun p hp => hs _ (hmem p hp))
  simp only [executePhase]
  split
  · next e w1 heq =>
    split at heq
    · simp only [executePhase.parallel] at heq
      split at heq
      · next e2 w2 heq2 => rw [heq2] at hset; simp at hset
      · simp at heq
    · rw [heq] at hrs
      simp at hrs
  · exact ⟨_, rfl⟩

theorem executePhase_of_throwsFor (m : Methods) (phase : Phase) (w : World) (bad : String)
    (e : JsError) (hbad : bad ∈ phase.agents) (ht : m.ThrowsFor bad e)
    (hall : ∀ agent ∈ phase.agents, m.SucceedsFor agent ∨ m.ThrowsFor agent e) :
    (executePhase m phase w).1 = .error e := by
  have hseq := executePhase.sequential_of_throwsFor m phase.input e phase.agents [] w
    ⟨bad, hbad, ht⟩ hall
  obtain ⟨hmem, hex⟩ :=
    executePhase.mem_completionOrder_fanOut m phase.input w.now phase.agents 0 w
  have hset := executePhase.settle_of_throwsFor m phase.input e
    (executePhase.completionOrder (executePhase.fanOut m phase.input w.now phase.agents 0 w).1)
    [] (executePhase.fanOut m phase.input w.now phase.agents 0 w).2
    (by
      obtain ⟨p, hp, hpa⟩ := hex bad hbad
      exact ⟨p, hp, by rw [hpa]; exact ht⟩)
    (fun p hp => hall _ (hmem p hp))
  simp only [executePhase]
  split
  · next e2 w1 heq =>
    split at heq
    · simp only [executePhase.parallel] at heq
      split at heq
      · next e3 w2 heq2 =>
        rw [heq2] at hset
        simp only [Prod.mk.injEq, Except.error.injEq] at heq
        have he : e3 = e := by simpa using hset
        rw [← heq.1, he]
      · simp at heq
    · rw [heq] at hseq
      have he : e2 = e := by simpa using hseq
      rw [he]
  · next rs w1 heq =>
    split at heq
    · simp only [executePhase.parallel] at heq
      split at heq
      · simp at heq
      · next settled w2 heq2 => rw [heq2] at hset; simp at hset
    · rw [heq] at hseq
      simp at hseq

theorem executeWorkflow.loop_of_succeedsFor (m : Methods) :
    ∀ (phases : List Phase) (acc : List PhaseResult) (w : World),
      (∀ phase ∈ phases, ∀ agent ∈ phase.agents, m.SucceedsFor agent) →
        (executeWorkflow.loop m phases acc w).1 = none := by
  intro phases
  induction phases with
  | nil => intro acc w _; rfl
  | cons phase rest ih =>
    intro acc w hs
    obtain ⟨phaseResult, hp⟩ := executePhase_of_succeedsFor m phase w
      (hs phase (List.mem_cons_self _ _))
    simp only [executeWorkflow.loop]
    split
    · next e w1 heq => rw [heq] at hp; simp at hp
    · exact ih _ _ (fun p hp2 => hs p (List.mem_cons_of_mem _ hp2))

theorem failingFor_throwsFor (failing : String) (error : JsError) :
    (failingFor failing error).ThrowsFor failing error := by
  intro input w
  simp [executeAgent.resume, failingFor]

theorem failingFor_succeedsFor (failing : String) (error : JsError) (agentName : String)
    (h : agentName ≠ failing) : (failingFor failing error).SucceedsFor agentName := by
  intro input w
  simp only [executeAgent.resume, failingFor, if_neg h]
  exact ⟨_, rfl⟩

/-- C2, as the code has it: when every worker of the phases of `before` succeeds and a
worker `bad` of the next phase fails with `e`, the other workers of that phase succeeding
or failing with `e` as well, then, be that phase sequential or parallel, `executeWorkflow`
throws `e` to its caller and returns no result. When the loop is left, `results.phases`
holds exactly the results of the phases of `before`, one for each and under their names,
and, no worker writing to the `Map`, the `Map` is as those phases left it, with keys only
among their output keys. -/
theorem executeWorkflow_fail_fast_raises (m : Methods) (hm : m.ReadOnly)
    (workflow : Workflow) (w : World) (before : List Phase) (failing : Phase)
    (after : List Phase) (bad : String) (e : JsError)
    (hphases : workflow.phases = before ++ failing :: after)
    (hbefore : ∀ phase ∈ before, ∀ agent ∈ phase.agents, m.SucceedsFor agent)
    (hbad : bad ∈ failing.agents) (hthrows : m.ThrowsFor bad e)
    (hothers : ∀ agent ∈ failing.agents, m.SucceedsFor agent ∨ m.ThrowsFor agent e) :
    (executeWorkflow m workflow w).1 = .error e ∧
    (¬ ∃ results, (executeWorkflow m workflow w).1 = .ok results) ∧
    (executeWorkflow.loop m before [] { w with outputs := [] }).1 = none ∧
    (executeWorkflow.loop m workflow.phases [] { w with outputs := [] }).2.1
      = (executeWorkflow.loop m before [] { w with outputs := [] }).2.1 ∧
    (executeWorkflow.loop m workflow.phases [] { w with outputs := [] }).2.1.length
      = before.length ∧
    (executeWorkflow.loop m workflow.phases [] { w with outputs := [] }).2.1.map
        (fun p => p.phase)
      = before.map (fun p => p.phase) ∧
    (executeWorkflow m workflow w).2.outputs
      = (executeWorkflow.loop m before [] { w with outputs := [] }).2.2.outputs ∧
    ∀ key ∈ (executeWorkflow m workflow w).2.outputs.keys,
      key ∈ before.map (fun p => p.output) := by
  have hbefore1 := executeWorkflow.loop_of_succeedsFor m before [] { w with outputs := [] }
    hbefore
  have hfail := executePhase_of_throwsFor m failing
    (executeWorkflow.loop m before [] { w with outputs := [] }).2.2 bad e hbad hthrows hothers
  have hbound := executeWorkflow.loop_keys_bound m hm before [] { w with outputs := [] }
  have hframe := executePhase_outputs m hm failing
    (executeWorkflow.loop m before [] { w with outputs := [] }).2.2
  generalize hrun : executeWorkflow.loop m before [] { w with outputs := [] } = run
    at hbefore1 hfail hbound hframe
  obtain ⟨err, committed, w1⟩ := run
  simp only at hbefore1 hfail hbound hframe
  subst hbefore1
  obtain ⟨new, hnew, hall⟩ := executeWorkflow.loop_ok m _ _ _ _ _ hrun
  generalize hph : executePhase m failing w1 = failed at hfail hframe
  obtain ⟨res, w2⟩ := failed
  simp only at hfail hframe
  subst hfail
  have hloop : executeWorkflow.loop m workflow.phases [] { w with outputs := [] }
      = (some e, committed, w2) := by
    rw [hphases, executeWorkflow.loop_append, hrun]
    simp only [executeWorkflow.loop, hph]
  have hwf : executeWorkflow m workflow w = (.error e, w2) := by
    simp only [executeWorkflow, hloop]
  rw [hwf, hloop]
  rw [List.nil_append] at hnew
  subst hnew
  refine ⟨rfl, ?_, rfl, rfl, hall.length_eq.symm, ?_, hframe, ?_⟩
  · rintro ⟨results, hr⟩
    cases hr
  · exact executeWorkflow.phase_names_of_forall₂ _ _ _ hall (fun _ _ hR => hR.1)
  · intro key hkey
    simp only at hkey
    rw [hframe] at hkey
    rcases hbound key hkey with h1 | h1
    · simp [Outputs.keys] at h1
    · exact h1

/-- Witness for C2 as amended, once with a sequential and once with a parallel failing
phase. In the three-phase workflow the first phase is committed, the second (sequential)
has the failing worker, the third never runs. In the security audit workflow the first two
phases are committed and the third, which is parallel, has the failing worker. -/
theorem executeWorkflow_fail_fast_raises_witness :
    ((executeWorkflow (failingFor "security-auditor" "audit failed") threePhaseWorkflow
        demoWorld).1 = .error "audit failed" ∧
      (executeWorkflow.loop (failingFor "security-auditor" "audit failed")
        threePhaseWorkflow.phases [] { demoWorld with outputs := [] }).2.1.map
          (fun p => p.phase) = ["analysis"] ∧
      (executeWorkflow (failingFor "security-auditor" "audit failed") threePhaseWorkflow
        demoWorld).2.outputs.keys = ["architecture_plan"]) ∧
    ((securityAuditWorkflow.workflow systemComponents).phases[2]?).map
        (fun p => (p.parallelTruthy, p.agents))
      = some (true, ["security-hardening", "architecture-analyst"]) ∧
    ((executeWorkflow (failingFor "security-hardening" "hardening failed")
        (securityAuditWorkflow.workflow systemComponents) demoWorld).1
        = .error "hardening failed" ∧
      (executeWorkflow.loop (failingFor "security-hardening" "hardening failed")
        (securityAuditWorkflow.workflow systemComponents).phases []
          { demoWorld with outputs := [] }).2.1.map (fun p => p.phase)
        = ["reconnaissance", "vulnerability_assessment"] ∧
      (executeWorkflow (failingFor "security-hardening" "hardening failed")
        (securityAuditWorkflow.workflow systemComponents) demoWorld).2.outputs.keys
        = ["system_mapping", "vulnerability_report"]) := by
  have hseq := executeWorkflow_fail_fast_raises (failingFor "security-auditor" "audit failed")
    (failingFor_readOnly _ _) threePhaseWorkflow demoWorld
    (threePhaseWorkflow.phases.take 1) securityReviewPhase
    (threePhaseWorkflow.phases.drop 2) "security-auditor" "audit failed" rfl
    (by
      intro phase hp agent ha
      simp only [threePhaseWorkflow, newFeatureWorkflow.workflow, List.take,
        List.mem_singleton] at hp
      subst hp
      simp only [List.mem_singleton] at ha
      subst ha
      exact failingFor_succeedsFor _ _ _ (by decide))
    (by decide) (failingFor_throwsFor _ _)
    (by
      intro agent ha
      simp only [securityReviewPhase, List.mem_singleton] at ha
      subst ha
      exact Or.inr (failingFor_throwsFor _ _))
  have hpar := executeWorkflow_fail_fast_raises
    (failingFor "security-hardening" "hardening failed")
    (failingFor_readOnly _ _) (securityAuditWorkflow.workflow systemComponents) demoWorld
    ((securityAuditWorkflow.workflow systemComponents).phases.take 2)
    { phase := "remediation_planning", agents := ["security-hardening", "architecture-analyst"],
      input := .str "vulnerability_report", output := "remediation_plan",
      parallel := some true }
    ((securityAuditWorkflow.workflow systemComponents).phases.drop 3)
    "security-hardening" "hardening failed" rfl
    (by
      intro phase hp agent ha
      simp only [securityAuditWorkflow.workflow, List.take, List.mem_cons,
        List.mem_singleton, List.not_mem_nil, or_false] at hp
      rcases hp with hp | hp <;> subst hp <;> simp only [List.mem_singleton] at ha <;>
        subst ha <;> exact failingFor_succeedsFor _ _ _ (by decide))
    (by decide) (failingFor_throwsFor _ _)
    (by
      intro agent ha
      simp only [List.mem_cons, List.mem_singleton, List.not_mem_nil, or_false] at ha
      rcases ha with ha | ha <;> subst ha
      · exact Or.inr (failingFor_throwsFor _ _)
      · exact Or.inl (failingFor_succeedsFor _ _ _ (by decide)))
  exact ⟨⟨hseq.1, by decide, by decide⟩, rfl, ⟨hpar.1, by decide, by decide⟩⟩

/-- C3: whether `phase.parallel` is set or not, when every worker succeeds the
`agentResults` of `executePhase` have the length of `phase.agents` and the result at each
index is that of the agent declared at that index, whatever order the workers finished
in. -/
theorem executePhase_agentResults_declaration_order (m : Methods) (phase : Phase) (w : World)
    (phaseResult : PhaseResult) (h : (executePhase m phase w).1 = .ok phaseResult) :
    phaseResult.agentResults.length = phase.agents.length ∧
    (∀ i : Nat, (phaseResult.agentResults[i]?).map (fun r => r.agent) = phase.agents[i]?) ∧
    phaseResult.agentResults.map (fun r => r.agent) = phase.agents := by
  have hmap : phaseResult.agentResults.map (fun r => r.agent) = phase.agents :=
    (executePhase_ok m phase w (executePhase m phase w).2 phaseResult
      (by rw [← h])).2.2.1
  refine ⟨?_, ?_, hmap⟩
  · rw [← hmap, List.length_map]
  · intro i
    rw [← hmap, List.getElem?_map]

/-- Witness for C3: three workers of a parallel phase finish in the reverse of their
declaration order, and their results are in declaration order. -/
theorem executePhase_agentResults_declaration_order_witness :
    (executePhase simulated reversedPhase demoWorld).1 = .ok reversedPhaseResult ∧
    (executePhase simulated reversedPhase demoWorld).2.trace.filterMap Event.workedAgent
      = ["security-auditor", "performance-optimizer", "test-engineer"] ∧
    reversedPhaseResult.agentResults.map (fun r => r.agent)
      = ["test-engineer", "performance-optimizer", "security-auditor"] :=
  ⟨rfl, by decide,
    (executePhase_agentResults_declaration_order simulated reversedPhase demoWorld
      reversedPhaseResult rfl).2.2⟩

theorem executeWorkflow.loop_prefix (m : Methods) (xs ys : List Phase)
    (acc : List PhaseResult) (w w1 : World) (rs : List PhaseResult)
    (h : executeWorkflow.loop m (xs ++ ys) acc w = (none, rs, w1)) :
    ∃ acc1 w2, executeWorkflow.loop m xs acc w = (none, acc1, w2) ∧
      executeWorkflow.loop m ys acc1 w2 = (none, rs, w1) := by
  rw [executeWorkflow.loop_append] at h
  generalize hrun : executeWorkflow.loop m xs acc w = run at h
  obtain ⟨err, acc1, w2⟩ := run
  cases err with
  | some e => simp at h
  | none => exact ⟨acc1, w2, rfl, h⟩

theorem executeWorkflow.loop_length (m : Methods) (phases : List Phase)
    (acc : List PhaseResult) (w w1 : World) (rs : List PhaseResult)
    (h : executeWorkflow.loop m phases acc w = (none, rs, w1)) :
    ∃ new, rs = acc ++ new ∧ new.length = phases.length := by
  obtain ⟨new, hrs, hall⟩ := executeWorkflow.loop_ok m _ _ _ _ _ h
  exact ⟨new, hrs, hall.length_eq.symm⟩

theorem executeWorkflow.loop_single (m : Methods) (phase : Phase)
    (acc : List PhaseResult) (w w1 : World) (rs : List PhaseResult)
    (h : executeWorkflow.loop m [phase] acc w = (none, rs, w1)) :
    ∃ phaseResult, rs = acc ++ [phaseResult] ∧
      w1.outputs.get phase.output = some phaseResult.output := by
  simp only [executeWorkflow.loop] at h
  split at h
  · simp at h
  · next phaseResult w2 heq =>
    simp only [Prod.mk.injEq, true_and] at h
    refine ⟨phaseResult, h.1.symm, ?_⟩
    rw [← h.2]
    exact Outputs.get_set_self _ _ _

theorem executeWorkflow.loop_committed_at (m : Methods) (phases : List Phase) (w w1 : World)
    (rs : List PhaseResult) (h : executeWorkflow.loop m phases [] w = (none, rs, w1))
    (k : Nat) (phase : Phase) (phaseResult : PhaseResult)
    (hk : phases[k]? = some phase) (hr : rs[k]? = some phaseResult) :
    ∃ acc1 w2, executeWorkflow.loop m (phases.take (k + 1)) [] w = (none, acc1, w2) ∧
      w2.outputs.get phase.output = some phaseResult.output := by
  have hlt : k < phases.length := by
    rcases Nat.lt_or_ge k phases.length with h1 | h1
    · exact h1
    · rw [List.getElem?_eq_none h1] at hk; cases hk
  have hsplit : phases = phases.take k ++ ([phase] ++ phases.drop (k + 1)) := by
    have h1 : phases[k] = phase := by
      rw [List.getElem?_eq_getElem hlt] at hk
      exact Option.some.inj hk
    rw [List.singleton_append, ← h1, ← List.drop_eq_getElem_cons hlt,
      List.take_append_drop]
  have htake : phases.take (k + 1) = phases.take k ++ [phase] := by
    rw [List.take_succ, hk]
    rfl
  have h' := h
  rw [hsplit] at h'
  obtain ⟨acc0, w0, h0, hrest⟩ :=
    executeWorkflow.loop_prefix m _ _ _ _ _ _ h'
  obtain ⟨acc1, w2, h1, h2⟩ := executeWorkflow.loop_prefix m _ _ _ _ _ _ hrest
  obtain ⟨pr, hacc1, hget⟩ := executeWorkflow.loop_single m phase _ _ _ _ h1
  obtain ⟨new0, hn0, hl0⟩ := executeWorkflow.loop_length m _ _ _ _ _ h0
  obtain ⟨new2, hn2, _⟩ := executeWorkflow.loop_length m _ _ _ _ _ h2
  have hlen0 : acc0.length = k := by
    rw [hn0, List.nil_append, hl0, List.length_take]
    omega
  have hpr : pr = phaseResult := by
    have : rs[k]? = some pr := by
      rw [hn2, hacc1, List.append_assoc, List.getElem?_append_right (by omega), hlen0]
      simp
    rw [this] at hr
    exact Option.some.inj hr
  subst hpr
  refine ⟨acc1, w2, ?_, hget⟩
  rw [htake, executeWorkflow.loop_append, h0]
  exact h1

/-- C4: when every worker succeeds, `executeWorkflow` returns as many phase results as the
workflow declares phases, the result at each index is that of the phase declared at that
index, and the workers were started phase after phase in declaration order. The phases
are committed in that order too: the `Map` returned is the `Map` after the last phase;
once the first `k + 1` phases have run, the `Map` holds the output of the phase result at
index `k` under the output key of the phase declared at index `k`; and, when no worker
writes to the `Map`, after `k` phases the `Map` has keys only among the output keys of the
first `k` phases, so that no phase is committed before its turn. -/
theorem executeWorkflow_phases_declaration_order (m : Methods) (workflow : Workflow)
    (w : World) (results : WorkflowResult)
    (h : (executeWorkflow m workflow w).1 = .ok results) :
    results.phases.length = workflow.phases.length ∧
    (∀ i : Nat,
      (results.phases[i]?).map (fun p => p.phase)
        = (workflow.phases[i]?).map (fun p => p.phase)) ∧
    results.phases.map (fun p => p.phase) = workflow.phases.map (fun p => p.phase) ∧
    ((executeWorkflow m workflow w).2.trace.drop w.trace.length).filterMap Event.invokedAgent
      = workflow.phases.flatMap (fun p => p.agents) ∧
    executeWorkflow.outputsAfter m workflow w workflow.phases.length = some results.outputs ∧
    (∀ (k : Nat) (phase : Phase) (phaseResult : PhaseResult),
      workflow.phases[k]? = some phase → results.phases[k]? = some phaseResult →
        ∃ committed, executeWorkflow.outputsAfter m workflow w (k + 1) = some committed ∧
          committed.get phase.output = some phaseResult.output) ∧
    (m.ReadOnly → ∀ k : Nat, k ≤ workflow.phases.length →
      ∃ committed, executeWorkflow.outputsAfter m workflow w k = some committed ∧
        ∀ key ∈ committed.keys, key ∈ (workflow.phases.take k).map (fun p => p.output)) := by
  have hlast := executeWorkflow.outputsAfter_length m workflow w results h
  simp only [executeWorkflow] at h ⊢
  split at h
  · simp at h
  · next rs w1 heq =>
    simp only [Except.ok.injEq] at h
    obtain ⟨new, hrs, hall⟩ := executeWorkflow.loop_ok m _ _ _ _ _ heq
    obtain ⟨evs, ht, hinv⟩ := executeWorkflow.loop_trace m _ _ _ _ _ heq
    rw [List.nil_append] at hrs
    subst hrs
    have hmap : rs.map (fun p => p.phase) = workflow.phases.map (fun p => p.phase) :=
      executeWorkflow.phase_names_of_forall₂ _ _ _ hall (fun _ _ hR => hR.1)
    have hphases : results.phases = rs := by rw [← h]
    rw [hphases]
    refine ⟨hall.length_eq.symm, ?_, hmap, ?_, hlast, ?_, ?_⟩
    · intro i
      rw [← List.getElem?_map, ← List.getElem?_map, hmap]
    · simp only at ht ⊢
      rw [ht, List.drop_left, hinv]
    · intro k phase phaseResult hk hr
      obtain ⟨acc1, w2, hrun, hget⟩ :=
        executeWorkflow.loop_committed_at m _ _ _ _ heq k phase phaseResult hk hr
      refine ⟨w2.outputs, ?_, hget⟩
      simp only [executeWorkflow.outputsAfter, hrun]
    · intro hm k _
      have hsplit : workflow.phases = workflow.phases.take k ++ workflow.phases.drop k :=
        (List.take_append_drop k _).symm
      have heq2 := heq
      rw [hsplit] at heq2
      obtain ⟨acc1, w2, hrun, _⟩ := executeWorkflow.loop_prefix m _ _ _ _ _ _ heq2
      have hbound := executeWorkflow.loop_keys_bound m hm (workflow.phases.take k) []
        { w with outputs := [] }
      rw [hrun] at hbound
      refine ⟨w2.outputs, ?_, ?_⟩
      · simp only [executeWorkflow.outputsAfter, hrun]
      · intro key hkey
        rcases hbound key hkey with h1 | h1
        · simp [Outputs.keys] at h1
        · exact h1

/-- Witness for C4: the security audit workflow of the source. Its four phases are
committed in declaration order: after two phases the `Map` has the keys of the first two,
and the output of the second phase result is under the key `vulnerability_report`. -/
theorem executeWorkflow_phases_declaration_order_witness :
    (executeWorkflow simulated (securityAuditWorkflow.workflow systemComponents) demoWorld).1
      = .ok securityAuditResult ∧
    securityAuditResult.phases.map (fun p => p.phase)
      = ["reconnaissance", "vulnerability_assessment", "remediation_planning", "validation"] ∧
    securityAuditResult.outputs.keys
      = ["system_mapping", "vulnerability_report", "remediation_plan",
          "security_validation"] ∧
    securityAuditOutputsAfterTwo.keys = ["system_mapping", "vulnerability_report"] ∧
    (∀ phaseResult, securityAuditResult.phases[1]? = some phaseResult →
      ∃ committed,
        executeWorkflow.outputsAfter simulated
          (securityAuditWorkflow.workflow systemComponents) demoWorld 2 = some committed ∧
        committed.get "vulnerability_report" = some phaseResult.output) :=
  ⟨rfl,
    (executeWorkflow_phases_declaration_order simulated
      (securityAuditWorkflow.workflow systemComponents) demoWorld securityAuditResult
      rfl).2.2.1,
    by decide, by decide,
    fun phaseResult hr =>
      (executeWorkflow_phases_declaration_order simulated
        (securityAuditWorkflow.workflow systemComponents) demoWorld securityAuditResult
        rfl).2.2.2.2.2.1 1 vulnerabilityAssessmentPhase phaseResult rfl hr⟩

/-- C5: when every worker succeeds, no worker writes to the `Map` and the phases declare
pairwise distinct output keys, the `outputs` of the result of `executeWorkflow` send each
output key of a phase to the output of its phase result, which is `aggregateAgentResults`
of the `agentResults` of that phase result. -/
theorem executeWorkflow_commits_under_output_key (m : Methods) (hm : m.ReadOnly)
    (workflow : Workflow) (w : World) (results : WorkflowResult)
    (h : (executeWorkflow m workflow w).1 = .ok results)
    (hkeys : (workflow.phases.map (fun p => p.output)).Nodup) :
    List.Forall₂
      (fun phase phaseResult =>
        results.outputs.get phase.output = some phaseResult.output ∧
        phaseResult.output = aggregateAgentResults phaseResult.agentResults)
      workflow.phases results.phases := by
  simp only [executeWorkflow] at h
  split at h
  · simp at h
  · next rs w1 heq =>
    simp only [Except.ok.injEq] at h
    obtain ⟨new, hrs, hall⟩ := executeWorkflow.loop_commit m hm _ _ _ _ _ hkeys heq
    rw [List.nil_append] at hrs
    subst hrs
    rw [← h]
    exact hall

/-- Witness for C5: the security audit workflow of the source, whose four output keys
differ. -/
theorem executeWorkflow_commits_under_output_key_witness :
    simulated.ReadOnly ∧
    (executeWorkflow simulated (securityAuditWorkflow.workflow systemComponents) demoWorld).1
      = .ok securityAuditResult ∧
    ((securityAuditWorkflow.workflow systemComponents).phases.map (fun p => p.output)).Nodup ∧
    List.Forall₂
      (fun phase phaseResult =>
        securityAuditResult.outputs.get phase.output = some phaseResult.output ∧
        phaseResult.output = aggregateAgentResults phaseResult.agentResults)
      (securityAuditWorkflow.workflow systemComponents).phases securityAuditResult.phases :=
  ⟨simulated_readOnly, rfl, by decide,
    executeWorkflow_commits_under_output_key simulated simulated_readOnly
      (securityAuditWorkflow.workflow systemComponents) demoWorld securityAuditResult rfl
      (by decide)⟩

/-- C6: when no worker writes to the `Map`, the keys of the `Map` after phase `k` of
`executeWorkflow` are among its keys after phase `k + 1`: committing a phase removes no
key. -/
theorem executeWorkflow_outputs_keys_monotone (m : Methods) (hm : m.ReadOnly)
    (workflow : Workflow) (w : World) (k : Nat) (after : Outputs)
    (ha : executeWorkflow.outputsAfter m workflow w (k + 1) = some after) :
    ∃ before, executeWorkflow.outputsAfter m workflow w k = some before ∧
      before.keys ⊆ after.keys := by
  obtain ⟨acc1, w1, _, hb, hafter⟩ := executeWorkflow.outputsAfter_step m workflow w k after ha
  refine ⟨w1.outputs, hb, ?_⟩
  rw [hafter]
  exact executeWorkflow.loop_keys_subset m hm _ _ _

/-- Witness for C6: the `Map` of the security audit workflow after one and after two
phases. -/
theorem executeWorkflow_outputs_keys_monotone_witness :
    simulated.ReadOnly ∧
    executeWorkflow.outputsAfter simulated (securityAuditWorkflow.workflow systemComponents)
      demoWorld 2 = some securityAuditOutputsAfterTwo ∧
    securityAuditOutputsAfterTwo.keys = ["system_mapping", "vulnerability_report"] ∧
    ∃ before,
      executeWorkflow.outputsAfter simulated (securityAuditWorkflow.workflow systemComponents)
        demoWorld 1 = some before ∧
      before.keys ⊆ securityAuditOutputsAfterTwo.keys :=
  ⟨simulated_readOnly, by decide, by decide,
    executeWorkflow_outputs_keys_monotone simulated simulated_readOnly
      (securityAuditWorkflow.workflow systemComponents) demoWorld 1
      securityAuditOutputsAfterTwo (by decide)⟩

/-- C7, as the code has it: when no worker writes to the `Map` and the phases declare
pairwise distinct output keys, every key present in the `Map` after phase `k` of
`executeWorkflow` has the same value after phase `k + 1`. -/
theorem executeWorkflow_outputs_not_overwritten (m : Methods) (hm : m.ReadOnly)
    (workflow : Workflow) (w : World) (k : Nat) (after : Outputs)
    (hkeys : (workflow.phases.map (fun p => p.output)).Nodup)
    (ha : executeWorkflow.outputsAfter m workflow w (k + 1) = some after) :
    ∃ before, executeWorkflow.outputsAfter m workflow w k = some before ∧
      ∀ key value, before.get key = some value → after.get key = some value := by
  obtain ⟨acc1, w1, hrun, hb, hafter⟩ :=
    executeWorkflow.outputsAfter_step m workflow w k after ha
  refine ⟨w1.outputs, hb, ?_⟩
  intro key value hget
  have hmem : key ∈ (workflow.phases.take k).map (fun p => p.output) := by
    have h1 := executeWorkflow.loop_keys_bound m hm (workflow.phases.take k) []
      { w with outputs := [] } key
    rw [hrun] at h1
    rcases h1 (Outputs.mem_keys_of_get _ _ _ hget) with h2 | h2
    · simp [Outputs.keys] at h2
    · exact h2
  have hnot : key ∉ ((workflow.phases[k]?).toList).map (fun p => p.output) := by
    intro hin
    have hsplit : workflow.phases.take k ++ (workflow.phases[k]?).toList
        ++ workflow.phases.drop (k + 1) = workflow.phases := by
      rw [← List.take_succ, List.take_append_drop]
    rw [← hsplit, List.map_append, List.map_append, List.append_assoc] at hkeys
    exact (List.nodup_append.1 hkeys).2.2 hmem (List.mem_append_left _ hin)
  rw [hafter, executeWorkflow.loop_get_of_not_mem m hm key _ _ _ hnot]
  exact hget

/-- Witness for C7 as amended: the `Map` of the security audit workflow after one and after
two phases. -/
theorem executeWorkflow_outputs_not_overwritten_witness :
    simulated.ReadOnly ∧
    ((securityAuditWorkflow.workflow systemComponents).phases.map (fun p => p.output)).Nodup ∧
    executeWorkflow.outputsAfter simulated (securityAuditWorkflow.workflow systemComponents)
      demoWorld 2 = some securityAuditOutputsAfterTwo ∧
    ∃ before,
      executeWorkflow.outputsAfter simulated (securityAuditWorkflow.workflow systemComponents)
        demoWorld 1 = some before ∧
      ∀ key value, before.get key = some value →
        securityAuditOutputsAfterTwo.get key = some value :=
  ⟨simulated_readOnly, by decide, by decide,
    executeWorkflow_outputs_not_overwritten simulated simulated_readOnly
      (securityAuditWorkflow.workflow systemComponents) demoWorld 1
      securityAuditOutputsAfterTwo (by decide) (by decide)⟩

/-- Counterexample to C7 as stated: two phases declare the output key `report`; the value
under `report` after the first phase is replaced by the second phase. -/
theorem executeWorkflow_outputs_overwritten_on_shared_key :
    (executeWorkflow.outputsAfter simulated sharedKeyWorkflow demoWorld 1).bind
        (fun o => o.get "report")
      = some
          { agent_count := 1
            total_duration := 0
            combined_recommendations :=
              ["Improve error handling", "Add input validation", "Enhance documentation"]
            priority_matrix := [] } ∧
    (executeWorkflow.outputsAfter simulated sharedKeyWorkflow demoWorld 2).bind
        (fun o => o.get "report")
      = some
          { agent_count := 1
            total_duration := 0
            combined_recommendations :=
              ["Fix authentication", "Implement encryption", "Add audit logging"]
            priority_matrix := [] } := by
  constructor <;> decide

/-- C8: with the workers of the source, `executePhase` leaves the `Map` it is given as it
found it, every worker returns, every step of every worker (parallel or sequential) is
made with the phase input and with the contents the `Map` had before the phase started,
every declared agent is started in declaration order and does its work exactly once. -/
theorem executePhase_workers_see_prior_outputs (phase : Phase) (w : World) :
    (executePhase simulated phase w).2.outputs = w.outputs ∧
    (∃ phaseResult, (executePhase simulated phase w).1 = .ok phaseResult) ∧
    ∃ evs, (executePhase simulated phase w).2.trace = w.trace ++ evs ∧
      (∀ ev ∈ evs, ev.Carries phase.input w.outputs) ∧
      evs.filterMap Event.invokedAgent = phase.agents ∧
      (evs.filterMap Event.workedAgent).Perm phase.agents := by
  obtain ⟨phaseResult, hok⟩ := executePhase_total simulated simulated_neverThrows phase w
  obtain ⟨evs, ht, hcarries, hagents⟩ := executePhase_trace simulated phase w
  exact ⟨executePhase_outputs simulated simulated_readOnly phase w, ⟨phaseResult, hok⟩,
    evs, ht, hcarries simulated_readOnly, hagents phaseResult hok⟩

/-- C9: in a sequential phase whose agents are `before ++ failing :: after`, where the
workers of `before` succeed and the worker `failing` then throws `e`, `executePhase` throws
`e`, has started exactly the agents of `before` and then `failing`, in that order, and
leaves the state as the failing worker left it. -/
theorem executePhase_sequential_short_circuit (m : Methods) (phase : Phase) (w : World)
    (before : List String) (failing : String) (after : List String) (e : JsError)
    (hseq : phase.parallelTruthy = false)
    (hagents : phase.agents = before ++ failing :: after)
    (hbefore : (executePhase.sequential m phase.input before [] w).1.isOk = true)
    (hfail : (executeAgent m failing phase.input
      (executePhase.sequential m phase.input before [] w).2).1 = .error e) :
    (executePhase m phase w).1 = .error e ∧
    ((executePhase m phase w).2.trace.drop w.trace.length).filterMap Event.invokedAgent
      = before ++ [failing] ∧
    (executePhase m phase w).2
      = (executeAgent m failing phase.input
          (executePhase.sequential m phase.input before [] w).2).2 := by
  obtain ⟨evs, ht, _, hstarted⟩ := executePhase.sequential_trace m phase.input before [] w
  have htf := executeAgent_trace m failing phase.input
    (executePhase.sequential m phase.input before [] w).2
  generalize hrun : executePhase.sequential m phase.input before [] w = run
    at hbefore hfail ht hstarted htf
  obtain ⟨res, w1⟩ := run
  cases res with
  | error e1 => simp [Except.isOk, Except.toBool] at hbefore
  | ok done =>
    simp only at hfail ht hstarted htf ⊢
    generalize hag : executeAgent m failing phase.input w1 = failed at hfail htf
    obtain ⟨res2, w2⟩ := failed
    simp only at hfail htf
    subst hfail
    have hphase : executePhase m phase w = (.error e, w2) := by
      simp only [executePhase, hseq, Bool.false_eq_true, if_false, hagents,
        executePhase.sequential_append, hrun, executePhase.sequential, hag]
    rw [hphase]
    refine ⟨rfl, ?_, rfl⟩
    simp only
    rw [htf, ht, List.append_assoc, List.drop_left, List.filterMap_append,
      (hstarted done rfl).1]
    simp [Event.invokedAgent]

/-- Witness for C9: of three sequential workers the second throws; the third is never
started. -/
theorem executePhase_sequential_short_circuit_witness :
    auditSecondPhase.parallelTruthy = false ∧
    auditSecondPhase.agents = ["code-reviewer"] ++ "security-auditor" :: ["test-engineer"] ∧
    (executePhase (failingFor "security-auditor" "audit failed") auditSecondPhase
      demoWorld).1 = .error "audit failed" ∧
    ((executePhase (failingFor "security-auditor" "audit failed") auditSecondPhase
      demoWorld).2.trace.drop demoWorld.trace.length).filterMap Event.invokedAgent
      = ["code-reviewer"] ++ ["security-auditor"] :=
  ⟨rfl, rfl,
    (executePhase_sequential_short_circuit (failingFor "security-auditor" "audit failed")
      auditSecondPhase demoWorld ["code-reviewer"] "security-auditor" ["test-engineer"]
      "audit failed" rfl rfl rfl rfl).1,
    (executePhase_sequential_short_circuit (failingFor "security-auditor" "audit failed")
      auditSecondPhase demoWorld ["code-reviewer"] "security-auditor" ["test-engineer"]
      "audit failed" rfl rfl rfl rfl).2.1⟩

/-- C10: `combined_recommendations` of `aggregateAgentResults` is the concatenation, in
list order, of the `recommendations` of the output of each result, a result without the field
contributing nothing; its length is the sum of their lengths; three results with two
recommendations each give the six of them, those of the first result first. -/
theorem aggregateAgentResults_combined_recommendations :
    (∀ agentResults : List AgentResult,
      (aggregateAgentResults agentResults).combined_recommendations
        = agentResults.flatMap (fun r => r.output.recommendations.getD [])) ∧
    (∀ agentResults : List AgentResult,
      (aggregateAgentResults agentResults).combined_recommendations.length
        = (agentResults.map (fun r => (r.output.recommendations.getD []).length)).sum) ∧
    (∀ (r₁ r₂ r₃ : AgentResult) (a₁ a₂ b₁ b₂ c₁ c₂ : String),
      (aggregateAgentResults
        [{ r₁ with output := { r₁.output with recommendations := some [a₁, a₂] } },
         { r₂ with output := { r₂.output with recommendations := some [b₁, b₂] } },
         { r₃ with output := { r₃.output with recommendations := some [c₁, c₂] } }]
        ).combined_recommendations = [a₁, a₂, b₁, b₂, c₁, c₂]) := by
  have key : ∀ agentResults : List AgentResult,
      (aggregateAgentResults agentResults).combined_recommendations
        = agentResults.flatMap (fun r => r.output.recommendations.getD []) := by
    intro agentResults
    simp only [aggregateAgentResults]
    rw [aggregateAgentResults.foldl_recommendations]
    simp
  refine ⟨key, ?_, ?_⟩
  · intro agentResults
    rw [key]
    induction agentResults with
    | nil => rfl
    | cons r rest ih => simp [List.flatMap_cons, ih]
  · intro r₁ r₂ r₃ a₁ a₂ b₁ b₂ c₁ c₂
    rw [key]
    rfl

end AgentWorkflowDemo

/-! ## Metrics, grades and scores -/

theorem List.foldl_add_eq_sum_map {α β : Type} [AddMonoid β] (f : α → β) (l : List α) :
    ∀ init : β, l.foldl (fun sum r => sum + f r) init = init + (l.map f).sum := by
  induction l with
  | nil => intro init; simp
  | cons a rest ih =>
    intro init
    rw [List.foldl_cons, ih, List.map_cons, List.sum_cons, add_assoc]

theorem AgentCoordinator.shouldTriggerWaveMode_eq_true_iff (ctx : ProjectContext) :
    AgentCoordinator.shouldTriggerWaveMode ctx = true ↔
      ctx.complexity ≥ 7 / 10 ∧ ctx.files > 20 ∧ ctx.domains.length > 2 := by
  have h : (0.7 : ℚ) = 7 / 10 := by norm_num
  simp [AgentCoordinator.shouldTriggerWaveMode, h, and_assoc]

namespace AgentWorkflowDemo

theorem jsDiv_of_ne_zero (a b : ℚ) (h : b ≠ 0) : jsDiv a b = some (a / b) := by
  simp [jsDiv, h]

/-- C11: for a workflow result with at least one phase, `calculateEfficiencyScore` is
0.6 + 0.4 * (p / n), where n is the number of phases and p the number of those whose
coordination is `parallel`; so four phases give 0.6 with none parallel, 1 with all four
parallel and 0.8 with two parallel. -/
theorem calculateEfficiencyScore_formula (results : WorkflowResult)
    (h : 0 < results.phases.length) :
    calculateEfficiencyScore results
      = some (0.6 + 0.4 *
          (((results.phases.filter (fun p => p.coordination = "parallel")).length : ℚ)
            / (results.phases.length : ℚ))) ∧
    (results.phases.length = 4 →
      (results.phases.filter (fun p => p.coordination = "parallel")).length = 0 →
        calculateEfficiencyScore results = some 0.6) ∧
    (results.phases.length = 4 →
      (results.phases.filter (fun p => p.coordination = "parallel")).length = 4 →
        calculateEfficiencyScore results = some 1) ∧
    (results.phases.length = 4 →
      (results.phases.filter (fun p => p.coordination = "parallel")).length = 2 →
        calculateEfficiencyScore results = some 0.8) := by
  have hne : (results.phases.length : ℚ) ≠ 0 := by
    exact_mod_cast Nat.pos_iff_ne_zero.1 h
  have key : calculateEfficiencyScore results
      = some (0.6 + 0.4 *
          (((results.phases.filter (fun p => p.coordination = "parallel")).length : ℚ)
            / (results.phases.length : ℚ))) := by
    simp only [calculateEfficiencyScore, jsDiv_of_ne_zero _ _ hne, Option.map_some']
    rw [mul_comm]
  refine ⟨key, ?_, ?_, ?_⟩
  · intro hn hp
    rw [key, hn, hp]
    norm_num
  · intro hn hp
    rw [key, hn, hp]
    norm_num
  · intro hn hp
    rw [key, hn, hp]
    norm_num

/-- Witness for C11: the result of the security audit workflow has four phases, two of
them parallel, and scores 0.8. -/
theorem calculateEfficiencyScore_formula_witness :
    0 < securityAuditResult.phases.length ∧
    calculateEfficiencyScore securityAuditResult = some 0.8 :=
  ⟨by decide,
    (calculateEfficiencyScore_formula securityAuditResult (by decide)).2.2.2
      (by decide) (by decide)⟩

/-- C12: for a workflow result with at least one agent result, `calculateQualityScore` is
0.6 * A + 0.4 * C, where A and C are the means of `accuracy_score` and of
`completeness_score` over the agent results of all phases taken as one flat list. -/
theorem calculateQualityScore_formula (results : WorkflowResult)
    (h : 0 < (results.phases.flatMap (fun p => p.agentResults)).length) :
    calculateQualityScore results
      = some (0.6 *
            (((results.phases.flatMap (fun p => p.agentResults)).map
                (fun r => r.metrics.accuracy_score)).sum
              / ((results.phases.flatMap (fun p => p.agentResults)).length : ℚ))
          + 0.4 *
            (((results.phases.flatMap (fun p => p.agentResults)).map
                (fun r => r.metrics.completeness_score)).sum
              / ((results.phases.flatMap (fun p => p.agentResults)).length : ℚ))) := by
  have hne : ((results.phases.flatMap (fun p => p.agentResults)).length : ℚ) ≠ 0 := by
    exact_mod_cast Nat.pos_iff_ne_zero.1 h
  simp only [calculateQualityScore, jsDiv_of_ne_zero _ _ hne, List.foldl_add_eq_sum_map,
    zero_add]
  rw [mul_comm (0.6 : ℚ), mul_comm (0.4 : ℚ)]

/-- Witness for C12: one agent with accuracy 1 in the first phase and three agents with
accuracy 0 in the second give the pooled mean 1/4, hence the score 0.6 * 1/4 = 3/20; the
mean of the two phase means, 1/2, would give 3/10. -/
theorem calculateQualityScore_formula_witness :
    0 < (pooledExample.phases.flatMap (fun p => p.agentResults)).length ∧
    calculateQualityScore pooledExample = some (3 / 20) := by
  refine ⟨by decide, ?_⟩
  rw [calculateQualityScore_formula pooledExample (by decide)]
  norm_num [pooledExample, phaseResultOf, scoredResult, List.flatMap]

end AgentWorkflowDemo

namespace AgentTestingFramework

/-- C13: `scoreToGrade s` is `A` exactly when s >= 0.9, `B` exactly when 0.8 <= s < 0.9,
`C` exactly when 0.7 <= s < 0.8, `D` exactly when 0.6 <= s < 0.7 and `F` exactly when
s < 0.6; 0.91 maps to `A`, 0.79 to `C`, 0.55 to `F`, and each of the boundaries 0.9, 0.8,
0.7, 0.6 belongs to the higher grade. -/
theorem scoreToGrade_bands :
    (∀ s : ℚ,
      (scoreToGrade s = "A" ↔ s ≥ 9 / 10) ∧
      (scoreToGrade s = "B" ↔ 8 / 10 ≤ s ∧ s < 9 / 10) ∧
      (scoreToGrade s = "C" ↔ 7 / 10 ≤ s ∧ s < 8 / 10) ∧
      (scoreToGrade s = "D" ↔ 6 / 10 ≤ s ∧ s < 7 / 10) ∧
      (scoreToGrade s = "F" ↔ s < 6 / 10)) ∧
    scoreToGrade 0.91 = "A" ∧ scoreToGrade 0.79 = "C" ∧ scoreToGrade 0.55 = "F" ∧
    scoreToGrade 0.9 = "A" ∧ scoreToGrade 0.8 = "B" ∧ scoreToGrade 0.7 = "C" ∧
    scoreToGrade 0.6 = "D" := by
  have e9 : (0.9 : ℚ) = 9 / 10 := by norm_num
  have e8 : (0.8 : ℚ) = 8 / 10 := by norm_num
  have e7 : (0.7 : ℚ) = 7 / 10 := by norm_num
  have e6 : (0.6 : ℚ) = 6 / 10 := by norm_num
  have bands : ∀ s : ℚ,
      (scoreToGrade s = "A" ↔ s ≥ 9 / 10) ∧
      (scoreToGrade s = "B" ↔ 8 / 10 ≤ s ∧ s < 9 / 10) ∧
      (scoreToGrade s = "C" ↔ 7 / 10 ≤ s ∧ s < 8 / 10) ∧
      (scoreToGrade s = "D" ↔ 6 / 10 ≤ s ∧ s < 7 / 10) ∧
      (scoreToGrade s = "F" ↔ s < 6 / 10) := by
    intro s
    by_cases h9 : s ≥ 9 / 10
    · have hg : scoreToGrade s = "A" := by
        simp only [scoreToGrade, e9]
        rw [if_pos h9]
      rw [hg]
      refine ⟨?_, ?_, ?_, ?_, ?_⟩
      · exact ⟨fun _ => h9, fun _ => rfl⟩
      · exact iff_of_false (by decide) (fun h => by linarith [h.1, h.2])
      · exact iff_of_false (by decide) (fun h => by linarith [h.1, h.2])
      · exact iff_of_false (by decide) (fun h => by linarith [h.1, h.2])
      · exact iff_of_false (by decide) (fun h => by linarith)
    · have l9 : s < 9 / 10 := lt_of_not_ge h9
      by_cases h8 : s ≥ 8 / 10
      · have hg : scoreToGrade s = "B" := by
          simp only [scoreToGrade, e9, e8]
          rw [if_neg h9, if_pos h8]
        rw [hg]
        refine ⟨?_, ?_, ?_, ?_, ?_⟩
        · exact iff_of_false (by decide) (fun h => by linarith)
        · exact ⟨fun _ => ⟨h8, l9⟩, fun _ => rfl⟩
        · exact iff_of_false (by decide) (fun h => by linarith [h.1, h.2])
        · exact iff_of_false (by decide) (fun h => by linarith [h.1, h.2])
        · exact iff_of_false (by decide) (fun h => by linarith)
      · have l8 : s < 8 / 10 := lt_of_not_ge h8
        by_cases h7 : s ≥ 7 / 10
        · have hg : scoreToGrade s = "C" := by
            simp only [scoreToGrade, e9, e8, e7]
            rw [if_neg h9, if_neg h8, if_pos h7]
          rw [hg]
          refine ⟨?_, ?_, ?_, ?_, ?_⟩
          · exact iff_of_false (by decide) (fun h => by linarith)
          · exact iff_of_false (by decide) (fun h => by linarith [h.1, h.2])
          · exact ⟨fun _ => ⟨h7, l8⟩, fun _ => rfl⟩
          · exact iff_of_false (by decide) (fun h => by linarith [h.1, h.2])
          · exact iff_of_false (by decide) (fun h => by linarith)
        · have l7 : s < 7 / 10 := lt_of_not_ge h7
          by_cases h6 : s ≥ 6 / 10
          · have hg : scoreToGrade s = "D" := by
              simp only [scoreToGrade, e9, e8, e7, e6]
              rw [if_neg h9, if_neg h8, if_neg h7, if_pos h6]
            rw [hg]
            refine ⟨?_, ?_, ?_, ?_, ?_⟩
            · exact iff_of_false (by decide) (fun h => by linarith)
            · exact iff_of_false (by decide) (fun h => by linarith [h.1, h.2])
            · exact iff_of_false (by decide) (fun h => by linarith [h.1, h.2])
            · exact ⟨fun _ => ⟨h6, l7⟩, fun _ => rfl⟩
            · exact iff_of_false (by decide) (fun h => by linarith)
          · have l6 : s < 6 / 10 := lt_of_not_ge h6
            have hg : scoreToGrade s = "F" := by
              simp only [scoreToGrade, e9, e8, e7, e6]
              rw [if_neg h9, if_neg h8, if_neg h7, if_neg h6]
            rw [hg]
            refine ⟨?_, ?_, ?_, ?_, ?_⟩
            · exact iff_of_false (by decide) (fun h => by linarith)
            · exact iff_of_false (by decide) (fun h => by linarith [h.1, h.2])
            · exact iff_of_false (by decide) (fun h => by linarith [h.1, h.2])
            · exact iff_of_false (by decide) (fun h => by linarith [h.1, h.2])
            · exact ⟨fun _ => l6, fun _ => rfl⟩
  refine ⟨bands, ?_, ?_, ?_, ?_, ?_, ?_, ?_⟩
  · exact (bands 0.91).1.2 (by norm_num)
  · exact (bands 0.79).2.2.1.2 (by norm_num)
  · exact (bands 0.55).2.2.2.2.2 (by norm_num)
  · exact (bands 0.9).1.2 (by norm_num)
  · exact (bands 0.8).2.1.2 (by norm_num)
  · exact (bands 0.7).2.2.1.2 (by norm_num)
  · exact (bands 0.6).2.2.2.1.2 (by norm_num)

/-- C15: the object returned by `testSpecialization` carries the three measurements as
they were measured, and its score is 0.4 * domainAccuracy + 0.3 * (1 - falsePositiveRate)
+ 0.3 * comprehensiveness; this holds for every triple of measured values. -/
theorem testSpecialization_score :
    (∀ (s : Supplied) (agentName : String) (testSuite : JsVal),
      (testSpecialization s agentName testSuite).domainAccuracy
        = s.measureDomainAccuracy agentName testSuite ∧
      (testSpecialization s agentName testSuite).falsePositiveRate
        = s.measureFalsePositives agentName testSuite ∧
      (testSpecialization s agentName testSuite).comprehensiveness
        = s.measureComprehensiveness agentName testSuite ∧
      (testSpecialization s agentName testSuite).score
        = 0.4 * s.measureDomainAccuracy agentName testSuite
          + 0.3 * (1 - s.measureFalsePositives agentName testSuite)
          + 0.3 * s.measureComprehensiveness agentName testSuite) ∧
    (∀ (domainAccuracy falsePositiveRate comprehensiveness : ℚ) (agentName : String)
        (testSuite : JsVal),
      testSpecialization (constantSupplied domainAccuracy falsePositiveRate comprehensiveness)
          agentName testSuite
        = { domainAccuracy := domainAccuracy
            falsePositiveRate := falsePositiveRate
            comprehensiveness := comprehensiveness
            score := 0.4 * domainAccuracy + 0.3 * (1 - falsePositiveRate)
              + 0.3 * comprehensiveness }) := by
  constructor
  · intro s agentName testSuite
    refine ⟨rfl, rfl, rfl, ?_⟩
    simp only [testSpecialization]
    ring
  · intro domainAccuracy falsePositiveRate comprehensiveness agentName testSuite
    simp only [testSpecialization, constantSupplied]
    congr 1
    ring

end AgentTestingFramework

/-- C14: when `shouldTriggerWaveMode` is true for a context, it is true for every context
whose complexity, number of files and number of domains are each at least as large; in
particular raising one signal and keeping the other two leaves the decision true. -/
theorem AgentCoordinator.shouldTriggerWaveMode_monotone (ctx raised : ProjectContext)
    (hc : ctx.complexity ≤ raised.complexity) (hf : ctx.files ≤ raised.files)
    (hd : ctx.domains.length ≤ raised.domains.length)
    (h : AgentCoordinator.shouldTriggerWaveMode ctx = true) :
    AgentCoordinator.shouldTriggerWaveMode raised = true := by
  rw [AgentCoordinator.shouldTriggerWaveMode_eq_true_iff] at h ⊢
  exact ⟨le_trans h.1 hc, lt_of_lt_of_le h.2.1 hf, lt_of_lt_of_le h.2.2 hd⟩

/-- Witness for C14: the context of the application, and the same context with one more
file. -/
theorem AgentCoordinator.shouldTriggerWaveMode_monotone_witness :
    RealWorldAgentApplication.projectContext.complexity
      ≤ ({ RealWorldAgentApplication.projectContext with files := 46 }
          : ProjectContext).complexity ∧
    RealWorldAgentApplication.projectContext.files ≤ 46 ∧
    AgentCoordinator.shouldTriggerWaveMode RealWorldAgentApplication.projectContext = true ∧
    AgentCoordinator.shouldTriggerWaveMode
      { RealWorldAgentApplication.projectContext with files := 46 } = true := by
  have h : AgentCoordinator.shouldTriggerWaveMode RealWorldAgentApplication.projectContext
      = true := by
    rw [AgentCoordinator.shouldTriggerWaveMode_eq_true_iff]
    norm_num [RealWorldAgentApplication.projectContext]
  exact ⟨le_refl _, by decide, h,
    AgentCoordinator.shouldTriggerWaveMode_monotone RealWorldAgentApplication.projectContext
      { RealWorldAgentApplication.projectContext with files := 46 }
      (le_refl _) (by decide) (le_refl _) h⟩

/-! ## The input a worker is handed -/

namespace AgentWorkflowDemo

theorem executePhase.sequential_inputs (m : Methods) (input : JsVal) :
    ∀ (agents : List String) (acc : List AgentResult) (w w1 : World) (rs : List AgentResult),
      executePhase.sequential m input agents acc w = (.ok rs, w1) →
        ∃ new, rs = acc ++ new ∧ ∀ r ∈ new, r.input = input := by
  intro agents
  induction agents with
  | nil =>
    intro acc w w1 rs h
    simp only [executePhase.sequential, Prod.mk.injEq, Except.ok.injEq] at h
    exact ⟨[], by simp [h.1], by simp⟩
  | cons agent rest ih =>
    intro acc w w1 rs h
    simp only [executePhase.sequential] at h
    split at h
    · simp at h
    · next agentResult w2 heq =>
      obtain ⟨new, hrs, hin⟩ := ih _ _ _ _ h
      refine ⟨agentResult :: new, by simp [hrs], ?_⟩
      intro r hr
      rcases List.mem_cons.1 hr with rfl | hr
      · exact (executeAgent_ok m agent input w w2 _ heq).2
      · exact hin r hr

theorem executePhase.settle_inputs (m : Methods) (input : JsVal) :
    ∀ (pending : List Pending) (acc : List (Nat × AgentResult)) (w w1 : World)
      (settled : List (Nat × AgentResult)),
      executePhase.settle m input pending acc w = (.ok settled, w1) →
        ∃ new, settled = acc ++ new ∧ ∀ entry ∈ new, entry.2.input = input := by
  intro pending
  induction pending with
  | nil =>
    intro acc w w1 settled h
    simp only [executePhase.settle, Prod.mk.injEq, Except.ok.injEq] at h
    exact ⟨[], by simp [h.1], by simp⟩
  | cons p rest ih =>
    intro acc w w1 settled h
    simp only [executePhase.settle] at h
    split at h
    · simp at h
    · next agentResult w2 heq =>
      obtain ⟨new, hs, hin⟩ := ih _ _ _ _ h
      refine ⟨(p.index, agentResult) :: new, by simp [hs], ?_⟩
      intro entry hentry
      rcases List.mem_cons.1 hentry with rfl | hentry
      · exact (executeAgent.resume_ok m p.agent input _ w2 _ heq).2
      · exact hin entry hentry

theorem executePhase.mem_promiseAll (count : Nat) (settled : List (Nat × AgentResult))
    (r : AgentResult) (h : r ∈ executePhase.promiseAll count settled) :
    ∃ entry ∈ settled, entry.2 = r := by
  simp only [executePhase.promiseAll, List.mem_filterMap, executePhase.valueAt,
    Option.map_eq_some'] at h
  obtain ⟨i, _, entry, hfind, hr⟩ := h
  exact ⟨entry, List.mem_of_find?_eq_some hfind, hr⟩

theorem executePhase_inputs (m : Methods) (phase : Phase) (w w1 : World)
    (phaseResult : PhaseResult) (h : executePhase m phase w = (.ok phaseResult, w1)) :
    ∀ r ∈ phaseResult.agentResults, r.input = phase.input := by
  simp only [executePhase] at h
  split at h
  · simp at h
  · next rs w2 heq =>
    simp only [Prod.mk.injEq, Except.ok.injEq] at h
    rw [← h.1]
    simp only
    split at heq
    · simp only [executePhase.parallel] at heq
      split at heq
      · simp at heq
      · next settled w3 hset =>
        simp only [Prod.mk.injEq, Except.ok.injEq] at heq
        obtain ⟨new, hs, hin⟩ := executePhase.settle_inputs m _ _ _ _ _ _ hset
        intro r hr
        rw [← heq.1] at hr
        obtain ⟨entry, hentry, rfl⟩ := executePhase.mem_promiseAll _ _ _ hr
        rw [hs, List.nil_append] at hentry
        exact hin entry hentry
    · obtain ⟨new, hrs, hin⟩ := executePhase.sequential_inputs m _ _ _ _ _ _ heq
      rw [hrs, List.nil_append]
      exact hin

/-! ## The aggregator in closed form -/

theorem aggregateAgentResults.foldl_eq (agentResults : List AgentResult) :
    ∀ aggregated : Aggregated,
      agentResults.foldl
        (fun aggregated result =>
          match result.output.recommendations with
          | some recommendations =>
            { aggregated with
              combined_recommendations :=
                aggregated.combined_recommendations ++ recommendations }
          | none => aggregated)
        aggregated
        = { aggregated with
            combined_recommendations :=
              aggregated.combined_recommendations
                ++ agentResults.flatMap (fun r => r.output.recommendations.getD []) } := by
  induction agentResults with
  | nil => intro aggregated; simp
  | cons result rest ih =>
    intro aggregated
    rw [List.foldl_cons, ih]
    cases hrec : result.output.recommendations with
    | none => simp [hrec]
    | some recommendations => simp [hrec]

theorem aggregateAgentResults_eq (agentResults : List AgentResult) :
    aggregateAgentResults agentResults
      = { agent_count := agentResults.length
          total_duration := (agentResults.map (fun r => r.duration)).sum
          combined_recommendations :=
            agentResults.flatMap (fun r => r.output.recommendations.getD [])
          priority_matrix := [] } := by
  simp only [aggregateAgentResults, aggregateAgentResults.foldl_eq,
    List.foldl_add_eq_sum_map, zero_add, List.nil_append]

end AgentWorkflowDemo

namespace AgentWorkflowDemo

/-- Counterexample to C17 as stated: the second phase of the security audit workflow
declares the input `system_mapping`, the output key of the first phase; the input recorded
for its worker is that key string, while the `Map` holds the aggregated output of the
first phase under the key. -/
theorem executeWorkflow_records_key_string_as_input :
    (securityAuditResult.phases.map
        (fun p => p.agentResults.map (fun r => r.input)))[1]?
      = some [JsVal.str "system_mapping"] ∧
    securityAuditResult.outputs.get "system_mapping"
      = some
          { agent_count := 1
            total_duration := 0
            combined_recommendations :=
              ["Implement CQRS", "Add circuit breakers", "Extract services"]
            priority_matrix := [] } :=
  ⟨rfl, by decide⟩

/-- C17, as the code has it: the input recorded in every agent result of a phase is
`phase.input` itself, whether it is a key, a list of keys or a literal; and, no worker
writing to the `Map`, every step of every worker of the phase is made with `phase.input`
and with the `Map` as it is, from which a worker may read the keys. -/
theorem executePhase_hands_input_unresolved (m : Methods) (hm : m.ReadOnly) (phase : Phase)
    (w : World) (phaseResult : PhaseResult)
    (h : (executePhase m phase w).1 = .ok phaseResult) :
    (∀ r ∈ phaseResult.agentResults, r.input = phase.input) ∧
    ∃ evs, (executePhase m phase w).2.trace = w.trace ++ evs ∧
      ∀ ev ∈ evs, ev.Carries phase.input w.outputs := by
  obtain ⟨evs, ht, hcarries, _⟩ := executePhase_trace m phase w
  exact ⟨executePhase_inputs m phase w (executePhase m phase w).2 phaseResult (by rw [← h]),
    evs, ht, hcarries hm⟩

/-- Witness for C17 as amended: the second phase of the security audit workflow, run in
the state the first phase leaves. -/
theorem executePhase_hands_input_unresolved_witness :
    simulated.ReadOnly ∧
    (executePhase simulated vulnerabilityAssessmentPhase afterReconnaissance).1
      = .ok vulnerabilityAssessmentResult ∧
    afterReconnaissance.outputs.keys = ["system_mapping"] ∧
    ∀ r ∈ vulnerabilityAssessmentResult.agentResults, r.input = JsVal.str "system_mapping" :=
  ⟨simulated_readOnly, rfl, by decide,
    (executePhase_hands_input_unresolved simulated simulated_readOnly
      vulnerabilityAssessmentPhase afterReconnaissance vulnerabilityAssessmentResult rfl).1⟩

/-- Counterexample to C18 as stated: for a workflow without phases the `outputs` of the
result are empty; for the new feature workflow the first worker is handed an empty `Map`
and the final `outputs` hold the five output keys of the phases and nothing else. -/
theorem executeWorkflow_outputs_not_seeded :
    (executeWorkflow simulated emptyWorkflow demoWorld).1.toOption.map (fun r => r.outputs)
      = some [] ∧
    ((newFeatureWorkflow simulated featureSpec demoWorld).2.trace.filterMap Event.seen).head?
      = some [] ∧
    newFeatureResult.outputs.keys
      = ["architecture_plan", "security_requirements", "implemented_feature",
         "optimized_feature", "documented_feature"] := by
  refine ⟨by decide, by decide, by decide⟩

/-- C18, as the code has it: `executeWorkflow` creates the `Map` empty, so it is empty
before the first phase; no worker writing to it, the workers of the first phase are handed
the empty `Map`, every key of the final `outputs` is the output key of a phase, and a
workflow without phases returns empty `outputs`. -/
theorem executeWorkflow_outputs_start_empty (m : Methods) (hm : m.ReadOnly)
    (workflow : Workflow) (w : World) (results : WorkflowResult)
    (h : (executeWorkflow m workflow w).1 = .ok results) :
    executeWorkflow.outputsAfter m workflow w 0 = some [] ∧
    (∀ phase rest, workflow.phases = phase :: rest →
      ∃ evs, (executePhase m phase { w with outputs := [] }).2.trace = w.trace ++ evs ∧
        ∀ ev ∈ evs, ev.Carries phase.input []) ∧
    (∀ key ∈ results.outputs.keys, key ∈ workflow.phases.map (fun p => p.output)) ∧
    (workflow.phases = [] → results.outputs = []) := by
  have hkeys : ∀ key ∈ results.outputs.keys,
      key ∈ workflow.phases.map (fun p => p.output) := by
    have hbound := executeWorkflow.loop_keys_bound m hm workflow.phases []
      { w with outputs := [] }
    simp only [executeWorkflow] at h
    split at h
    · simp at h
    · next rs w1 heq =>
      simp only [Except.ok.injEq] at h
      rw [heq] at hbound
      intro key hkey
      rw [← h] at hkey
      rcases hbound key hkey with h1 | h1
      · simp [Outputs.keys] at h1
      · exact h1
  refine ⟨rfl, ?_, hkeys, ?_⟩
  · intro phase rest _
    obtain ⟨evs, ht, hcarries, _⟩ := executePhase_trace m phase { w with outputs := [] }
    exact ⟨evs, ht, hcarries hm⟩
  · intro hnil
    rw [hnil] at hkeys
    cases hout : results.outputs with
    | nil => rfl
    | cons entry rest =>
      have := hkeys entry.1 (by simp [hout, Outputs.keys])
      simp at this

/-- Witness for C18 as amended: the new feature workflow of the source. -/
theorem executeWorkflow_outputs_start_empty_witness :
    simulated.ReadOnly ∧
    (executeWorkflow simulated (newFeatureWorkflow.workflow featureSpec) demoWorld).1
      = .ok newFeatureResult ∧
    executeWorkflow.outputsAfter simulated (newFeatureWorkflow.workflow featureSpec)
      demoWorld 0 = some [] ∧
    ∀ key ∈ newFeatureResult.outputs.keys,
      key ∈ (newFeatureWorkflow.workflow featureSpec).phases.map (fun p => p.output) :=
  ⟨simulated_readOnly, rfl,
    (executeWorkflow_outputs_start_empty simulated simulated_readOnly
      (newFeatureWorkflow.workflow featureSpec) demoWorld newFeatureResult rfl).1,
    (executeWorkflow_outputs_start_empty simulated simulated_readOnly
      (newFeatureWorkflow.workflow featureSpec) demoWorld newFeatureResult rfl).2.2.1⟩

/-- Counterexample to C19 as stated: the output of `architecture-analyst` carries
`scalability_score`, the aggregated output has no such property, and it is the same
whether the score is 7/10 or 1/10. -/
theorem aggregateAgentResults_drops_scalability_score :
    "scalability_score" ∈ analystResult.output.fields.map Prod.fst ∧
    "scalability_score" ∉ (aggregateAgentResults [analystResult]).keys ∧
    aggregateAgentResults [analystResultScoring (7 / 10)]
      = aggregateAgentResults [analystResultScoring (1 / 10)] := by
  refine ⟨by decide, by decide, by decide⟩

/-- C19, as the code has it: the aggregated output consists of `agent_count`, the number
of results, `total_duration`, the sum of their durations, `combined_recommendations`, the
concatenation of their recommendations, and an empty `priority_matrix`; it has these four
properties whatever numeric fields the outputs carry, and no mean is taken. -/
theorem aggregateAgentResults_closed_form (agentResults : List AgentResult) :
    aggregateAgentResults agentResults
      = { agent_count := agentResults.length
          total_duration := (agentResults.map (fun r => r.duration)).sum
          combined_recommendations :=
            agentResults.flatMap (fun r => r.output.recommendations.getD [])
          priority_matrix := [] } ∧
    (aggregateAgentResults agentResults).keys
      = ["agent_count", "total_duration", "combined_recommendations", "priority_matrix"] :=
  ⟨aggregateAgentResults_eq agentResults, rfl⟩

/-- Counterexample to C20 as stated: the output of `test-engineer` has the properties
`status` and `output`, which no rule of the aggregator knows; neither is a property of
the aggregated output. -/
theorem aggregateAgentResults_drops_unrecognized_fields :
    testEngineerResult.output.fields.map Prod.fst = ["status", "output"] ∧
    testEngineerResult.output.recommendations = none ∧
    "status" ∉ (aggregateAgentResults [testEngineerResult]).keys ∧
    "output" ∉ (aggregateAgentResults [testEngineerResult, testEngineerResult]).keys := by
  refine ⟨by decide, by decide, by decide, by decide⟩

/-- C20, as the code has it: the aggregated output depends only on the durations and the
recommendations of the results, in order; two lists of results that agree on these have
the same aggregated output, whatever other fields their outputs carry, and its properties
are always the same four. -/
theorem aggregateAgentResults_ignores_other_fields (agentResults others : List AgentResult)
    (h : agentResults.map (fun r => (r.duration, r.output.recommendations))
      = others.map (fun r => (r.duration, r.output.recommendations))) :
    aggregateAgentResults agentResults = aggregateAgentResults others ∧
    (aggregateAgentResults agentResults).keys
      = ["agent_count", "total_duration", "combined_recommendations", "priority_matrix"] := by
  have hlen : agentResults.length = others.length := by
    simpa using congrArg List.length h
  have hdur : agentResults.map (fun r => r.duration) = others.map (fun r => r.duration) := by
    simpa [List.map_map, Function.comp_def] using congrArg (List.map Prod.fst) h
  have hrec : agentResults.flatMap (fun r => r.output.recommendations.getD [])
      = others.flatMap (fun r => r.output.recommendations.getD []) := by
    have := congrArg (fun l => l.flatMap (fun (p : Int × Option (List String)) => p.2.getD []))
      h
    simpa [List.flatMap_map] using this
  refine ⟨?_, rfl⟩
  rw [aggregateAgentResults_eq, aggregateAgentResults_eq, hlen, hdur, hrec]

/-- Witness for C20 as amended: the result of `architecture-analyst` and the same result
with only the field `scalability_score` left, set to 1/10. -/
theorem aggregateAgentResults_ignores_other_fields_witness :
    [analystResult].map (fun r => (r.duration, r.output.recommendations))
      = [analystResultScoring (1 / 10)].map (fun r => (r.duration, r.output.recommendations)) ∧
    aggregateAgentResults [analystResult]
      = aggregateAgentResults [analystResultScoring (1 / 10)] :=
  ⟨rfl,
    (aggregateAgentResults_ignores_other_fields [analystResult]
      [analystResultScoring (1 / 10)] rfl).1⟩

end AgentWorkflowDemo

/-! ## The efficiency score as a function of the coordination labels -/

namespace AgentWorkflowDemo

theorem calculateEfficiencyScore_eq_countP (results : WorkflowResult) :
    calculateEfficiencyScore results
      = (jsDiv ((results.phases.countP (fun p => p.coordination = "parallel") : Nat) : ℚ)
          (results.phases.length : ℚ)).map (fun ratio => 0.6 + ratio * 0.4) := by
  simp only [calculateEfficiencyScore, List.countP_eq_length_filter]

theorem calculateEfficiencyScore_of_pos (results : WorkflowResult)
    (h : 0 < results.phases.length) :
    calculateEfficiencyScore results
      = some (6 / 10 + 4 / 10 *
          (((results.phases.countP (fun p => p.coordination = "parallel") : Nat) : ℚ)
            / (results.phases.length : ℚ))) := by
  have hne : (results.phases.length : ℚ) ≠ 0 := by
    exact_mod_cast Nat.pos_iff_ne_zero.1 h
  rw [calculateEfficiencyScore_eq_countP, jsDiv_of_ne_zero _ _ hne, Option.map_some']
  congr 1
  norm_num
  ring

theorem calculateEfficiencyScore_congr (r₁ r₂ : WorkflowResult)
    (h : r₁.phases.map (fun p => p.coordination) = r₂.phases.map (fun p => p.coordination)) :
    calculateEfficiencyScore r₁ = calculateEfficiencyScore r₂ := by
  have hlen : r₁.phases.length = r₂.phases.length := by
    simpa using congrArg List.length h
  have hcount : r₁.phases.countP (fun p => p.coordination = "parallel")
      = r₂.phases.countP (fun p => p.coordination = "parallel") := by
    have := congrArg (List.countP (fun c : String => decide (c = "parallel"))) h
    simpa [List.countP_map, Function.comp_def] using this
  rw [calculateEfficiencyScore_eq_countP, calculateEfficiencyScore_eq_countP, hlen, hcount]

theorem calculateQualityScore_congr (r₁ r₂ : WorkflowResult)
    (h : r₁.phases.flatMap
          (fun p => p.agentResults.map
            (fun r => (r.metrics.accuracy_score, r.metrics.completeness_score)))
      = r₂.phases.flatMap
          (fun p => p.agentResults.map
            (fun r => (r.metrics.accuracy_score, r.metrics.completeness_score)))) :
    calculateQualityScore r₁ = calculateQualityScore r₂ := by
  have hmap : ∀ r : WorkflowResult,
      (r.phases.flatMap (fun p => p.agentResults)).map
          (fun a => (a.metrics.accuracy_score, a.metrics.completeness_score))
        = r.phases.flatMap
          (fun p => p.agentResults.map
            (fun a => (a.metrics.accuracy_score, a.metrics.completeness_score))) := by
    intro r
    rw [List.map_flatMap]
  have hpairs : (r₁.phases.flatMap (fun p => p.agentResults)).map
        (fun a => (a.metrics.accuracy_score, a.metrics.completeness_score))
      = (r₂.phases.flatMap (fun p => p.agentResults)).map
        (fun a => (a.metrics.accuracy_score, a.metrics.completeness_score)) := by
    rw [hmap, hmap, h]
  have hlen : (r₁.phases.flatMap (fun p => p.agentResults)).length
      = (r₂.phases.flatMap (fun p => p.agentResults)).length := by
    simpa using congrArg List.length hpairs
  have hacc : (r₁.phases.flatMap (fun p => p.agentResults)).map
        (fun a => a.metrics.accuracy_score)
      = (r₂.phases.flatMap (fun p => p.agentResults)).map
        (fun a => a.metrics.accuracy_score) := by
    simpa [List.map_map, Function.comp_def] using congrArg (List.map Prod.fst) hpairs
  have hcomp : (r₁.phases.flatMap (fun p => p.agentResults)).map
        (fun a => a.metrics.completeness_score)
      = (r₂.phases.flatMap (fun p => p.agentResults)).map
        (fun a => a.metrics.completeness_score) := by
    simpa [List.map_map, Function.comp_def] using congrArg (List.map Prod.snd) hpairs
  simp only [calculateQualityScore, List.foldl_add_eq_sum_map, zero_add, hlen, hacc, hcomp]

theorem executeWorkflow_empty (m : Methods) (name : String) (w : World) :
    ∃ results, (executeWorkflow m { name := name, phases := [] } w).1 = .ok results ∧
      results.phases = [] ∧
      results.metrics.map (fun metrics => metrics.efficiency_score) = some none :=
  ⟨_, rfl, rfl, rfl⟩

/-- C21: `calculateEfficiencyScore` yields a number exactly when the result has at least
one phase; with zero phases the ratio is a division by zero and no score is produced; and
`executeWorkflow` computes the metrics of a workflow without phases all the same, leaving
an efficiency score that is not a number. -/
theorem calculateEfficiencyScore_defined_iff :
    (∀ results : WorkflowResult,
      (calculateEfficiencyScore results).isSome = true ↔ 0 < results.phases.length) ∧
    (∀ results : WorkflowResult,
      results.phases = [] → calculateEfficiencyScore results = none) ∧
    (∀ (m : Methods) (name : String) (w : World),
      ∃ results, (executeWorkflow m { name := name, phases := [] } w).1 = .ok results ∧
        results.phases = [] ∧
        results.metrics.map (fun metrics => metrics.efficiency_score) = some none) := by
  have hnil : ∀ results : WorkflowResult,
      results.phases = [] → calculateEfficiencyScore results = none := by
    intro results h
    simp [calculateEfficiencyScore, h, jsDiv]
  refine ⟨?_, hnil, executeWorkflow_empty⟩
  intro results
  constructor
  · intro h
    by_contra hlen
    have hempty : results.phases = [] := by
      cases hp : results.phases with
      | nil => rfl
      | cons a rest => simp [hp] at hlen
    rw [hnil results hempty] at h
    simp at h
  · intro h
    rw [calculateEfficiencyScore_of_pos results h]
    rfl

/-- C22: two workflow results that agree, phase by phase and agent by agent in order, on
the coordination label of each phase and on the accuracy and completeness scores of each
agent result have the same efficiency score and the same quality score, whatever times,
durations, inputs and outputs they record. -/
theorem metrics_depend_on_labels_and_scores (r₁ r₂ : WorkflowResult)
    (h : r₁.phases.map
          (fun p => (p.coordination, p.agentResults.map
            (fun r => (r.metrics.accuracy_score, r.metrics.completeness_score))))
      = r₂.phases.map
          (fun p => (p.coordination, p.agentResults.map
            (fun r => (r.metrics.accuracy_score, r.metrics.completeness_score))))) :
    calculateEfficiencyScore r₁ = calculateEfficiencyScore r₂ ∧
    calculateQualityScore r₁ = calculateQualityScore r₂ := by
  constructor
  · apply calculateEfficiencyScore_congr
    simpa [List.map_map, Function.comp_def] using congrArg (List.map Prod.fst) h
  · apply calculateQualityScore_congr
    have := congrArg
      (fun l : List (String × List (ℚ × ℚ)) => l.flatMap (fun entry => entry.2)) h
    simpa [List.flatMap_map] using this

/-- Witness for C22: `pooledExample` and the same result with other times, durations,
inputs and outputs. -/
theorem metrics_depend_on_labels_and_scores_witness :
    pooledExample.phases.map
        (fun p => (p.coordination, p.agentResults.map
          (fun r => (r.metrics.accuracy_score, r.metrics.completeness_score))))
      = pooledExampleLater.phases.map
        (fun p => (p.coordination, p.agentResults.map
          (fun r => (r.metrics.accuracy_score, r.metrics.completeness_score)))) ∧
    pooledExample.phases.map (fun p => p.duration)
      ≠ pooledExampleLater.phases.map (fun p => p.duration) ∧
    calculateEfficiencyScore pooledExample = calculateEfficiencyScore pooledExampleLater ∧
    calculateQualityScore pooledExample = calculateQualityScore pooledExampleLater :=
  ⟨rfl, by decide,
    (metrics_depend_on_labels_and_scores pooledExample pooledExampleLater rfl).1,
    (metrics_depend_on_labels_and_scores pooledExample pooledExampleLater rfl).2⟩

end AgentWorkflowDemo

namespace AgentWorkflowDemo

/-- C24: for a workflow result with at least one phase the efficiency score lies between
0.6 and 1; it is 0.6 exactly when no phase has the coordination `parallel` and 1 exactly
when every phase has; and relabelling one phase as `parallel` does not lower it. -/
theorem calculateEfficiencyScore_range (results : WorkflowResult)
    (h : 0 < results.phases.length) :
    ∃ s, calculateEfficiencyScore results = some s ∧ 6 / 10 ≤ s ∧ s ≤ 1 ∧
      (s = 6 / 10 ↔ ∀ p ∈ results.phases, p.coordination ≠ "parallel") ∧
      (s = 1 ↔ ∀ p ∈ results.phases, p.coordination = "parallel") ∧
      ∀ before p after, results.phases = before ++ p :: after →
        ∃ s', calculateEfficiencyScore
            { results with
              phases := before ++ { p with coordination := "parallel" } :: after }
          = some s' ∧ s ≤ s' := by
  have hn : (0 : ℚ) < (results.phases.length : ℚ) := by exact_mod_cast h
  have hle : ((results.phases.countP (fun p => p.coordination = "parallel") : Nat) : ℚ)
      ≤ (results.phases.length : ℚ) := by
    exact_mod_cast List.countP_le_length _
  have hc : (0 : ℚ)
      ≤ ((results.phases.countP (fun p => p.coordination = "parallel") : Nat) : ℚ) :=
    Nat.cast_nonneg _
  refine ⟨_, calculateEfficiencyScore_of_pos results h, ?_, ?_, ?_, ?_, ?_⟩
  · have := div_nonneg hc hn.le
    linarith
  · have := (div_le_one hn).2 hle
    linarith
  · have hzero : (6 / 10 + 4 / 10 *
          (((results.phases.countP (fun p => p.coordination = "parallel") : Nat) : ℚ)
            / (results.phases.length : ℚ)) = 6 / 10)
        ↔ results.phases.countP (fun p => p.coordination = "parallel") = 0 := by
      constructor
      · intro heq
        have h0 : ((results.phases.countP (fun p => p.coordination = "parallel") : Nat) : ℚ)
            / (results.phases.length : ℚ) = 0 := by linarith
        rcases div_eq_zero_iff.1 h0 with h1 | h1
        · exact_mod_cast h1
        · exact absurd h1 hn.ne'
      · intro heq
        rw [heq]
        simp
    rw [hzero, List.countP_eq_zero]
    simp
  · have hone : (6 / 10 + 4 / 10 *
          (((results.phases.countP (fun p => p.coordination = "parallel") : Nat) : ℚ)
            / (results.phases.length : ℚ)) = 1)
        ↔ results.phases.countP (fun p => p.coordination = "parallel")
          = results.phases.length := by
      constructor
      · intro heq
        have h1 : ((results.phases.countP (fun p => p.coordination = "parallel") : Nat) : ℚ)
            / (results.phases.length : ℚ) = 1 := by linarith
        have h2 := (div_eq_one_iff_eq hn.ne').1 h1
        exact_mod_cast h2
      · intro heq
        rw [heq, div_self hn.ne']
        norm_num
    rw [hone, List.countP_eq_length]
    simp
  · intro before p after hphases
    have hlen : (before ++ { p with coordination := "parallel" } :: after).length
        = results.phases.length := by
      rw [hphases]
      simp
    have hpos : 0 < ({ results with
        phases := before ++ { p with coordination := "parallel" } :: after }
        : WorkflowResult).phases.length := by
      simp only
      rw [hlen]
      exact h
    refine ⟨_, calculateEfficiencyScore_of_pos _ hpos, ?_⟩
    simp only
    rw [hlen]
    have hcount : results.phases.countP (fun p => p.coordination = "parallel")
        ≤ (before ++ { p with coordination := "parallel" } :: after).countP
            (fun p => p.coordination = "parallel") := by
      rw [hphases, List.countP_append, List.countP_append, List.countP_cons,
        List.countP_cons]
      have : (if decide (p.coordination = "parallel") = true then 1 else 0) ≤ 1 := by
        split <;> omega
      simp only [decide_True, if_true]
      omega
    have hcast : ((results.phases.countP (fun p => p.coordination = "parallel") : Nat) : ℚ)
        ≤ (((before ++ { p with coordination := "parallel" } :: after).countP
            (fun p => p.coordination = "parallel") : Nat) : ℚ) := by
      exact_mod_cast hcount
    have := (div_le_div_iff_of_pos_right hn).2 hcast
    linarith

/-- Witness for C24: the result of the security audit workflow, with two of four phases
parallel, scores 0.8. -/
theorem calculateEfficiencyScore_range_witness :
    0 < securityAuditResult.phases.length ∧
    ∃ s, calculateEfficiencyScore securityAuditResult = some s ∧ 6 / 10 ≤ s ∧ s ≤ 1 := by
  refine ⟨by decide, ?_⟩
  obtain ⟨s, hs, hlow, hhigh, _⟩ :=
    calculateEfficiencyScore_range securityAuditResult (by decide)
  exact ⟨s, hs, hlow, hhigh⟩

end AgentWorkflowDemo

/-! ## The virtual clock -/

namespace AgentWorkflowDemo

theorem executeAgent.resume_times (m : Methods) (agentName : String) (input : JsVal)
    (w w1 : World) (r : AgentResult)
    (h : executeAgent.resume m agentName input w = (.ok r, w1)) :
    r.startTime = w.now ∧ r.endTime = w.now ∧ r.duration = 0 := by
  simp only [executeAgent.resume] at h
  split at h
  · simp at h
  · split at h
    · simp at h
    · simp only [Prod.mk.injEq, Except.ok.injEq] at h
      rw [← h.1]
      exact ⟨rfl, rfl, sub_self _⟩

theorem executeAgent_now (m : Methods) (agentName : String) (input : JsVal) (w : World) :
    (executeAgent m agentName input w).2.now = w.now + m.getAgentExecutionTime agentName := by
  simp only [executeAgent, executeAgent.begin, executeAgent.resume_now]

theorem executePhase.sequential_forall (m : Methods) (input : JsVal)
    (P : AgentResult → Prop)
    (hP : ∀ agent w r w1, executeAgent.resume m agent input w = (.ok r, w1) → P r) :
    ∀ (agents : List String) (acc : List AgentResult) (w w1 : World) (rs : List AgentResult),
      executePhase.sequential m input agents acc w = (.ok rs, w1) →
        ∃ new, rs = acc ++ new ∧ ∀ r ∈ new, P r := by
  intro agents
  induction agents with
  | nil =>
    intro acc w w1 rs h
    simp only [executePhase.sequential, Prod.mk.injEq, Except.ok.injEq] at h
    exact ⟨[], by simp [h.1], by simp⟩
  | cons agent rest ih =>
    intro acc w w1 rs h
    simp only [executePhase.sequential] at h
    split at h
    · simp at h
    · next agentResult w2 heq =>
      obtain ⟨new, hrs, hin⟩ := ih _ _ _ _ h
      refine ⟨agentResult :: new, by simp [hrs], ?_⟩
      intro r hr
      rcases List.mem_cons.1 hr with rfl | hr
      · exact hP agent _ _ w2 heq
      · exact hin r hr

theorem executePhase.settle_forall (m : Methods) (input : JsVal)
    (P : AgentResult → Prop)
    (hP : ∀ agent w r w1, executeAgent.resume m agent input w = (.ok r, w1) → P r) :
    ∀ (pending : List Pending) (acc : List (Nat × AgentResult)) (w w1 : World)
      (settled : List (Nat × AgentResult)),
      executePhase.settle m input pending acc w = (.ok settled, w1) →
        ∃ new, settled = acc ++ new ∧ ∀ entry ∈ new, P entry.2 := by
  intro pending
  induction pending with
  | nil =>
    intro acc w w1 settled h
    simp only [executePhase.settle, Prod.mk.injEq, Except.ok.injEq] at h
    exact ⟨[], by simp [h.1], by simp⟩
  | cons p rest ih =>
    intro acc w w1 settled h
    simp only [executePhase.settle] at h
    split at h
    · simp at h
    · next agentResult w2 heq =>
      obtain ⟨new, hs, hin⟩ := ih _ _ _ _ h
      refine ⟨(p.index, agentResult) :: new, by simp [hs], ?_⟩
      intro entry hentry
      rcases List.mem_cons.1 hentry with rfl | hentry
      · exact hP p.agent _ _ w2 heq
      · exact hin entry hentry

theorem executePhase_forall (m : Methods) (phase : Phase) (P : AgentResult → Prop)
    (hP : ∀ agent w r w1, executeAgent.resume m agent phase.input w = (.ok r, w1) → P r)
    (w w1 : World) (phaseResult : PhaseResult)
    (h : executePhase m phase w = (.ok phaseResult, w1)) :
    ∀ r ∈ phaseResult.agentResults, P r := by
  simp only [executePhase] at h
  split at h
  · simp at h
  · next rs w2 heq =>
    simp only [Prod.mk.injEq, Except.ok.injEq] at h
    rw [← h.1]
    simp only
    split at heq
    · simp only [executePhase.parallel] at heq
      split at heq
      · simp at heq
      · next settled w3 hset =>
        simp only [Prod.mk.injEq, Except.ok.injEq] at heq
        obtain ⟨new, hs, hin⟩ := executePhase.settle_forall m _ P hP _ _ _ _ _ hset
        intro r hr
        rw [← heq.1] at hr
        obtain ⟨entry, hentry, rfl⟩ := executePhase.mem_promiseAll _ _ _ hr
        rw [hs, List.nil_append] at hentry
        exact hin entry hentry
    · obtain ⟨new, hrs, hin⟩ := executePhase.sequential_forall m _ P hP _ _ _ _ _ heq
      rw [hrs, List.nil_append]
      exact hin

theorem executePhase.sequential_now (m : Methods) (input : JsVal) :
    ∀ (agents : List String) (acc : List AgentResult) (w w1 : World) (rs : List AgentResult),
      executePhase.sequential m input agents acc w = (.ok rs, w1) →
        w1.now = w.now + (agents.map m.getAgentExecutionTime).sum := by
  intro agents
  induction agents with
  | nil =>
    intro acc w w1 rs h
    simp only [executePhase.sequential, Prod.mk.injEq] at h
    simp [h.2]
  | cons agent rest ih =>
    intro acc w w1 rs h
    have hnow := executeAgent_now m agent input w
    simp only [executePhase.sequential] at h
    split at h
    · simp at h
    · next agentResult w2 heq =>
      rw [heq] at hnow
      simp only at hnow
      rw [ih _ _ _ _ h, hnow, List.map_cons, List.sum_cons, Nat.add_assoc]

theorem executePhase.fanOut_now (m : Methods) (input : JsVal) (start : Nat) :
    ∀ (agents : List String) (index : Nat) (w : World),
      (executePhase.fanOut m input start agents index w).2.now = w.now := by
  intro agents
  induction agents with
  | nil => intro index w; rfl
  | cons agent rest ih =>
    intro index w
    simp only [executePhase.fanOut]
    rw [ih]
    rfl

theorem executePhase.fanOut_dues (m : Methods) (input : JsVal) (start : Nat) :
    ∀ (agents : List String) (index : Nat) (w : World),
      (executePhase.fanOut m input start agents index w).1.map (fun p => p.due)
        = agents.map (fun agent => start + m.getAgentExecutionTime agent) := by
  intro agents
  induction agents with
  | nil => intro index w; rfl
  | cons agent rest ih =>
    intro index w
    simp only [executePhase.fanOut, List.map_cons]
    rw [ih]
    rfl

theorem executePhase.settle_now (m : Methods) (input : JsVal) :
    ∀ (pending : List Pending) (acc : List (Nat × AgentResult)) (w w1 : World)
      (settled : List (Nat × AgentResult)),
      executePhase.settle m input pending acc w = (.ok settled, w1) →
        w.now ≤ w1.now ∧ (∀ p ∈ pending, p.due ≤ w1.now) ∧
        (w1.now = w.now ∨ ∃ p ∈ pending, w1.now = p.due) := by
  intro pending
  induction pending with
  | nil =>
    intro acc w w1 settled h
    simp only [executePhase.settle, Prod.mk.injEq] at h
    simp [h.2]
  | cons p rest ih =>
    intro acc w w1 settled h
    have hnow := executeAgent.resume_now m p.agent input { w with now := max w.now p.due }
    simp only [executePhase.settle] at h
    split at h
    · simp at h
    · next agentResult w2 heq =>
      rw [heq] at hnow
      simp only at hnow
      obtain ⟨h1, h2, h3⟩ := ih _ _ _ _ h
      rw [hnow] at h1 h3
      refine ⟨le_trans (le_max_left _ _) h1, ?_, ?_⟩
      · intro q hq
        rcases List.mem_cons.1 hq with rfl | hq
        · exact le_trans (le_max_right _ _) h1
        · exact h2 q hq
      · rcases h3 with h3 | ⟨q, hq, h3⟩
        · rcases le_total w.now p.due with hle | hle
          · right
            exact ⟨p, List.mem_cons_self _ _, by rw [h3, max_eq_right hle]⟩
          · left
            rw [h3, max_eq_left hle]
        · right
          exact ⟨q, List.mem_cons_of_mem _ hq, h3⟩

theorem executePhase.parallel_now (m : Methods) (input : JsVal) (agents : List String)
    (w w1 : World) (rs : List AgentResult)
    (h : executePhase.parallel m input agents w = (.ok rs, w1)) :
    w.now ≤ w1.now ∧
    (∀ agent ∈ agents, w.now + m.getAgentExecutionTime agent ≤ w1.now) ∧
    (w1.now = w.now ∨ ∃ agent ∈ agents, w1.now = w.now + m.getAgentExecutionTime agent) := by
  have hperm : (executePhase.completionOrder
      (executePhase.fanOut m input w.now agents 0 w).1).Perm
      (executePhase.fanOut m input w.now agents 0 w).1 :=
    List.perm_insertionSort _ _
  have hdues := executePhase.fanOut_dues m input w.now agents 0 w
  have hstart := executePhase.fanOut_now m input w.now agents 0 w
  simp only [executePhase.parallel] at h
  split at h
  · simp at h
  · next settled w2 heq =>
    simp only [Prod.mk.injEq, Except.ok.injEq] at h
    obtain ⟨h1, h2, h3⟩ := executePhase.settle_now m input _ _ _ _ _ heq
    rw [hstart, h.2] at h1 h3
    rw [h.2] at h2
    refine ⟨h1, ?_, ?_⟩
    · intro agent hagent
      have hmem : w.now + m.getAgentExecutionTime agent
          ∈ (executePhase.fanOut m input w.now agents 0 w).1.map (fun p => p.due) := by
        rw [hdues]
        exact List.mem_map.2 ⟨agent, hagent, rfl⟩
      obtain ⟨p, hp, hdue⟩ := List.mem_map.1 hmem
      rw [← hdue]
      exact h2 p (hperm.mem_iff.2 hp)
    · rcases h3 with h3 | ⟨p, hp, h3⟩
      · exact Or.inl h3
      · right
        have hmem : p.due
            ∈ (executePhase.fanOut m input w.now agents 0 w).1.map (fun p => p.due) :=
          List.mem_map.2 ⟨p, hperm.mem_iff.1 hp, rfl⟩
        rw [hdues] at hmem
        obtain ⟨agent, hagent, hdue⟩ := List.mem_map.1 hmem
        exact ⟨agent, hagent, by rw [h3, ← hdue]⟩

theorem executePhase_times (m : Methods) (phase : Phase) (w w1 : World)
    (phaseResult : PhaseResult) (h : executePhase m phase w = (.ok phaseResult, w1)) :
    phaseResult.duration = (w1.now : Int) - (w.now : Int) ∧
    (phase.parallelTruthy = false →
      w1.now = w.now + (phase.agents.map m.getAgentExecutionTime).sum) ∧
    (phase.parallelTruthy = true →
      w.now ≤ w1.now ∧
      (∀ agent ∈ phase.agents, w.now + m.getAgentExecutionTime agent ≤ w1.now) ∧
      (w1.now = w.now ∨
        ∃ agent ∈ phase.agents, w1.now = w.now + m.getAgentExecutionTime agent)) := by
  simp only [executePhase] at h
  split at h
  · simp at h
  · next rs w2 heq =>
    simp only [Prod.mk.injEq, Except.ok.injEq] at h
    obtain ⟨hpr, hw⟩ := h
    subst hw
    refine ⟨by rw [← hpr], ?_, ?_⟩
    · intro hseq
      simp only [hseq, Bool.false_eq_true, if_false] at heq
      exact executePhase.sequential_now m _ _ _ _ _ _ heq
    · intro hpar
      simp only [hpar, if_true] at heq
      exact executePhase.parallel_now m _ _ _ _ _ heq

theorem executeWorkflow.loop_now (m : Methods) (inc : Phase → Nat)
    (hinc : ∀ phase w phaseResult w1,
      executePhase m phase w = (.ok phaseResult, w1) → w1.now = w.now + inc phase) :
    ∀ (phases : List Phase) (acc : List PhaseResult) (w w1 : World) (rs : List PhaseResult),
      executeWorkflow.loop m phases acc w = (none, rs, w1) →
        w1.now = w.now + (phases.map inc).sum := by
  intro phases
  induction phases with
  | nil =>
    intro acc w w1 rs h
    simp only [executeWorkflow.loop, Prod.mk.injEq, true_and] at h
    simp [h.2]
  | cons phase rest ih =>
    intro acc w w1 rs h
    simp only [executeWorkflow.loop] at h
    split at h
    · simp at h
    · next phaseResult w2 heq =>
      rw [ih _ _ _ _ h]
      simp only
      rw [hinc phase w phaseResult w2 heq, List.map_cons, List.sum_cons, Nat.add_assoc]

theorem executeWorkflow_duration (m : Methods) (inc : Phase → Nat)
    (hinc : ∀ phase w phaseResult w1,
      executePhase m phase w = (.ok phaseResult, w1) → w1.now = w.now + inc phase)
    (workflow : Workflow) (w : World) (results : WorkflowResult)
    (h : (executeWorkflow m workflow w).1 = .ok results) :
    results.duration = ((workflow.phases.map inc).sum : Nat) := by
  simp only [executeWorkflow] at h
  split at h
  · simp at h
  · next rs w1 heq =>
    simp only [Except.ok.injEq] at h
    have hnow := executeWorkflow.loop_now m inc hinc _ _ _ _ _ heq
    simp only at hnow
    rw [← h]
    simp only
    rw [hnow]
    push_cast
    ring

end AgentWorkflowDemo

namespace AgentWorkflowDemo

theorem executePhase_now_of_fixed_latency (m : Methods) (latency : Nat)
    (hL : ∀ agent, m.getAgentExecutionTime agent = latency) (phase : Phase) (w : World)
    (phaseResult : PhaseResult) (w1 : World)
    (h : executePhase m phase w = (.ok phaseResult, w1)) :
    w1.now = w.now +
      (if phase.parallelTruthy then min latency (latency * phase.agents.length)
        else latency * phase.agents.length) := by
  obtain ⟨_, hseq, hpar⟩ := executePhase_times m phase w w1 phaseResult h
  have hsum : (phase.agents.map m.getAgentExecutionTime).sum
      = latency * phase.agents.length := by
    have hmap : phase.agents.map m.getAgentExecutionTime
        = phase.agents.map (fun _ => latency) :=
      List.map_congr_left (fun agent _ => hL agent)
    rw [hmap, List.map_const', List.sum_replicate, smul_eq_mul, Nat.mul_comm]
  by_cases hp : phase.parallelTruthy = true
  · obtain ⟨h1, h2, h3⟩ := hpar hp
    simp only [hp, if_true]
    cases hagents : phase.agents with
    | nil =>
      rw [hagents] at h3
      simp only [List.not_mem_nil, false_and, exists_false, or_false] at h3
      simp [h3]
    | cons agent rest =>
      have hge := h2 agent (by rw [hagents]; exact List.mem_cons_self _ _)
      rw [hL] at hge
      have hmin : min latency (latency * (agent :: rest).length) = latency := by
        apply min_eq_left
        simp only [List.length_cons]
        exact Nat.le_mul_of_pos_right _ (Nat.succ_pos _)
      rw [hmin]
      rcases h3 with h3 | ⟨other, _, h3⟩
      · omega
      · rw [hL] at h3
        exact h3
  · have hp2 : phase.parallelTruthy = false := by simpa using hp
    simp only [hp2, Bool.false_eq_true, if_false]
    rw [hseq hp2, hsum]

/-- C23: under the virtual clock, when every worker takes the same time L, three
sequential phases of one worker each give a workflow duration of 3 L and one parallel
phase of the same three workers gives L; in general the duration of a parallel phase is
at least the time of each of its workers and equal to the time of one of them, the
slowest. -/
theorem executeWorkflow_barrier_timing (m : Methods) (latency : Nat) (a b c : String)
    (w : World) (sequentialResults parallelResults : WorkflowResult)
    (hL : ∀ agent, m.getAgentExecutionTime agent = latency)
    (h1 : (executeWorkflow m (threeSequential a b c) w).1 = .ok sequentialResults)
    (h2 : (executeWorkflow m (oneParallel a b c) w).1 = .ok parallelResults) :
    sequentialResults.duration = 3 * (latency : Int) ∧
    parallelResults.duration = (latency : Int) ∧
    ∀ (phase : Phase) (w2 : World) (phaseResult : PhaseResult),
      phase.parallelTruthy = true → (executePhase m phase w2).1 = .ok phaseResult →
        (∀ agent ∈ phase.agents,
          (m.getAgentExecutionTime agent : Int) ≤ phaseResult.duration) ∧
        (phase.agents ≠ [] →
          ∃ agent ∈ phase.agents,
            phaseResult.duration = (m.getAgentExecutionTime agent : Int)) := by
  have hinc := executePhase_now_of_fixed_latency m latency hL
  refine ⟨?_, ?_, ?_⟩
  · rw [executeWorkflow_duration m _ hinc _ w sequentialResults h1]
    simp only [threeSequential, Phase.parallelTruthy, List.map_cons, List.map_nil,
      List.length_singleton]
    norm_num
    ring
  · rw [executeWorkflow_duration m _ hinc _ w parallelResults h2]
    simp only [oneParallel, Phase.parallelTruthy, List.map_cons, List.map_nil,
      List.length_cons, List.length_nil]
    norm_num
    omega
  · intro phase w2 phaseResult hpar hok
    obtain ⟨hd, _, hp⟩ := executePhase_times m phase w2 (executePhase m phase w2).2
      phaseResult (by rw [← hok])
    obtain ⟨h3, h4, h5⟩ := hp hpar
    constructor
    · intro agent hagent
      have := h4 agent hagent
      rw [hd]
      omega
    · intro hne
      rcases h5 with h5 | ⟨agent, hagent, h5⟩
      · obtain ⟨agent, hagent⟩ := List.exists_mem_of_ne_nil _ hne
        have := h4 agent hagent
        exact ⟨agent, hagent, by rw [hd]; omega⟩
      · exact ⟨agent, hagent, by rw [hd]; omega⟩

/-- Witness for C23: three workers of 2000 milliseconds each take 6000 milliseconds in
three sequential phases and 2000 in one parallel phase. -/
theorem executeWorkflow_barrier_timing_witness :
    (∀ agent, (fixedLatency 2000).getAgentExecutionTime agent = 2000) ∧
    (executeWorkflow (fixedLatency 2000)
      (threeSequential "test-engineer" "performance-optimizer" "security-auditor")
      demoWorld).1 = .ok threeSequentialResult ∧
    (executeWorkflow (fixedLatency 2000)
      (oneParallel "test-engineer" "performance-optimizer" "security-auditor")
      demoWorld).1 = .ok oneParallelResult ∧
    threeSequentialResult.duration = 3 * ((2000 : Nat) : Int) ∧
    oneParallelResult.duration = ((2000 : Nat) : Int) :=
  ⟨fun _ => rfl, rfl, rfl,
    (executeWorkflow_barrier_timing (fixedLatency 2000) 2000 "test-engineer"
      "performance-optimizer" "security-auditor" demoWorld threeSequentialResult
      oneParallelResult (fun _ => rfl) rfl rfl).1,
    (executeWorkflow_barrier_timing (fixedLatency 2000) 2000 "test-engineer"
      "performance-optimizer" "security-auditor" demoWorld threeSequentialResult
      oneParallelResult (fun _ => rfl) rfl rfl).2.1⟩

/-- C28: under the virtual clock every agent result of a phase has duration 0, whatever
`getAgentExecutionTime` returns, so the aggregated output reports `total_duration` 0,
while the duration of a sequential phase is the sum of the execution times of its
workers. -/
theorem executePhase_durations (m : Methods) (phase : Phase) (w : World)
    (phaseResult : PhaseResult) (h : (executePhase m phase w).1 = .ok phaseResult) :
    (∀ r ∈ phaseResult.agentResults, r.duration = 0) ∧
    phaseResult.output.total_duration = 0 ∧
    (phase.parallelTruthy = false →
      phaseResult.duration = ((phase.agents.map m.getAgentExecutionTime).sum : Nat)) := by
  have hrun : executePhase m phase w = (.ok phaseResult, (executePhase m phase w).2) := by
    rw [← h]
  have hzero : ∀ r ∈ phaseResult.agentResults, r.duration = 0 :=
    executePhase_forall m phase (fun r => r.duration = 0)
      (fun agent w2 r w3 hr => (executeAgent.resume_times m agent phase.input w2 w3 r hr).2.2)
      w _ phaseResult hrun
  obtain ⟨hd, hseq, _⟩ := executePhase_times m phase w _ phaseResult hrun
  refine ⟨hzero, ?_, ?_⟩
  · rw [(executePhase_ok m phase w _ phaseResult hrun).2.2.2, aggregateAgentResults_eq]
    simp only
    apply List.sum_eq_zero
    intro x hx
    obtain ⟨r, hr, rfl⟩ := List.mem_map.1 hx
    exact hzero r hr
  · intro hs
    rw [hd, hseq hs]
    push_cast
    ring

/-- Witness for C28: a sequential phase of three workers taking 2000, 2500 and 4000
milliseconds lasts 8500 milliseconds, and every recorded worker duration is 0. -/
theorem executePhase_durations_witness :
    (executePhase simulated auditSecondPhase demoWorld).1 = .ok auditSecondPhaseResult ∧
    auditSecondPhaseResult.agentResults.map (fun r => r.duration) = [0, 0, 0] ∧
    auditSecondPhaseResult.output.total_duration = 0 ∧
    auditSecondPhaseResult.duration = 8500 :=
  ⟨rfl, by decide,
    (executePhase_durations simulated auditSecondPhase demoWorld auditSecondPhaseResult
      rfl).2.1,
    by decide⟩

end AgentWorkflowDemo

/-! ## The metrics of a workflow from its definition -/

theorem List.map_eq_map_of_forall₂ {α β γ : Type} (f : α → γ) (g : β → γ)
    (l₁ : List α) (l₂ : List β) (h : List.Forall₂ (fun a b => g b = f a) l₁ l₂) :
    l₂.map g = l₁.map f := by
  induction h with
  | nil => rfl
  | cons hd _ ih => simp [hd, ih]

namespace AgentWorkflowDemo

theorem executePhase_label (m : Methods) (phase : Phase) (w w1 : World)
    (phaseResult : PhaseResult) (h : executePhase m phase w = (.ok phaseResult, w1)) :
    phaseResult.coordination = if phase.parallelTruthy then "parallel" else "sequential" := by
  simp only [executePhase] at h
  split at h
  · simp at h
  · simp only [Prod.mk.injEq, Except.ok.injEq] at h
    rw [← h.1]

theorem executeWorkflow.loop_labels (m : Methods) :
    ∀ (phases : List Phase) (acc : List PhaseResult) (w w1 : World) (rs : List PhaseResult),
      executeWorkflow.loop m phases acc w = (none, rs, w1) →
        ∃ new, rs = acc ++ new ∧
          List.Forall₂
            (fun phase phaseResult =>
              (decide (phaseResult.coordination = "parallel"), phaseResult.agentResults.length)
                = (phase.parallelTruthy, phase.agents.length))
            phases new := by
  intro phases
  induction phases with
  | nil =>
    intro acc w w1 rs h
    simp only [executeWorkflow.loop, Prod.mk.injEq, true_and] at h
    exact ⟨[], by simp [h.1], List.Forall₂.nil⟩
  | cons phase rest ih =>
    intro acc w w1 rs h
    simp only [executeWorkflow.loop] at h
    split at h
    · simp at h
    · next phaseResult w2 heq =>
      obtain ⟨new, hrs, hall⟩ := ih _ _ _ _ h
      refine ⟨phaseResult :: new, by simp [hrs], List.Forall₂.cons ?_ hall⟩
      have hlabel := executePhase_label m phase w w2 phaseResult heq
      have hlen := congrArg List.length (executePhase_ok m phase w w2 phaseResult heq).2.2.1
      rw [List.length_map] at hlen
      rw [hlabel, hlen]
      cases hp : phase.parallelTruthy <;> simp

end AgentWorkflowDemo

/-! ## Wave orchestration -/

namespace AgentCoordinator

/-- C25: `executeWaveOrchestration` delegates to exactly three agents, in the order
`architecture-analyst`, `security-auditor`, `performance-optimizer`, which is the order of
the agents in `expectedOrchestration` of the orchestrator suite; the task of the second
carries the result of the first as `previousWave`, the task of the third carries the
results of the first two as `previousWaves`; the value returned has `orchestrationType`
`wave` and the three results as `waves`; and `coordinateAnalysis` returns the wave
orchestration exactly when `shouldTriggerWaveMode` is true. -/
theorem executeWaveOrchestration_shape
    (executeStandardDelegation : ProjectContext → CoordinatorWorld → JsVal × CoordinatorWorld)
    (projectContext : ProjectContext) (w : CoordinatorWorld) :
    (∃ wave1 wave2 wave3 task1 task2 task3,
      (executeWaveOrchestration projectContext w).1.waves = [wave1, wave2, wave3] ∧
      (executeWaveOrchestration projectContext w).2.delegated
        = w.delegated ++
          [{ agentName := "architecture-analyst", taskSpec := task1 },
           { agentName := "security-auditor", taskSpec := task2 },
           { agentName := "performance-optimizer", taskSpec := task3 }] ∧
      wave1.agent = "architecture-analyst" ∧ wave2.agent = "security-auditor" ∧
      wave3.agent = "performance-optimizer" ∧
      task1.previousWave = none ∧ task1.previousWaves = none ∧
      task2.previousWave = some wave1 ∧ task2.previousWaves = none ∧
      task3.previousWave = none ∧ task3.previousWaves = some [wave1, wave2] ∧
      task1.context = projectContext ∧ task2.context = projectContext ∧
      task3.context = projectContext) ∧
    ((executeWaveOrchestration projectContext w).2.delegated.drop w.delegated.length).map
        (fun d => d.agentName)
      = AgentTestingFramework.testAgentOrchestratorAgent.expectedOrchestration.phases.flatMap
          (fun p => p.agents) ∧
    (executeWaveOrchestration projectContext w).1.orchestrationType = "wave" ∧
    ((∃ result,
        (coordinateAnalysis executeStandardDelegation projectContext w).1 = .wave result)
      ↔ shouldTriggerWaveMode projectContext = true) ∧
    (shouldTriggerWaveMode projectContext = true →
      coordinateAnalysis executeStandardDelegation projectContext w
        = (.wave (executeWaveOrchestration projectContext w).1,
            (executeWaveOrchestration projectContext w).2)) := by
  refine ⟨⟨_, _, _,
    { task := "comprehensive_architecture_analysis"
      context := projectContext
      focus := "system_design_and_patterns" },
    { task := "security_vulnerability_assessment"
      context := projectContext
      previousWave := some (executeWaveOrchestration projectContext w).1.waves[0]!
      focus := "vulnerability_assessment_and_compliance" },
    { task := "performance_bottleneck_analysis"
      context := projectContext
      previousWaves := some ((executeWaveOrchestration projectContext w).1.waves.take 2)
      focus := "performance_optimization_and_scalability" },
    rfl, ?_, rfl, rfl, rfl, rfl, rfl, rfl, rfl, rfl, rfl, rfl, rfl, rfl⟩, ?_, rfl, ?_, ?_⟩
  · simp only [executeWaveOrchestration, delegateToAgent, List.append_assoc]
    rfl
  · simp only [executeWaveOrchestration, delegateToAgent, List.append_assoc,
      List.drop_left]
    rfl
  · cases hs : shouldTriggerWaveMode projectContext
    · simp [coordinateAnalysis, hs]
    · simp [coordinateAnalysis, hs]
  · intro hs
    simp [coordinateAnalysis, hs]

/-- C26, the defect: for the complex task of the orchestrator suite, with the number of its
files and its domains as signals, `shouldTriggerWaveMode` is false, while the suite of the
repository expects the strategy `wave_orchestration` for that task. -/
theorem shouldTriggerWaveMode_complexTask_false :
    shouldTriggerWaveMode
        AgentTestingFramework.testAgentOrchestratorAgent.complexTask.toProjectContext
      = false ∧
    AgentTestingFramework.testAgentOrchestratorAgent.expectedOrchestration.strategy
      = "wave_orchestration" := by
  constructor
  · cases hs : shouldTriggerWaveMode
        AgentTestingFramework.testAgentOrchestratorAgent.complexTask.toProjectContext
    · rfl
    · rw [shouldTriggerWaveMode_eq_true_iff] at hs
      have := hs.2.1
      simp [AgentTestingFramework.ComplexTask.toProjectContext,
        AgentTestingFramework.testAgentOrchestratorAgent] at this
  · rfl

/-- Where the rule and the orchestrator suite part: the complex task has complexity 0.8,
above the threshold, and 4 domains, above the threshold, but 4 files, which do not exceed
20; with any number of files in their place the rule is true exactly when that number
exceeds 20. -/
theorem shouldTriggerWaveMode_complexTask_files :
    AgentTestingFramework.testAgentOrchestratorAgent.complexTask.toProjectContext.complexity
      = 8 / 10 ∧
    AgentTestingFramework.testAgentOrchestratorAgent.complexTask.toProjectContext.domains.length
      = 4 ∧
    AgentTestingFramework.testAgentOrchestratorAgent.complexTask.toProjectContext.files
      = 4 ∧
    ∀ files : Nat,
      shouldTriggerWaveMode
          { AgentTestingFramework.testAgentOrchestratorAgent.complexTask.toProjectContext with
            files := files } = true
        ↔ files > 20 := by
  refine ⟨?_, rfl, rfl, ?_⟩
  · norm_num [AgentTestingFramework.ComplexTask.toProjectContext,
      AgentTestingFramework.testAgentOrchestratorAgent]
  · intro files
    rw [shouldTriggerWaveMode_eq_true_iff]
    norm_num [AgentTestingFramework.ComplexTask.toProjectContext,
      AgentTestingFramework.testAgentOrchestratorAgent]

end AgentCoordinator

/-! ## Validation and the report -/

namespace AgentTestingFramework

theorem reduce_top_performer :
    ∀ (rest before : List ValidationResults) (current : ValidationResults)
      (between : List ValidationResults),
      (∀ r ∈ before, r.effectiveness.overallScore < current.effectiveness.overallScore) →
      (∀ r ∈ between, r.effectiveness.overallScore ≤ current.effectiveness.overallScore) →
      ∃ earlier later,
        before ++ current :: (between ++ rest)
          = earlier ++
            rest.foldl
              (fun max r =>
                if r.effectiveness.overallScore > max.effectiveness.overallScore then r
                else max)
              current :: later ∧
        (∀ r ∈ earlier,
          r.effectiveness.overallScore
            < (rest.foldl
                (fun max r =>
                  if r.effectiveness.overallScore > max.effectiveness.overallScore then r
                  else max)
                current).effectiveness.overallScore) ∧
        (∀ r ∈ later,
          r.effectiveness.overallScore
            ≤ (rest.foldl
                (fun max r =>
                  if r.effectiveness.overallScore > max.effectiveness.overallScore then r
                  else max)
                current).effectiveness.overallScore) := by
  intro rest
  induction rest with
  | nil =>
    intro before current between hb hm
    exact ⟨before, between, by simp, hb, hm⟩
  | cons next rest ih =>
    intro before current between hb hm
    rw [List.foldl_cons]
    by_cases hgt : next.effectiveness.overallScore > current.effectiveness.overallScore
    · rw [if_pos hgt]
      obtain ⟨earlier, later, heq, h1, h2⟩ :=
        ih (before ++ current :: between) next [] (by
          intro r hr
          rcases List.mem_append.1 hr with hr | hr
          · exact lt_trans (hb r hr) hgt
          · rcases List.mem_cons.1 hr with rfl | hr
            · exact hgt
            · exact lt_of_le_of_lt (hm r hr) hgt) (by simp)
      refine ⟨earlier, later, ?_, h1, h2⟩
      rw [← heq]
      simp
    · rw [if_neg hgt]
      obtain ⟨earlier, later, heq, h1, h2⟩ :=
        ih before current (between ++ [next]) hb (by
          intro r hr
          rcases List.mem_append.1 hr with hr | hr
          · exact hm r hr
          · rw [List.mem_singleton.1 hr]
            exact le_of_not_gt hgt)
      refine ⟨earlier, later, ?_, h1, h2⟩
      rw [← heq]
      simp

/-- C30, the defect: `generateTestingReport` calls `this.identifySystemWideImprovements`
while it builds the summary, and the repository defines no such method. With the class as
the repository has it the call throws a `TypeError` for every non-empty list, the list of
one result included, so that no report is returned; for the empty list the `reduce` of
`topPerformer` throws before that. The summary the claim describes is what the code builds
up to that call: with the two missing methods defined, the report of a non-empty list is
returned, `totalAgents` is the length of the list and `topPerformer` is the earliest
element of largest overall score. -/
theorem generateTestingReport_throws :
    generateTestingReport ReportMethods.ofRepository [validationScoring "a" 1]
      = .error "TypeError: this.identifySystemWideImprovements is not a function" ∧
    (∀ (first : ValidationResults) (rest : List ValidationResults),
      generateTestingReport ReportMethods.ofRepository (first :: rest)
        = .error "TypeError: this.identifySystemWideImprovements is not a function") ∧
    generateTestingReport ReportMethods.ofRepository []
      = .error "TypeError: Reduce of empty array with no initial value" ∧
    (∀ allResults, ¬ ∃ report,
      generateTestingReport ReportMethods.ofRepository allResults = .ok report) ∧
    (∀ (identifySystemWideImprovements generateImprovementRecommendations :
        List ValidationResults → JsVal)
      (first : ValidationResults) (rest : List ValidationResults),
      ∃ report,
        generateTestingReport
          { identifySystemWideImprovements := some identifySystemWideImprovements
            generateImprovementRecommendations := some generateImprovementRecommendations }
          (first :: rest) = .ok report ∧
        report.summary.totalAgents = (first :: rest).length ∧
        ∃ earlier later,
          first :: rest = earlier ++ report.summary.topPerformer :: later ∧
          (∀ r ∈ earlier,
            r.effectiveness.overallScore
              < report.summary.topPerformer.effectiveness.overallScore) ∧
          (∀ r ∈ later,
            r.effectiveness.overallScore
              ≤ report.summary.topPerformer.effectiveness.overallScore)) := by
  have hne : ∀ (first : ValidationResults) (rest : List ValidationResults),
      generateTestingReport ReportMethods.ofRepository (first :: rest)
        = .error "TypeError: this.identifySystemWideImprovements is not a function" := by
    intro first rest
    simp only [generateTestingReport, reduceNoInit, callMethod, ReportMethods.ofRepository]
    rfl
  refine ⟨hne _ _, hne, rfl, ?_, ?_⟩
  · intro allResults
    rintro ⟨report, hr⟩
    cases allResults with
    | nil => cases hr
    | cons first rest => rw [hne] at hr; cases hr
  · intro f g first rest
    obtain ⟨earlier, later, heq, h1, h2⟩ :=
      reduce_top_performer rest [] first [] (by simp) (by simp)
    have hreport : generateTestingReport
        { identifySystemWideImprovements := some f
          generateImprovementRecommendations := some g } (first :: rest)
        = .ok
          { summary :=
              { totalAgents := (first :: rest).length
                averageScore :=
                  F64.div
                    ((first :: rest).foldl
                      (fun sum r => F64.add sum r.effectiveness.overallScore) 0)
                    ((first :: rest).length : ℚ)
                topPerformer :=
                  rest.foldl
                    (fun max r =>
                      if r.effectiveness.overallScore > max.effectiveness.overallScore
                      then r else max)
                    first
                areasForImprovement := f (first :: rest) }
            agentPerformance := first :: rest
            recommendations := g (first :: rest) } := by
      simp only [generateTestingReport, reduceNoInit, callMethod]
    exact ⟨_, hreport, rfl, earlier, later, by simpa using heq, h1, h2⟩

end AgentTestingFramework

/-! ## Binary64 arithmetic: the rounding error -/

namespace F64

theorem twoPow_eq (e : Int) : twoPow e = (2 : ℚ) ^ e := by
  unfold twoPow
  split
  · next h =>
    have : e = (e.toNat : Int) := (Int.toNat_of_nonneg h).symm
    conv_rhs => rw [this]
    rw [zpow_natCast]
    push_cast
    rfl
  · next h =>
    have hneg : 0 ≤ -e := by omega
    have : e = -((-e).toNat : Int) := by rw [Int.toNat_of_nonneg hneg]; ring
    conv_rhs => rw [this]
    rw [zpow_neg, zpow_natCast]
    push_cast
    rw [one_div]

theorem twoPow_pos (e : Int) : 0 < twoPow e := by
  rw [twoPow_eq]
  positivity

theorem twoPow_le_twoPow {a b : Int} (h : a ≤ b) : twoPow a ≤ twoPow b := by
  rw [twoPow_eq, twoPow_eq]
  exact zpow_le_zpow_right₀ (by norm_num) h

theorem twoPow_lt_twoPow_iff {a b : Int} : twoPow a < twoPow b ↔ a < b := by
  rw [twoPow_eq, twoPow_eq]
  exact zpow_lt_zpow_iff_right₀ (by norm_num)

theorem halvings_spec :
    ∀ (fuel n : Nat), 0 < n → n ≤ fuel →
      2 ^ halvings fuel n ≤ n ∧ n < 2 ^ (halvings fuel n + 1) := by
  intro fuel
  induction fuel with
  | zero => intro n h0 h; omega
  | succ fuel ih =>
    intro n h0 h
    simp only [halvings]
    split
    · next h2 => simp; omega
    · next h2 =>
      have hhalf : 0 < n / 2 := by omega
      obtain ⟨hl, hu⟩ := ih (n / 2) hhalf (by omega)
      rw [pow_succ, pow_succ]
      rw [pow_succ] at hu
      constructor <;> omega

theorem log2_spec (n : Nat) (h : 0 < n) : 2 ^ log2 n ≤ n ∧ n < 2 ^ (log2 n + 1) :=
  halvings_spec n n h le_rfl

theorem abs_eq_natAbs_div_den (q : ℚ) : |q| = (q.num.natAbs : ℚ) / (q.den : ℚ) := by
  have hd : (0 : ℚ) < q.den := by exact_mod_cast q.den_pos
  rw [eq_div_iff (ne_of_gt hd)]
  have h1 : |q| * (q.den : ℚ) = |q * q.den| := by rw [abs_mul, abs_of_pos hd]
  rw [h1, Rat.mul_den_eq_num, Nat.cast_natAbs, Int.cast_abs]

theorem exponent_spec (q : ℚ) (hq : q ≠ 0) :
    twoPow (exponent q) ≤ |q| ∧ |q| < twoPow (exponent q + 1) := by
  have hn : 0 < q.num.natAbs := Int.natAbs_pos.2 (Rat.num_ne_zero.2 hq)
  have hd : 0 < q.den := q.den_pos
  obtain ⟨hnl, hnu⟩ := log2_spec _ hn
  obtain ⟨hdl, hdu⟩ := log2_spec _ hd
  have hdq : (0 : ℚ) < q.den := by exact_mod_cast hd
  have hnlq : (2 : ℚ) ^ log2 q.num.natAbs ≤ q.num.natAbs := by exact_mod_cast hnl
  have hnuq : (q.num.natAbs : ℚ) < 2 ^ (log2 q.num.natAbs + 1) := by exact_mod_cast hnu
  have hdlq : (2 : ℚ) ^ log2 q.den ≤ q.den := by exact_mod_cast hdl
  have hduq : (q.den : ℚ) < 2 ^ (log2 q.den + 1) := by exact_mod_cast hdu
  have habs := abs_eq_natAbs_div_den q
  simp only [exponent]
  split
  · next h =>
    refine ⟨h, ?_⟩
    rw [twoPow_eq, habs, div_lt_iff₀ hdq]
    have e1 : ((log2 q.num.natAbs : Int) - (log2 q.den : Int) + 1)
        = ((log2 q.num.natAbs + 1 : Nat) : Int) - ((log2 q.den : Nat) : Int) := by
      push_cast; ring
    rw [e1, zpow_sub₀ (by norm_num), zpow_natCast, zpow_natCast]
    have hp : (0 : ℚ) < 2 ^ log2 q.den := by positivity
    calc (q.num.natAbs : ℚ) < 2 ^ (log2 q.num.natAbs + 1) := hnuq
      _ = 2 ^ (log2 q.num.natAbs + 1) / 2 ^ log2 q.den * 2 ^ log2 q.den := by
          field_simp
      _ ≤ 2 ^ (log2 q.num.natAbs + 1) / 2 ^ log2 q.den * q.den := by
          apply mul_le_mul_of_nonneg_left hdlq
          positivity
  · next h =>
    refine ⟨?_, ?_⟩
    · rw [twoPow_eq, habs, le_div_iff₀ hdq]
      have e1 : ((log2 q.num.natAbs : Int) - (log2 q.den : Int) - 1)
          = ((log2 q.num.natAbs : Nat) : Int) - ((log2 q.den + 1 : Nat) : Int) := by
        push_cast; ring
      rw [e1, zpow_sub₀ (by norm_num), zpow_natCast, zpow_natCast]
      have hp : (0 : ℚ) < 2 ^ (log2 q.den + 1) := by positivity
      calc (2 : ℚ) ^ log2 q.num.natAbs / 2 ^ (log2 q.den + 1) * q.den
          ≤ 2 ^ log2 q.num.natAbs / 2 ^ (log2 q.den + 1) * 2 ^ (log2 q.den + 1) := by
            apply mul_le_mul_of_nonneg_left hduq.le
            positivity
        _ = 2 ^ log2 q.num.natAbs := by field_simp
        _ ≤ q.num.natAbs := hnlq
    · have : (log2 q.num.natAbs : Int) - (log2 q.den : Int) - 1 + 1
          = (log2 q.num.natAbs : Int) - (log2 q.den : Int) := by ring
      rw [this]
      exact lt_of_not_le h

theorem roundHalfEven_error (q : ℚ) : |((roundHalfEven q : Int) : ℚ) - q| ≤ 1 / 2 := by
  have h1 : ((⌊q⌋ : Int) : ℚ) ≤ q := Int.floor_le q
  have h2 : q < ((⌊q⌋ : Int) : ℚ) + 1 := Int.lt_floor_add_one q
  simp only [roundHalfEven]
  rw [abs_le]
  split
  · next h => constructor <;> linarith
  · next h =>
    split
    · next h3 => push_cast; constructor <;> linarith
    · next h3 =>
      have h4 : q - ⌊q⌋ = 1 / 2 := le_antisymm (not_lt.1 h3) (not_lt.1 h)
      split
      · constructor <;> linarith
      · push_cast; constructor <;> linarith

theorem round_error (q : ℚ) (k : Int) (hk : -1022 ≤ k) (hq : |q| < twoPow (k + 1)) :
    |round q - q| ≤ twoPow (k - 53) := by
  by_cases h0 : q = 0
  · subst h0
    simp [round, (twoPow_pos _).le]
  · simp only [round, if_neg h0]
    obtain ⟨hl, _⟩ := exponent_spec q h0
    have he : exponent q < k + 1 := twoPow_lt_twoPow_iff.1 (lt_of_le_of_lt hl hq)
    have hu : 0 < ulp q := twoPow_pos _
    have hule : ulp q ≤ twoPow (k - 52) := by
      apply twoPow_le_twoPow
      have : max (exponent q) (-1022) ≤ k := max_le (by omega) hk
      omega
    have herr := roundHalfEven_error (q / ulp q)
    have hrew : ((roundHalfEven (q / ulp q) : Int) : ℚ) * ulp q - q
        = (((roundHalfEven (q / ulp q) : Int) : ℚ) - q / ulp q) * ulp q := by
      field_simp
    rw [hrew, abs_mul, abs_of_pos hu]
    have h53 : twoPow (k - 53) = twoPow (k - 52) / 2 := by
      rw [twoPow_eq, twoPow_eq]
      have : k - 52 = (k - 53) + 1 := by ring
      rw [this, zpow_add_one₀ (by norm_num)]
      ring
    rw [h53]
    calc |((roundHalfEven (q / ulp q) : Int) : ℚ) - q / ulp q| * ulp q
        ≤ 1 / 2 * ulp q := mul_le_mul_of_nonneg_right herr hu.le
      _ ≤ 1 / 2 * twoPow (k - 52) := by linarith
      _ = twoPow (k - 52) / 2 := by ring

theorem round_error_of_lt_quarter (q : ℚ) (h : |q| < 1 / 4) :
    |round q - q| ≤ 1 / 2 ^ 56 := by
  have := round_error q (-3) (by norm_num) (by rw [twoPow_eq]; norm_num; linarith)
  rw [twoPow_eq] at this
  norm_num at this ⊢
  linarith

theorem round_error_of_lt_half (q : ℚ) (h : |q| < 1 / 2) :
    |round q - q| ≤ 1 / 2 ^ 55 := by
  have := round_error q (-2) (by norm_num) (by rw [twoPow_eq]; norm_num; linarith)
  rw [twoPow_eq] at this
  norm_num at this ⊢
  linarith

theorem round_error_of_lt_one (q : ℚ) (h : |q| < 1) : |round q - q| ≤ 1 / 2 ^ 54 := by
  have := round_error q (-1) (by norm_num) (by rw [twoPow_eq]; norm_num; linarith)
  rw [twoPow_eq] at this
  norm_num at this ⊢
  linarith

theorem round_error_of_lt_two (q : ℚ) (h : |q| < 2) : |round q - q| ≤ 1 / 2 ^ 53 := by
  have := round_error q 0 (by norm_num) (by rw [twoPow_eq]; norm_num; linarith)
  rw [twoPow_eq] at this
  norm_num at this ⊢
  linarith

end F64

/-! ## Effectiveness and grades as the code computes them -/

namespace AgentTestingFramework.Double

theorem lit_weights :
    F64.lit 0.4 = 3602879701896397 / 9007199254740992 ∧
    F64.lit 0.3 = 5404319552844595 / 18014398509481984 := by
  decide!

theorem weighted_sum_error (a b c : ℚ) (ha0 : 0 ≤ a) (ha1 : a ≤ 1) (hb0 : 0 ≤ b)
    (hb1 : b ≤ 1) (hc0 : 0 ≤ c) (hc1 : c ≤ 1) :
    |F64.add (F64.add (F64.mul a (F64.lit 0.4)) (F64.mul b (F64.lit 0.3)))
        (F64.mul c (F64.lit 0.3)) - (0.4 * a + 0.3 * b + 0.3 * c)| ≤ 1 / 2 ^ 51 := by
  obtain ⟨h4, h3⟩ := lit_weights
  simp only [F64.add, F64.mul, h4, h3]
  have e1 := F64.round_error_of_lt_half (a * (3602879701896397 / 9007199254740992))
    (by rw [abs_lt]; constructor <;> linarith)
  have e2 := F64.round_error_of_lt_half (b * (5404319552844595 / 18014398509481984))
    (by rw [abs_lt]; constructor <;> linarith)
  have e3 := F64.round_error_of_lt_half (c * (5404319552844595 / 18014398509481984))
    (by rw [abs_lt]; constructor <;> linarith)
  generalize F64.round (a * (3602879701896397 / 9007199254740992)) = p1 at e1 ⊢
  generalize F64.round (b * (5404319552844595 / 18014398509481984)) = p2 at e2 ⊢
  generalize F64.round (c * (5404319552844595 / 18014398509481984)) = p3 at e3 ⊢
  rw [abs_le] at e1 e2 e3
  norm_num at e1 e2 e3
  have e4 := F64.round_error_of_lt_one (p1 + p2)
    (by rw [abs_lt]; constructor <;> linarith [e1.1, e1.2, e2.1, e2.2])
  generalize F64.round (p1 + p2) = s1 at e4 ⊢
  rw [abs_le] at e4
  norm_num at e4
  have e5 := F64.round_error_of_lt_two (s1 + p3)
    (by rw [abs_lt]; constructor <;> linarith [e1.1, e1.2, e2.1, e2.2, e3.1, e3.2, e4.1, e4.2])
  generalize F64.round (s1 + p3) = s2 at e5 ⊢
  rw [abs_le] at e5 ⊢
  norm_num at e5 ⊢
  constructor <;> linarith [e1.1, e1.2, e2.1, e2.2, e3.1, e3.2, e4.1, e4.2, e5.1, e5.2]

end AgentTestingFramework.Double

namespace AgentTestingFramework.Double

/-- Counterexample to C16 as stated: for three sub-scores 0.9 the code computes the overall
score 0.9000000000000001, which is larger than the largest of the three. -/
theorem calculateEffectiveness_exceeds_largest :
    (calculateEffectiveness (constantSupplied 0 0 0)
      (uniformResults (F64.lit 0.9))).overallScore = F64.lit 0.9000000000000001 ∧
    max (uniformResults (F64.lit 0.9)).specialization.score
        (max (uniformResults (F64.lit 0.9)).coordination.score
          (uniformResults (F64.lit 0.9)).quality.score) = F64.lit 0.9 ∧
    ¬ (calculateEffectiveness (constantSupplied 0 0 0)
        (uniformResults (F64.lit 0.9))).overallScore
      ≤ max (uniformResults (F64.lit 0.9)).specialization.score
          (max (uniformResults (F64.lit 0.9)).coordination.score
            (uniformResults (F64.lit 0.9)).quality.score) := by
  decide!

/-- C16, as the code has it: `calculateEffectiveness` returns as `overallScore` the value of
specialization.score * 0.4 + coordination.score * 0.3 + quality.score * 0.3 with every
product and sum rounded to the nearest binary64 number, and `grade` = `scoreToGrade
overallScore`. The exact weighted sum lies between the smallest and the largest of the
three sub-scores; for sub-scores between 0 and 1 the `overallScore` computed differs from
it by at most 2^-51, and so lies between the smallest less 2^-51 and the largest plus
2^-51. -/
theorem calculateEffectiveness_overallScore (s : Supplied) (testResults : TestResults) :
    (calculateEffectiveness s testResults).overallScore
      = F64.add
          (F64.add (F64.mul testResults.specialization.score (F64.lit 0.4))
            (F64.mul testResults.coordination.score (F64.lit 0.3)))
          (F64.mul testResults.quality.score (F64.lit 0.3)) ∧
    (calculateEffectiveness s testResults).grade
      = scoreToGrade (calculateEffectiveness s testResults).overallScore ∧
    min testResults.specialization.score
        (min testResults.coordination.score testResults.quality.score)
      ≤ 0.4 * testResults.specialization.score + 0.3 * testResults.coordination.score
        + 0.3 * testResults.quality.score ∧
    0.4 * testResults.specialization.score + 0.3 * testResults.coordination.score
        + 0.3 * testResults.quality.score
      ≤ max testResults.specialization.score
          (max testResults.coordination.score testResults.quality.score) ∧
    (0 ≤ testResults.specialization.score ∧ testResults.specialization.score ≤ 1 →
      0 ≤ testResults.coordination.score ∧ testResults.coordination.score ≤ 1 →
      0 ≤ testResults.quality.score ∧ testResults.quality.score ≤ 1 →
        |(calculateEffectiveness s testResults).overallScore
            - (0.4 * testResults.specialization.score + 0.3 * testResults.coordination.score
              + 0.3 * testResults.quality.score)| ≤ 1 / 2 ^ 51 ∧
        min testResults.specialization.score
            (min testResults.coordination.score testResults.quality.score) - 1 / 2 ^ 51
          ≤ (calculateEffectiveness s testResults).overallScore ∧
        (calculateEffectiveness s testResults).overallScore
          ≤ max testResults.specialization.score
              (max testResults.coordination.score testResults.quality.score) + 1 / 2 ^ 51) := by
  have e4 : (0.4 : ℚ) = 2 / 5 := by norm_num
  have e3 : (0.3 : ℚ) = 3 / 10 := by norm_num
  have hmin : min testResults.specialization.score
        (min testResults.coordination.score testResults.quality.score)
      ≤ 0.4 * testResults.specialization.score + 0.3 * testResults.coordination.score
        + 0.3 * testResults.quality.score := by
    rw [e4, e3]
    have h1 := min_le_left testResults.specialization.score
      (min testResults.coordination.score testResults.quality.score)
    have h2 := (min_le_right testResults.specialization.score
      (min testResults.coordination.score testResults.quality.score)).trans
      (min_le_left _ _)
    have h3 := (min_le_right testResults.specialization.score
      (min testResults.coordination.score testResults.quality.score)).trans
      (min_le_right _ _)
    linarith
  have hmax : 0.4 * testResults.specialization.score + 0.3 * testResults.coordination.score
        + 0.3 * testResults.quality.score
      ≤ max testResults.specialization.score
          (max testResults.coordination.score testResults.quality.score) := by
    rw [e4, e3]
    have h1 := le_max_left testResults.specialization.score
      (max testResults.coordination.score testResults.quality.score)
    have h2 := (le_max_left testResults.coordination.score testResults.quality.score).trans
      (le_max_right testResults.specialization.score _)
    have h3 := (le_max_right testResults.coordination.score testResults.quality.score).trans
      (le_max_right testResults.specialization.score _)
    linarith
  refine ⟨rfl, rfl, hmin, hmax, ?_⟩
  intro hs hc hq
  have herr := weighted_sum_error testResults.specialization.score
    testResults.coordination.score testResults.quality.score hs.1 hs.2 hc.1 hc.2 hq.1 hq.2
  have hov : (calculateEffectiveness s testResults).overallScore
      = F64.add
          (F64.add (F64.mul testResults.specialization.score (F64.lit 0.4))
            (F64.mul testResults.coordination.score (F64.lit 0.3)))
          (F64.mul testResults.quality.score (F64.lit 0.3)) := rfl
  rw [hov]
  refine ⟨herr, ?_, ?_⟩
  · have := (abs_le.1 herr).1
    linarith
  · have := (abs_le.1 herr).2
    linarith

end AgentTestingFramework.Double

namespace AgentTestingFramework.Double

theorem lit_grades :
    F64.lit 0.9 = 8106479329266893 / 9007199254740992 ∧
    F64.lit 0.8 = 3602879701896397 / 4503599627370496 ∧
    F64.lit 0.7 = 3152519739159347 / 4503599627370496 ∧
    F64.lit 0.6 = 5404319552844595 / 9007199254740992 := by
  decide!

theorem fixed_scores (agentName : String) (testSuite : JsVal) :
    (testCoordination agentName).score = 3873095679538627 / 4503599627370496 ∧
    (testOutputQuality agentName testSuite).score
      = 7993889338582631 / 9007199254740992 ∧
    F64.lit 0.8600000000000001 = 3873095679538627 / 4503599627370496 ∧
    F64.lit 0.8875000000000001 = 7993889338582631 / 9007199254740992 := by
  simp only [testCoordination, testOutputQuality]
  decide!

/-- Counterexample to C29 as stated: the coordination score is not 0.86 and the quality
score is not 0.8875; and for the specialization score 0.43937499999999996, which the
measurements 0.43937499999999996, 0.5 and 0.37875 give and which lies in the band from
0.189375 to 0.439375, the overall score is 0.7 and the grade `C`, where the bands of the
claim give `D`. -/
theorem validateAgent_grade_at_band_edge :
    (testCoordination "code-reviewer").score ≠ F64.lit 0.86 ∧
    (testOutputQuality "code-reviewer" .undefined).score ≠ F64.lit 0.8875 ∧
    (validateAgent
      (constantSupplied (F64.lit 0.43937499999999996) (F64.lit 0.5) (F64.lit 0.37875))
      "code-reviewer" .undefined 0).testResults.specialization.score
      = F64.lit 0.43937499999999996 ∧
    (0.189375 : ℚ) ≤ F64.lit 0.43937499999999996 ∧
    F64.lit 0.43937499999999996 < 0.439375 ∧
    (validateAgent
      (constantSupplied (F64.lit 0.43937499999999996) (F64.lit 0.5) (F64.lit 0.37875))
      "code-reviewer" .undefined 0).effectiveness.overallScore = F64.lit 0.7 ∧
    (validateAgent
      (constantSupplied (F64.lit 0.43937499999999996) (F64.lit 0.5) (F64.lit 0.37875))
      "code-reviewer" .undefined 0).effectiveness.grade = "C" := by
  decide!

end AgentTestingFramework.Double

namespace AgentTestingFramework.Double

theorem validateAgent_overallScore_error (s : Supplied) (agentName : String)
    (testSuite : JsVal) (now : Nat)
    (h0 : 0 ≤ (validateAgent s agentName testSuite now).testResults.specialization.score)
    (h1 : (validateAgent s agentName testSuite now).testResults.specialization.score ≤ 1) :
    |(validateAgent s agentName testSuite now).effectiveness.overallScore
      - (0.4 * (validateAgent s agentName testSuite now).testResults.specialization.score
        + 0.3 * (3873095679538627 / 4503599627370496)
        + 0.3 * (7993889338582631 / 9007199254740992))| ≤ 1 / 2 ^ 51 := by
  obtain ⟨hc, hq, _, _⟩ := fixed_scores agentName testSuite
  have hov : (validateAgent s agentName testSuite now).effectiveness.overallScore
      = F64.add
          (F64.add
            (F64.mul (validateAgent s agentName testSuite now).testResults.specialization.score
              (F64.lit 0.4))
            (F64.mul (testCoordination agentName).score (F64.lit 0.3)))
          (F64.mul (testOutputQuality agentName testSuite).score (F64.lit 0.3)) := rfl
  rw [hov, hc, hq]
  exact weighted_sum_error _ _ _ h0 h1 (by norm_num) (by norm_num) (by norm_num) (by norm_num)

/-- C29, as the code has it: in `validateAgent` the coordination score is always
0.8600000000000001 and the output quality score always 0.8875000000000001, so the overall
score, and with it the grade, is a function of the specialization score s alone. For s
between 0 and 1 the overall score differs from 0.4 * s + 0.52425 by at most 2^-50, and the
grade is `A` when s >= 0.939375 + 2^-49, `B` when 0.689375 + 2^-49 <= s <= 0.939375 - 2^-49,
`C` when 0.439375 + 2^-49 <= s <= 0.689375 - 2^-49, `D` when 0.189375 + 2^-49 <= s <=
0.439375 - 2^-49, and `F` when s <= 0.189375 - 2^-49; within 2^-49 of one of the four edges
the rounding decides between the two grades that meet there. -/
theorem validateAgent_grade_by_specialization (s : Supplied) (agentName : String)
    (testSuite : JsVal) (now : Nat) :
    (validateAgent s agentName testSuite now).testResults.coordination.score
      = F64.lit 0.8600000000000001 ∧
    (validateAgent s agentName testSuite now).testResults.quality.score
      = F64.lit 0.8875000000000001 ∧
    (validateAgent s agentName testSuite now).effectiveness.overallScore
      = F64.add
          (F64.add
            (F64.mul (validateAgent s agentName testSuite now).testResults.specialization.score
              (F64.lit 0.4))
            (F64.mul (F64.lit 0.8600000000000001) (F64.lit 0.3)))
          (F64.mul (F64.lit 0.8875000000000001) (F64.lit 0.3)) ∧
    (validateAgent s agentName testSuite now).effectiveness.grade
      = scoreToGrade (validateAgent s agentName testSuite now).effectiveness.overallScore ∧
    (0 ≤ (validateAgent s agentName testSuite now).testResults.specialization.score →
      (validateAgent s agentName testSuite now).testResults.specialization.score ≤ 1 →
        |(validateAgent s agentName testSuite now).effectiveness.overallScore
          - (0.4 * (validateAgent s agentName testSuite now).testResults.specialization.score
            + 0.52425)| ≤ 1 / 2 ^ 50 ∧
        (0.939375 + 1 / 2 ^ 49
            ≤ (validateAgent s agentName testSuite now).testResults.specialization.score →
          (validateAgent s agentName testSuite now).effectiveness.grade = "A") ∧
        (0.689375 + 1 / 2 ^ 49
            ≤ (validateAgent s agentName testSuite now).testResults.specialization.score →
          (validateAgent s agentName testSuite now).testResults.specialization.score
            ≤ 0.939375 - 1 / 2 ^ 49 →
          (validateAgent s agentName testSuite now).effectiveness.grade = "B") ∧
        (0.439375 + 1 / 2 ^ 49
            ≤ (validateAgent s agentName testSuite now).testResults.specialization.score →
          (validateAgent s agentName testSuite now).testResults.specialization.score
            ≤ 0.689375 - 1 / 2 ^ 49 →
          (validateAgent s agentName testSuite now).effectiveness.grade = "C") ∧
        (0.189375 + 1 / 2 ^ 49
            ≤ (validateAgent s agentName testSuite now).testResults.specialization.score →
          (validateAgent s agentName testSuite now).testResults.specialization.score
            ≤ 0.439375 - 1 / 2 ^ 49 →
          (validateAgent s agentName testSuite now).effectiveness.grade = "D") ∧
        ((validateAgent s agentName testSuite now).testResults.specialization.score
            ≤ 0.189375 - 1 / 2 ^ 49 →
          (validateAgent s agentName testSuite now).effectiveness.grade = "F")) := by
  obtain ⟨hc, hq, hlc, hlq⟩ := fixed_scores agentName testSuite
  obtain ⟨g9, g8, g7, g6⟩ := lit_grades
  have hcoord : (validateAgent s agentName testSuite now).testResults.coordination.score
      = (testCoordination agentName).score := rfl
  have hqual : (validateAgent s agentName testSuite now).testResults.quality.score
      = (testOutputQuality agentName testSuite).score := rfl
  have hov : (validateAgent s agentName testSuite now).effectiveness.overallScore
      = F64.add
          (F64.add
            (F64.mul (validateAgent s agentName testSuite now).testResults.specialization.score
              (F64.lit 0.4))
            (F64.mul (testCoordination agentName).score (F64.lit 0.3)))
          (F64.mul (testOutputQuality agentName testSuite).score (F64.lit 0.3)) := rfl
  have hgrade : (validateAgent s agentName testSuite now).effectiveness.grade
      = scoreToGrade (validateAgent s agentName testSuite now).effectiveness.overallScore :=
    rfl
  refine ⟨by rw [hcoord, hc, hlc], by rw [hqual, hq, hlq], by rw [hov, hc, hq, hlc, hlq],
    hgrade, ?_⟩
  intro h0 h1
  have herr := abs_le.1 (validateAgent_overallScore_error s agentName testSuite now h0 h1)
  rw [hgrade]
  generalize (validateAgent s agentName testSuite now).effectiveness.overallScore = overall
    at herr ⊢
  generalize (validateAgent s agentName testSuite now).testResults.specialization.score = σ
    at herr h0 h1 ⊢
  obtain ⟨hlo, hhi⟩ := herr
  norm_num at hlo hhi
  simp only [scoreToGrade, g9, g8, g7, g6]
  refine ⟨?_, ?_, ?_, ?_, ?_, ?_⟩
  · rw [abs_le]
    norm_num
    constructor <;> linarith
  · intro ha
    norm_num at ha
    rw [if_pos (by linarith)]
  · intro ha hb
    norm_num at ha hb
    rw [if_neg (by linarith), if_pos (by linarith)]
  · intro ha hb
    norm_num at ha hb
    rw [if_neg (by linarith), if_neg (by linarith), if_pos (by linarith)]
  · intro ha hb
    norm_num at ha hb
    rw [if_neg (by linarith), if_neg (by linarith), if_neg (by linarith),
      if_pos (by linarith)]
  · intro hb
    norm_num at hb
    rw [if_neg (by linarith), if_neg (by linarith), if_neg (by linarith),
      if_neg (by linarith)]

end AgentTestingFramework.Double

/-! ## The metrics of the predefined workflows as the code computes them -/

namespace AgentWorkflowDemo.Double

theorem executeWorkflow_metrics (m : Methods) (hm : m.NeverThrows) (workflow : Workflow)
    (w : World) :
    ∃ results metrics, (executeWorkflow m workflow w).1 = .ok results ∧
      results.metrics = some metrics ∧
      metrics.efficiency_score
        = (F64.div ((workflow.phases.countP (fun p => p.parallelTruthy) : Nat) : ℚ)
            (workflow.phases.length : ℚ)).map
          (fun ratio => F64.add (F64.lit 0.6) (F64.mul ratio (F64.lit 0.4))) ∧
      metrics.phase_count = workflow.phases.length ∧
      metrics.agent_executions = (workflow.phases.map (fun p => p.agents.length)).sum := by
  have htotal := executeWorkflow.loop_total m hm workflow.phases [] { w with outputs := [] }
  generalize hrun : executeWorkflow.loop m workflow.phases [] { w with outputs := [] } = run
    at htotal
  obtain ⟨err, rs, w1⟩ := run
  simp only at htotal
  subst htotal
  obtain ⟨new, hrs, hall⟩ := executeWorkflow.loop_labels m _ _ _ _ _ hrun
  rw [List.nil_append] at hrs
  subst hrs
  have hpairs := List.map_eq_map_of_forall₂
    (fun phase : Phase => (phase.parallelTruthy, phase.agents.length))
    (fun phaseResult : PhaseResult =>
      (decide (phaseResult.coordination = "parallel"), phaseResult.agentResults.length))
    workflow.phases rs hall
  have hlen : rs.length = workflow.phases.length := by
    simpa using congrArg List.length hpairs
  have hcount : rs.countP (fun p => p.coordination = "parallel")
      = workflow.phases.countP (fun p => p.parallelTruthy) := by
    have := congrArg (fun l : List (Bool × Nat) => l.countP (fun entry => entry.1)) hpairs
    simpa [List.countP_map, Function.comp_def] using this
  have hagents : rs.map (fun p => p.agentResults.length)
      = workflow.phases.map (fun p => p.agents.length) := by
    simpa [List.map_map, Function.comp_def] using congrArg (List.map Prod.snd) hpairs
  have hwf : (executeWorkflow m workflow w).1
      = .ok
        { workflowName := workflow.name
          startTime := w.now
          phases := rs
          outputs := w1.outputs
          metrics :=
            some
              (calculateWorkflowMetrics
                { workflowName := workflow.name
                  startTime := w.now
                  phases := rs
                  outputs := w1.outputs
                  metrics := none
                  endTime := w1.now
                  duration := (w1.now : Int) - (w.now : Int) })
          endTime := w1.now
          duration := (w1.now : Int) - (w.now : Int) } := by
    simp only [executeWorkflow, hrun]
  refine ⟨_, _, hwf, rfl, ?_, ?_, ?_⟩
  · simp only [calculateWorkflowMetrics, calculateEfficiencyScore,
      ← List.countP_eq_length_filter]
    rw [hcount, hlen]
  · simp only [calculateWorkflowMetrics]
    exact hlen
  · simp only [calculateWorkflowMetrics, List.foldl_add_eq_sum_map, zero_add]
    exact congrArg List.sum hagents

theorem efficiency_values :
    (F64.div 0 5).map (fun ratio => F64.add (F64.lit 0.6) (F64.mul ratio (F64.lit 0.4)))
      = some (F64.lit 0.6) ∧
    (F64.div 2 4).map (fun ratio => F64.add (F64.lit 0.6) (F64.mul ratio (F64.lit 0.4)))
      = some (F64.lit 0.8) ∧
    (F64.div 1 5).map (fun ratio => F64.add (F64.lit 0.6) (F64.mul ratio (F64.lit 0.4)))
      = some (F64.lit 0.6799999999999999) ∧
    F64.lit 0.6799999999999999 < F64.lit 0.68 ∧
    F64.lit 0.6799999999999999 < 0.68 := by
  decide!

end AgentWorkflowDemo.Double

namespace AgentWorkflowDemo.Double

/-- Counterexample to C27 as stated: the efficiency score that the performance
optimization workflow returns is 0.6799999999999999, the binary64 number below 0.68, and
not 0.68. -/
theorem performanceOptimization_efficiency_not_068 :
    ∃ results metrics,
      (performanceOptimizationWorkflow simulated performanceIssues demoWorld).1
        = .ok results ∧
      results.metrics = some metrics ∧
      metrics.efficiency_score = some (F64.lit 0.6799999999999999) ∧
      metrics.efficiency_score ≠ some (F64.lit 0.68) ∧
      metrics.efficiency_score ≠ some 0.68 := by
  obtain ⟨results, metrics, hr, hm, he, _, _⟩ :=
    executeWorkflow_metrics simulated simulated_neverThrows
      (AgentWorkflowDemo.performanceOptimizationWorkflow.workflow performanceIssues) demoWorld
  obtain ⟨_, _, h68, hlt, hlt2⟩ := efficiency_values
  have hv : metrics.efficiency_score = some (F64.lit 0.6799999999999999) := by
    rw [he, ← h68]
    simp [AgentWorkflowDemo.performanceOptimizationWorkflow.workflow, Phase.parallelTruthy]
  refine ⟨results, metrics, hr, hm, hv, ?_, ?_⟩
  · rw [hv]
    intro h
    rw [Option.some.injEq] at h
    rw [h] at hlt
    exact lt_irrefl _ hlt
  · rw [hv]
    intro h
    rw [Option.some.injEq] at h
    rw [h] at hlt2
    exact lt_irrefl _ hlt2

/-- C27, as the code has it: whatever the input and whatever the workers return, none of
them throwing, the new feature workflow has efficiency score 0.6, 5 phases and 6 agent
executions; the security audit workflow 0.8, 4 and 6; the performance optimization workflow
0.6799999999999999, the binary64 number that 0.6 + (1 / 5) * 0.4 evaluates to, 5 and 7; the
code quality workflow 0.8, 4 and 9. -/
theorem predefined_workflows_metrics (m : Methods) (hm : m.NeverThrows) (input : JsVal)
    (w : World) :
    (∃ results metrics, (newFeatureWorkflow m input w).1 = .ok results ∧
      results.metrics = some metrics ∧ metrics.efficiency_score = some (F64.lit 0.6) ∧
      metrics.phase_count = 5 ∧ metrics.agent_executions = 6) ∧
    (∃ results metrics, (securityAuditWorkflow m input w).1 = .ok results ∧
      results.metrics = some metrics ∧ metrics.efficiency_score = some (F64.lit 0.8) ∧
      metrics.phase_count = 4 ∧ metrics.agent_executions = 6) ∧
    (∃ results metrics, (performanceOptimizationWorkflow m input w).1 = .ok results ∧
      results.metrics = some metrics ∧
      metrics.efficiency_score = some (F64.lit 0.6799999999999999) ∧
      metrics.phase_count = 5 ∧ metrics.agent_executions = 7) ∧
    (∃ results metrics, (codeQualityWorkflow m input w).1 = .ok results ∧
      results.metrics = some metrics ∧ metrics.efficiency_score = some (F64.lit 0.8) ∧
      metrics.phase_count = 4 ∧ metrics.agent_executions = 9) := by
  obtain ⟨h60, h80, h68, _, _⟩ := efficiency_values
  refine ⟨?_, ?_, ?_, ?_⟩
  · obtain ⟨results, metrics, hr, hmet, he, hp, ha⟩ := executeWorkflow_metrics m hm
      (AgentWorkflowDemo.newFeatureWorkflow.workflow input) w
    refine ⟨results, metrics, hr, hmet, ?_, ?_, ?_⟩
    · rw [he, ← h60]
      simp [AgentWorkflowDemo.newFeatureWorkflow.workflow, Phase.parallelTruthy]
    · rw [hp]; rfl
    · rw [ha]; rfl
  · obtain ⟨results, metrics, hr, hmet, he, hp, ha⟩ := executeWorkflow_metrics m hm
      (AgentWorkflowDemo.securityAuditWorkflow.workflow input) w
    refine ⟨results, metrics, hr, hmet, ?_, ?_, ?_⟩
    · rw [he, ← h80]
      simp [AgentWorkflowDemo.securityAuditWorkflow.workflow, Phase.parallelTruthy]
    · rw [hp]; rfl
    · rw [ha]; rfl
  · obtain ⟨results, metrics, hr, hmet, he, hp, ha⟩ := executeWorkflow_metrics m hm
      (AgentWorkflowDemo.performanceOptimizationWorkflow.workflow input) w
    refine ⟨results, metrics, hr, hmet, ?_, ?_, ?_⟩
    · rw [he, ← h68]
      simp [AgentWorkflowDemo.performanceOptimizationWorkflow.workflow, Phase.parallelTruthy]
    · rw [hp]; rfl
    · rw [ha]; rfl
  · obtain ⟨results, metrics, hr, hmet, he, hp, ha⟩ := executeWorkflow_metrics m hm
      (AgentWorkflowDemo.codeQualityWorkflow.workflow input) w
    refine ⟨results, metrics, hr, hmet, ?_, ?_, ?_⟩
    · rw [he, ← h80]
      simp [AgentWorkflowDemo.codeQualityWorkflow.workflow, Phase.parallelTruthy]
    · rw [hp]; rfl
    · rw [ha]; rfl

/-- Witness for C27 as amended: the workers of the source, the inputs of the
demonstration. -/
theorem predefined_workflows_metrics_witness :
    simulated.NeverThrows ∧
    (∃ results metrics,
      (performanceOptimizationWorkflow simulated performanceIssues demoWorld).1
        = .ok results ∧
      results.metrics = some metrics ∧
      metrics.efficiency_score = some (F64.lit 0.6799999999999999) ∧
      metrics.phase_count = 5 ∧ metrics.agent_executions = 7) :=
  ⟨simulated_neverThrows,
    (predefined_workflows_metrics simulated simulated_neverThrows performanceIssues
      demoWorld).2.2.1⟩

end AgentWorkflowDemo.Double
